import Mathlib

/-!
# Mondo selector language: tokenizer, parser, evaluators and selector cache

A shallow embedding of the JavaScript sources

* `src/tokenizer.js`  (`Tokenizer`)
* `src/parser.js`     (`SelectorParser`)
* `src/evaluator/filter.js` (`FilterEvaluator`)
* `src/evaluator/property-chain.js` (`PropertyChainEvaluator`)
* `src/evaluator.js`  (`SelectorEvaluator`)
* `src/cache.js`, `src/index.js` (`SelectorCache`, `select`)

Conventions of the embedding.

* JavaScript strings are Lean strings (sequences of code points).
* JavaScript numbers are `JSNum`: `NaN`, the two infinities, or an exact rational
  (binary64 rounding and the sign of zero are not represented).
* Arrays and plain objects carry an identity `id` (their heap address): `===` and
  `Set` membership compare objects by identity, never by content.
* A thrown exception is `Except.error (Err.thrown msg)`; a loop that has not
  finished within the fuel it was given is `Except.error Err.outOfFuel`.
-/

namespace Mondo

/-! ## Values -/

/-- A JavaScript number. -/
inductive JSNum where
  | nan
  | posInf
  | negInf
  | fin (q : ℚ)
  deriving DecidableEq

/-- JSON-like JavaScript values.  `arr` and `obj` carry their object identity; the
members of an object are listed in `Object.values` order. -/
inductive JSVal where
  | undefined
  | null
  | bool (b : Bool)
  | num (n : JSNum)
  | str (s : String)
  | arr (id : Nat) (elems : List JSVal)
  | obj (id : Nat) (members : List (String × JSVal))

instance : Inhabited JSVal := ⟨JSVal.undefined⟩

/-- Outcome of a computation that may throw or run out of fuel. -/
inductive Err where
  | thrown (msg : String)
  | outOfFuel
  deriving DecidableEq

namespace JSNum

/-- Numeric `a < b` of two numbers (false as soon as one is `NaN`). -/
def lt : JSNum → JSNum → Bool
  | nan, _ => false
  | _, nan => false
  | posInf, _ => false
  | negInf, negInf => false
  | negInf, _ => true
  | fin _, posInf => true
  | fin _, negInf => false
  | fin a, fin b => decide (a < b)

/-- Numeric `a <= b` of two numbers (false as soon as one is `NaN`). -/
def le : JSNum → JSNum → Bool
  | nan, _ => false
  | _, nan => false
  | a, b => !(lt b a)

/-- Host `isNaN` on a number. -/
def isNaN : JSNum → Bool
  | nan => true
  | _ => false

end JSNum

namespace JSVal

/-- The test `data == null`: true for `null` and `undefined` only. -/
def isNullish : JSVal → Bool
  | undefined => true
  | null => true
  | _ => false

/-- Host `Array.isArray`. -/
def isArray : JSVal → Bool
  | arr _ _ => true
  | _ => false

/-- The strict equality `a === b`. -/
def strictEquals : JSVal → JSVal → Bool
  | undefined, undefined => true
  | null, null => true
  | bool a, bool b => a == b
  | num a, num b => !a.isNaN && decide (a = b)
  | str a, str b => decide (a = b)
  | arr i _, arr j _ => i == j
  | obj i _, obj j _ => i == j
  | _, _ => false

/-- `SameValueZero`, the equality used by `Set`: like `===` except that `NaN`
equals itself. -/
def sameValueZero : JSVal → JSVal → Bool
  | undefined, undefined => true
  | null, null => true
  | bool a, bool b => a == b
  | num a, num b => decide (a = b)
  | str a, str b => decide (a = b)
  | arr i _, arr j _ => i == j
  | obj i _, obj j _ => i == j
  | _, _ => false

/-- Host truthiness `!!v`. -/
def toBoolean : JSVal → Bool
  | undefined => false
  | null => false
  | bool b => b
  | num JSNum.nan => false
  | num (JSNum.fin q) => decide (q ≠ 0)
  | num _ => true
  | str s => decide (s ≠ "")
  | arr _ _ => true
  | obj _ _ => true

end JSVal

/-! ## Strings -/

/-- White space and line terminators, as stripped by `String.prototype.trim` and
matched by `\s`. -/
def jsIsWhitespace (c : Char) : Bool :=
  let n := c.toNat
  n == 0x09 || n == 0x0A || n == 0x0B || n == 0x0C || n == 0x0D || n == 0x20 ||
  n == 0xA0 || n == 0x1680 || (0x2000 ≤ n && n ≤ 0x200A) || n == 0x2028 ||
  n == 0x2029 || n == 0x202F || n == 0x205F || n == 0x3000 || n == 0xFEFF

/-- The method `String.prototype.trim` on a list of characters. -/
def trimChars (cs : List Char) : List Char :=
  ((cs.dropWhile jsIsWhitespace).reverse.dropWhile jsIsWhitespace).reverse

/-- The method `String.prototype.trim`. -/
def jsTrim (s : String) : String := String.mk (trimChars s.toList)

/-- Worker of `splitChars`: `skip` counts the characters of a separator occurrence
still to be passed over, `acc` is the current part, reversed. -/
def splitCharsAux (sep : List Char) : Nat → List Char → List Char → List (List Char)
  | _, acc, [] => [acc.reverse]
  | skip + 1, acc, _ :: rest => splitCharsAux sep skip acc rest
  | 0, acc, c :: rest =>
    if sep.isPrefixOf (c :: rest) then
      acc.reverse :: splitCharsAux sep (sep.length - 1) [] rest
    else
      splitCharsAux sep 0 (c :: acc) rest

/-- The method `String.prototype.split` with a non-empty separator string: the text
is cut at every occurrence of the separator, scanning from the left. -/
def splitChars (sep cs : List Char) : List (List Char) := splitCharsAux sep 0 [] cs

/-- The method `s.split(sep)`. -/
def jsSplit (s sep : String) : List String :=
  (splitChars sep.toList s.toList).map String.mk

/-- Value of a list of decimal digits. -/
def digitsToNat (ds : List Char) : Nat :=
  ds.foldl (fun acc c => acc * 10 + (c.toNat - 48)) 0

/-- An integer produced by `parseInt`: an integer or `NaN`. -/
inductive JSInt where
  | nan
  | int (i : Int)
  deriving DecidableEq

/-- Host `parseInt(s, 10)`: leading white space, an optional sign and the longest
run of decimal digits; `NaN` when there is no digit. -/
def parseInt10 (s : String) : JSInt :=
  let cs := s.toList.dropWhile jsIsWhitespace
  let neg := cs.head? == some '-'
  let body := match cs with
    | '-' :: r => r
    | '+' :: r => r
    | _ => cs
  let ds := body.takeWhile Char.isDigit
  if ds.isEmpty then JSInt.nan
  else JSInt.int (if neg then - (digitsToNat ds : Int) else (digitsToNat ds : Int))

/-- The rational `m * 10 ^ e`. -/
def scale10 (m : Int) (e : Int) : ℚ :=
  if 0 ≤ e then ((m * (10 : Int) ^ e.toNat : Int) : ℚ) else mkRat m (10 ^ (-e).toNat)

/-- Exponent part `e[+-]?digits` at the head of `cs`; `0` when there is none. -/
def parseExponent (cs : List Char) : Int :=
  match cs with
  | c :: r =>
    if c == 'e' || c == 'E' then
      let neg := r.head? == some '-'
      let body := match r with
        | '-' :: r1 => r1
        | '+' :: r1 => r1
        | _ => r
      let ds := body.takeWhile Char.isDigit
      if ds.isEmpty then 0
      else if neg then - (digitsToNat ds : Int) else (digitsToNat ds : Int)
    else 0
  | [] => 0

/-- Host `parseFloat`: the value of the longest prefix of the text (after leading
white space) that is a decimal literal; `NaN` when there is none.  The value is the
exact decimal value: the rounding to a double and the overflow to `Infinity` are not
represented. -/
def parseFloat (s : String) : JSNum :=
  let cs := s.toList.dropWhile jsIsWhitespace
  let neg := cs.head? == some '-'
  let body := match cs with
    | '-' :: r => r
    | '+' :: r => r
    | _ => cs
  if "Infinity".toList.isPrefixOf body then
    (if neg then JSNum.negInf else JSNum.posInf)
  else
    let intDs := body.takeWhile Char.isDigit
    let r1 := body.dropWhile Char.isDigit
    let fracDs := match r1 with
      | '.' :: r => r.takeWhile Char.isDigit
      | _ => []
    let r2 := match r1 with
      | '.' :: r => r.dropWhile Char.isDigit
      | _ => r1
    if intDs.isEmpty && fracDs.isEmpty then JSNum.nan
    else
      let m : Int := digitsToNat (intDs ++ fracDs)
      let e : Int := parseExponent r2 - fracDs.length
      JSNum.fin (scale10 (if neg then -m else m) e)

/-! ## Tokens and syntax trees -/

/-- A slice `{start, end, step}` as built by `Tokenizer.parseSlice`: `start` and
`end` are absent (`undefined`) or the result of `parseInt`; `step` is always the
result of `parseInt`. -/
structure Slice where
  start : Option JSInt
  end_ : Option JSInt
  step : JSInt
  deriving DecidableEq

/-- Token kinds of `Tokenizer.addToken`. -/
inductive Token where
  | dot
  | leftParen
  | rightParen
  | and
  | or
  | not
  | wildcard
  | deepWildcard
  | filter (raw : String)
  | slice (s : Slice)
  | property (name : String)
  deriving DecidableEq

/-- The `operator` of a `ComparisonFilter`. -/
inductive FilterOp where
  | eq
  | gt
  | lt
  | gte
  | lte
  | regex
  deriving DecidableEq

/-- A filter node built by `SelectorParser.parseFilter`. -/
inductive Filter where
  | comparison (operator : FilterOp) (property : String) (value : JSVal)
  | existence (property : String)

/-- A segment of a property chain. -/
inductive Segment where
  | property (name : String) (filter : Option Filter) (slice : Option Slice)
  | wildcard (filter : Option Filter)
  | deepWildcard (filter : Option Filter)

/-- The `operator` of a `LogicalExpression`. -/
inductive LogicalOp where
  | and
  | or
  deriving DecidableEq

/-- Syntax tree of a selector. -/
inductive AST where
  | logical (operator : LogicalOp) (left right : AST)
  | unary (expression : AST)
  | propertyChain (segments : List Segment)

instance : Inhabited AST := ⟨AST.propertyChain []⟩

/-! ## Tokenizer (`src/tokenizer.js`) -/

/-- State of a `Tokenizer`: the selector text, the tokens added so far and the
read position. -/
structure Tokenizer where
  selector : List Char
  tokens : List Token
  pos : Nat

/-- The test `/[a-zA-Z_$]/`. -/
def isIdentifierStart (c : Char) : Bool := c.isAlpha || c == '_' || c == '$'

/-- The test `/[a-zA-Z0-9_$]/`. -/
def isIdentifierPart (c : Char) : Bool := c.isAlphanum || c == '_' || c == '$'

/-- Drops an optional `-`. -/
def skipMinus : List Char → List Char
  | '-' :: r => r
  | cs => cs

/-- Matches `\s*-?\d*\s*` at the head of `cs` and returns what follows. -/
def skipSlicePart (cs : List Char) : List Char :=
  ((skipMinus (cs.dropWhile jsIsWhitespace)).dropWhile Char.isDigit).dropWhile jsIsWhitespace

/-- The test `/^\s*-?\d*\s*:\s*-?\d*\s*(?::\s*-?\d*\s*)?$/` of `Tokenizer.isSlice`. -/
def isSlice (content : String) : Bool :=
  match skipSlicePart content.toList with
  | ':' :: r =>
    match skipSlicePart r with
    | [] => true
    | ':' :: r2 => (skipSlicePart r2).isEmpty
    | _ => false
  | _ => false

/-- The call `parseInt(step, 10)` on a value that is already a number: the number
is converted to text and read back, which returns it unchanged (for integers of
magnitude below `1e21`, and for `NaN`). -/
def parseIntOfNumber (n : JSInt) : JSInt := n

/-- The method `Tokenizer.parseSlice`. -/
def parseSlice (content : String) : Slice :=
  let parts : List (Option JSInt) := (jsSplit content ":").map (fun s =>
    let s := jsTrim s
    if s = "" then none else some (parseInt10 s))
  let start := (parts.get? 0).join
  let end_ := (parts.get? 1).join
  let step := match (parts.get? 2).join with
    | none => parseInt10 "1"
    | some n => parseIntOfNumber n
  { start := start, end_ := end_, step := step }

/-- The scanning loop of `tokenizeSquareBracket`: `rest` is the unread text from
`pos` on; returns the position of the closing bracket (or the end of the text). -/
def scanBracket : List Char → Nat → Nat → Nat
  | [], pos, _ => pos
  | c :: rest, pos, depth =>
    if c = ']' then
      (if depth - 1 = 0 then pos else scanBracket rest (pos + 1) (depth - 1))
    else if c = '[' then scanBracket rest (pos + 1) (depth + 1)
    else scanBracket rest (pos + 1) depth

/-- The method `String.prototype.slice(start, stop)` for `0 ≤ start`. -/
def sliceChars (cs : List Char) (start stop : Nat) : List Char :=
  (cs.take stop).drop start

/-- The method `Tokenizer.addToken`. -/
def Tokenizer.addToken (t : Tokenizer) (tok : Token) : Tokenizer :=
  { t with tokens := t.tokens ++ [tok] }

/-- The method `Tokenizer.tokenizeSquareBracket`. -/
def Tokenizer.tokenizeSquareBracket (t : Tokenizer) : Tokenizer :=
  let start := t.pos + 1
  let stop := scanBracket (t.selector.drop start) start 1
  let content := String.mk (sliceChars t.selector start stop)
  let t := { t with pos := stop + 1 }
  if isSlice content then t.addToken (Token.slice (parseSlice content))
  else t.addToken (Token.filter content)

/-- The scanning loop of `tokenizeIdentifier`. -/
def scanIdentifier : List Char → Nat → Nat
  | [], pos => pos
  | c :: rest, pos => if isIdentifierPart c then scanIdentifier rest (pos + 1) else pos

/-- The method `Tokenizer.tokenizeIdentifier`. -/
def Tokenizer.tokenizeIdentifier (t : Tokenizer) : Tokenizer :=
  let start := t.pos
  let stop := scanIdentifier (t.selector.drop start) start
  { t with pos := stop }.addToken (Token.property (String.mk (sliceChars t.selector start stop)))

/-- The method `Tokenizer.tokenizeNext`. -/
def Tokenizer.tokenizeNext (t : Tokenizer) : Tokenizer :=
  match t.selector.get? t.pos with
  | none => t
  | some c =>
    if c = '.' then { t.addToken Token.dot with pos := t.pos + 1 }
    else if c = '[' then t.tokenizeSquareBracket
    else if c = '(' then { t.addToken Token.leftParen with pos := t.pos + 1 }
    else if c = ')' then { t.addToken Token.rightParen with pos := t.pos + 1 }
    else if c = '&' then { t.addToken Token.and with pos := t.pos + 1 }
    else if c = '|' then { t.addToken Token.or with pos := t.pos + 1 }
    else if c = '!' then { t.addToken Token.not with pos := t.pos + 1 }
    else if c = '*' then
      (if t.selector.get? (t.pos + 1) = some '*' then
        { t.addToken Token.deepWildcard with pos := t.pos + 2 }
      else { t.addToken Token.wildcard with pos := t.pos + 1 })
    else if c = ' ' || c = '\t' || c = '\n' || c = '\r' then { t with pos := t.pos + 1 }
    else if isIdentifierStart c then t.tokenizeIdentifier
    else { t with pos := t.pos + 1 }

/-- The loop `while (this.pos < length) this.tokenizeNext()`. -/
def Tokenizer.loop : Nat → Tokenizer → Except Err Tokenizer
  | 0, t => if t.pos < t.selector.length then Except.error Err.outOfFuel else Except.ok t
  | fuel + 1, t =>
    if t.pos < t.selector.length then Tokenizer.loop fuel t.tokenizeNext else Except.ok t

/-- The method `Tokenizer.tokenize` on the text `selector`.  Every step moves the
position forward, so `selector.length` steps are enough. -/
def tokenize (selector : String) : Except Err (List Token) :=
  (Tokenizer.loop selector.length
    { selector := selector.toList, tokens := [], pos := 0 }).map (fun t => t.tokens)

/-! ## Parser (`src/parser.js`) -/

/-- The method `SelectorParser.parseFilterValue`. -/
def parseFilterValue (value : String) : JSVal :=
  if value = "true" then JSVal.bool true
  else if value = "false" then JSVal.bool false
  else if value = "null" then JSVal.null
  else if value = "undefined" then JSVal.undefined
  else
    let c0 := value.toList.head?
    let numeric : Bool := match c0 with
      | some c => c == '-' || ('0' ≤ c && c ≤ '9')
      | none => false
    if numeric && !(parseFloat value).isNaN then JSVal.num (parseFloat value)
    else if c0 == some (Char.ofNat 34) || c0 == some (Char.ofNat 39) then
      JSVal.str (String.mk (value.toList.drop 1).dropLast)
    else JSVal.str value

/-- The operator table of `parseFilter`, in the order in which `Object.entries`
enumerates it. -/
def filterOperators : List (String × FilterOp) :=
  [("=", FilterOp.eq), (">", FilterOp.gt), ("<", FilterOp.lt), (">=", FilterOp.gte),
   ("<=", FilterOp.lte), ("~", FilterOp.regex)]

/-- The loop of `parseFilter` over the (remaining) operator table. -/
def parseFilterLoop : List (String × FilterOp) → String → Filter
  | [], filterStr => Filter.existence (jsTrim filterStr)
  | (op, type) :: rest, filterStr =>
    match jsSplit filterStr op with
    | [left, right] => Filter.comparison type (jsTrim left) (parseFilterValue (jsTrim right))
    | _ => parseFilterLoop rest filterStr

/-- The method `SelectorParser.parseFilter`. -/
def parseFilter (filterStr : String) : Filter := parseFilterLoop filterOperators filterStr

/-- The assignment `current.filter = f` on a segment. -/
def Segment.setFilter (f : Filter) : Segment → Segment
  | Segment.property n _ s => Segment.property n (some f) s
  | Segment.wildcard _ => Segment.wildcard (some f)
  | Segment.deepWildcard _ => Segment.deepWildcard (some f)

/-- The assignment `current.slice = s` on a segment. -/
def Segment.setSlice (sl : Slice) : Segment → Segment
  | Segment.property n f _ => Segment.property n f (some sl)
  | seg => seg

/-- Applies `f` to the element at index `i`. -/
def updateAt {α : Type} (f : α → α) : Nat → List α → List α
  | _, [] => []
  | 0, x :: xs => f x :: xs
  | i + 1, x :: xs => x :: updateAt f i xs

/-- The loop of `parsePropertyChain`: `rest` is the token array from `pos` on,
`current` the index in `segments` of the segment the variable `current` refers to
(`none` for `null`). -/
def parsePropertyChainLoop :
    List Token → List Segment → Option Nat → Nat → Except Err (AST × Nat)
  | [], segments, _, pos => Except.ok (AST.propertyChain segments, pos)
  | Token.property name :: rest, segments, _, pos =>
    parsePropertyChainLoop rest (segments ++ [Segment.property name none none])
      (some segments.length) (pos + 1)
  | Token.wildcard :: rest, segments, current, pos =>
    parsePropertyChainLoop rest (segments ++ [Segment.wildcard none]) current (pos + 1)
  | Token.deepWildcard :: rest, segments, current, pos =>
    parsePropertyChainLoop rest (segments ++ [Segment.deepWildcard none]) current (pos + 1)
  | Token.filter raw :: rest, segments, current, pos =>
    match current with
    | none => Except.error (Err.thrown "Filter without property")
    | some i =>
      parsePropertyChainLoop rest (updateAt (Segment.setFilter (parseFilter raw)) i segments)
        current (pos + 1)
  | Token.slice sl :: rest, segments, current, pos =>
    match current with
    | none => Except.error (Err.thrown "Slice without property")
    | some i =>
      parsePropertyChainLoop rest (updateAt (Segment.setSlice sl) i segments) current (pos + 1)
  | Token.dot :: rest, segments, current, pos =>
    parsePropertyChainLoop rest segments current (pos + 1)
  | _ :: _, segments, _, pos => Except.ok (AST.propertyChain segments, pos)

/-- The method `SelectorParser.parsePropertyChain`, started at position `pos`;
returns the chain and the position reached. -/
def parsePropertyChain (tokens : List Token) (pos : Nat) : Except Err (AST × Nat) :=
  parsePropertyChainLoop (tokens.drop pos) [] none pos

/-- The first loop of `parseLogicalExpression` ("Process AND operators first"),
with the index `i`, on the arrays `expressions` and `operators`.  One round either
removes an operator or advances `i`, so `operators.length` rounds finish it. -/
def andLoop : Nat → Nat → List AST → List LogicalOp → List AST × List LogicalOp
  | 0, _, expressions, operators => (expressions, operators)
  | fuel + 1, i, expressions, operators =>
    if i < operators.length then
      if operators.get? i = some LogicalOp.and then
        let node := AST.logical LogicalOp.and (expressions.getD i default)
          (expressions.getD (i + 1) default)
        andLoop fuel i ((expressions.set i node).eraseIdx (i + 1)) (operators.eraseIdx i)
      else andLoop fuel (i + 1) expressions operators
    else (expressions, operators)

/-- The second loop of `parseLogicalExpression` ("Process remaining OR operators"). -/
def orLoop (expressions : List AST) (operators : List LogicalOp) : AST :=
  (List.range operators.length).foldl
    (fun result i => AST.logical LogicalOp.or result (expressions.getD (i + 1) default))
    (expressions.getD 0 default)

/-- The tail of `parseLogicalExpression`, after the operands and the operators
have been collected: the single-expression shortcut and the two folding loops. -/
def combineExpressions (expressions : List AST) (operators : List LogicalOp) : AST :=
  if expressions.length = 1 then expressions.getD 0 default
  else
    let folded := andLoop operators.length 0 expressions operators
    orLoop folded.1 folded.2

/-- The message of the error that `consume("RIGHT_PAREN", ..)` throws: the word
`Expected` followed by a closing parenthesis in single quotes. -/
def expectedParenMessage : String :=
  "Expected " ++ String.mk [Char.ofNat 39, ')', Char.ofNat 39]

mutual

/-- The method `SelectorParser.parseLogicalExpression` at position `pos`. -/
def parseLogicalExpression : Nat → List Token → Nat → Except Err (AST × Nat)
  | 0, _, _ => Except.error Err.outOfFuel
  | fuel + 1, tokens, pos =>
    match parseUnary fuel tokens pos with
    | Except.error e => Except.error e
    | Except.ok (first, pos1) =>
      match collectOperands fuel tokens [first] [] pos1 with
      | Except.error e => Except.error e
      | Except.ok (expressions, operators, pos2) =>
        Except.ok (combineExpressions expressions operators, pos2)

/-- The collecting loop of `parseLogicalExpression`: while the next token is `AND`
or `OR`, record the operator and parse one more unary operand. -/
def collectOperands : Nat → List Token → List AST → List LogicalOp → Nat →
    Except Err (List AST × List LogicalOp × Nat)
  | 0, _, _, _, _ => Except.error Err.outOfFuel
  | fuel + 1, tokens, expressions, operators, pos =>
    match tokens.get? pos with
    | some Token.and =>
      match parseUnary fuel tokens (pos + 1) with
      | Except.error e => Except.error e
      | Except.ok (operand, pos1) =>
        collectOperands fuel tokens (expressions ++ [operand])
          (operators ++ [LogicalOp.and]) pos1
    | some Token.or =>
      match parseUnary fuel tokens (pos + 1) with
      | Except.error e => Except.error e
      | Except.ok (operand, pos1) =>
        collectOperands fuel tokens (expressions ++ [operand])
          (operators ++ [LogicalOp.or]) pos1
    | _ => Except.ok (expressions, operators, pos)

/-- The method `SelectorParser.parseUnary` at position `pos`. -/
def parseUnary : Nat → List Token → Nat → Except Err (AST × Nat)
  | 0, _, _ => Except.error Err.outOfFuel
  | fuel + 1, tokens, pos =>
    match tokens.get? pos with
    | some Token.not =>
      match parseUnary fuel tokens (pos + 1) with
      | Except.error e => Except.error e
      | Except.ok (expression, pos1) => Except.ok (AST.unary expression, pos1)
    | some Token.leftParen =>
      match parseLogicalExpression fuel tokens (pos + 1) with
      | Except.error e => Except.error e
      | Except.ok (expr, pos1) =>
        if tokens.get? pos1 = some Token.rightParen then Except.ok (expr, pos1 + 1)
        else Except.error (Err.thrown expectedParenMessage)
    | _ => parsePropertyChain tokens pos

end

/-- Fuel that lets `parseLogicalExpression` finish on `n` tokens. -/
def parseFuel (n : Nat) : Nat := 2 * n + 2

/-- Outcome of `SelectorParser.parse` on a token array: the syntax tree and the
parser position `this.pos` when `parse` returns. -/
def parseTokens (tokens : List Token) : Except Err (AST × Nat) :=
  parseLogicalExpression (parseFuel tokens.length) tokens 0

/-- The method `SelectorParser.parse` for the selector text `selector`. -/
def parse (selector : String) : Except Err AST :=
  match tokenize selector with
  | Except.error e => Except.error e
  | Except.ok tokens => (parseTokens tokens).map (fun r => r.1)

/-! ## Member access -/

/-- A canonical array index: a decimal numeral without a superfluous leading zero. -/
def arrayIndex (key : String) : Option Nat :=
  let cs := key.toList
  if !cs.isEmpty && cs.all Char.isDigit && (cs.length == 1 || cs.head? != some '0') then
    some (digitsToNat cs)
  else none

/-- The member access `data[key]` on a value that is neither `null` nor `undefined`.
Own members of objects, elements and `length` of arrays and strings are represented;
members inherited from the built-in prototypes (methods) are not, and a string is
taken as its sequence of code points (the host counts UTF-16 code units, which
differs for characters outside the basic plane). -/
def getMember : JSVal → String → JSVal
  | JSVal.obj _ members, key => (members.lookup key).getD JSVal.undefined
  | JSVal.arr _ elems, key =>
    if key = "length" then JSVal.num (JSNum.fin elems.length)
    else match arrayIndex key with
      | some i => elems.getD i JSVal.undefined
      | none => JSVal.undefined
  | JSVal.str s, key =>
    if key = "length" then JSVal.num (JSNum.fin s.length)
    else match arrayIndex key with
      | some i => match s.toList.get? i with
        | some c => JSVal.str (String.singleton c)
        | none => JSVal.undefined
      | none => JSVal.undefined
  | _, _ => JSVal.undefined

/-! ## Filter evaluator (`src/evaluator/filter.js`) -/

/-- Host primitives used by the filter evaluator that are taken as parameters.

* `regexTest a b` is `new RegExp(b).test(String(a))`; `none` when the `RegExp`
  constructor throws (an invalid pattern).
* `relational op a b` is the outcome of `a > b`, `a < b`, `a >= b`, `a <= b` when the
  operands are not both numbers, where the host first coerces them. -/
structure Host where
  regexTest : JSVal → JSVal → Option Bool
  relational : FilterOp → JSVal → JSVal → Bool

/-- The operator functions of `createOperatorFunction`, applied to `a` and `b`. -/
def applyOperator (h : Host) (operator : FilterOp) (a b : JSVal) : Except Err Bool :=
  match operator, a, b with
  | FilterOp.eq, a, b => Except.ok (a.strictEquals b)
  | FilterOp.gt, JSVal.num x, JSVal.num y => Except.ok (JSNum.lt y x)
  | FilterOp.lt, JSVal.num x, JSVal.num y => Except.ok (JSNum.lt x y)
  | FilterOp.gte, JSVal.num x, JSVal.num y => Except.ok (JSNum.le y x)
  | FilterOp.lte, JSVal.num x, JSVal.num y => Except.ok (JSNum.le x y)
  | FilterOp.regex, a, b =>
    match h.regexTest a b with
    | some r => Except.ok r
    | none => Except.error (Err.thrown "SyntaxError: Invalid regular expression")
  | op, a, b => Except.ok (h.relational op a b)

/-- The loop of `resolvePath` over the parts of the path. -/
def resolvePathLoop : List String → JSVal → JSVal
  | [], current => current
  | part :: parts, current =>
    if current.isNullish then JSVal.undefined
    else resolvePathLoop parts (getMember current part)

/-- The method `FilterEvaluator.resolvePath`. -/
def resolvePath (obj : JSVal) (path : String) : JSVal :=
  resolvePathLoop (jsSplit path ".") obj

/-- The method `FilterEvaluator.evaluateFilter` (with `evaluateComparison` and
`evaluateExistence`).  The operator cache only stores the operator function and
has no effect on the outcome. -/
def evaluateFilter (h : Host) (filter : Filter) (data : JSVal) : Except Err Bool :=
  match filter with
  | Filter.comparison operator property value =>
    applyOperator h operator (resolvePath data property) value
  | Filter.existence property =>
    Except.ok (!(resolvePath data property).strictEquals JSVal.undefined)

/-- The method `Array.prototype.filter` with the predicate `evaluateFilter(filter, ·)`;
it stops at the first call that throws. -/
def filterByFilter (h : Host) (filter : Filter) : List JSVal → Except Err (List JSVal)
  | [] => Except.ok []
  | item :: rest =>
    match evaluateFilter h filter item with
    | Except.error e => Except.error e
    | Except.ok keep =>
      match filterByFilter h filter rest with
      | Except.error e => Except.error e
      | Except.ok kept => Except.ok (if keep then item :: kept else kept)

/-! ## Property-chain evaluator (`src/evaluator/property-chain.js`) -/

/-- A value held in a local variable of an evaluator: a value of the input data, or
an array freshly built by the evaluator (whose identity is never observed). -/
inductive Result where
  | value (v : JSVal)
  | fresh (elems : List JSVal)

/-- The elements of a result when `Array.isArray` holds of it. -/
def Result.asArray : Result → Option (List JSVal)
  | Result.value (JSVal.arr _ elems) => some elems
  | Result.value _ => none
  | Result.fresh elems => some elems

/-- The `filter` member of a segment (`undefined` is `none`). -/
def Segment.filter : Segment → Option Filter
  | Segment.property _ f _ => f
  | Segment.wildcard f => f
  | Segment.deepWildcard f => f

namespace JSInt

/-- Numeric `a < b`. -/
def lt : JSInt → JSInt → Bool
  | int a, int b => decide (a < b)
  | _, _ => false

/-- Numeric `a + b`. -/
def add : JSInt → JSInt → JSInt
  | int a, int b => int (a + b)
  | _, _ => nan

/-- Host `Math.abs`. -/
def abs : JSInt → JSInt
  | int a => int (Int.natAbs a)
  | nan => nan

end JSInt

/-- The element access `array[i]` for a number `i`. -/
def indexArray (array : List JSVal) : JSInt → JSVal
  | JSInt.int i => if 0 ≤ i then array.getD i.toNat JSVal.undefined else JSVal.undefined
  | JSInt.nan => JSVal.undefined

/-- The `for` loop of `applySlice`: `i` is the loop variable, `stop` is
`normalizedEnd`, `inc` is `Math.abs(step)`.  The length of `result` is not limited
here; `applySliceLoopLimited` is the same loop with the host limit on the length of
an array. -/
def applySliceLoop (array : List JSVal) (stop inc : JSInt) :
    Nat → JSInt → List JSVal → Except Err (List JSVal)
  | 0, i, result => if JSInt.lt i stop then Except.error Err.outOfFuel else Except.ok result
  | fuel + 1, i, result =>
    if JSInt.lt i stop then
      applySliceLoop array stop inc fuel (JSInt.add i inc) (result ++ [indexArray array i])
    else Except.ok result

/-- The method `PropertyChainEvaluator.applySlice`; `fuel` bounds the number of
rounds of its loop. -/
def applySlice (fuel : Nat) (slice : Slice) (array : List JSVal) :
    Except Err (List JSVal) :=
  let length : JSInt := JSInt.int array.length
  let start := slice.start.getD (JSInt.int 0)
  let end_ := slice.end_.getD length
  let step := slice.step
  let normalizedStart := if JSInt.lt start (JSInt.int 0) then JSInt.add length start else start
  let normalizedEnd := if JSInt.lt end_ (JSInt.int 0) then JSInt.add length end_ else end_
  match applySliceLoop array normalizedEnd (JSInt.abs step) fuel normalizedStart [] with
  | Except.error e => Except.error e
  | Except.ok result =>
    Except.ok (if JSInt.lt step (JSInt.int 0) then result.reverse else result)

/-- The `for` loop of `applySlice` on a host whose arrays hold at most `maxLength`
elements (`2 ^ 32 - 1` in the language definition, less in an engine that cannot
allocate that much): `result.push` on an array that already holds `maxLength`
elements throws a `RangeError`.  `fuel` bounds the number of rounds. -/
def applySliceLoopLimited (maxLength : Nat) (array : List JSVal) (stop inc : JSInt) :
    Nat → JSInt → List JSVal → Except Err (List JSVal)
  | 0, i, result => if JSInt.lt i stop then Except.error Err.outOfFuel else Except.ok result
  | fuel + 1, i, result =>
    if JSInt.lt i stop then
      if result.length < maxLength then
        applySliceLoopLimited maxLength array stop inc fuel (JSInt.add i inc)
          (result ++ [indexArray array i])
      else Except.error (Err.thrown "RangeError: Invalid array length")
    else Except.ok result

/-- The method `PropertyChainEvaluator.applySlice` on a host whose arrays hold at most
`maxLength` elements; `fuel` bounds the number of rounds of its loop. -/
def applySliceLimited (maxLength fuel : Nat) (slice : Slice) (array : List JSVal) :
    Except Err (List JSVal) :=
  let length : JSInt := JSInt.int array.length
  let start := slice.start.getD (JSInt.int 0)
  let end_ := slice.end_.getD length
  let step := slice.step
  let normalizedStart := if JSInt.lt start (JSInt.int 0) then JSInt.add length start else start
  let normalizedEnd := if JSInt.lt end_ (JSInt.int 0) then JSInt.add length end_ else end_
  match applySliceLoopLimited maxLength array normalizedEnd (JSInt.abs step) fuel
      normalizedStart [] with
  | Except.error e => Except.error e
  | Except.ok result =>
    Except.ok (if JSInt.lt step (JSInt.int 0) then result.reverse else result)

/-- The method `PropertyChainEvaluator.applyFilter`. -/
def applyFilter (h : Host) (filter : Filter) (data : JSVal) : Except Err Result :=
  match data with
  | JSVal.arr _ elems => (filterByFilter h filter elems).map Result.fresh
  | _ => Except.ok (Result.value JSVal.undefined)

/-- One round of the loop of `PropertyChainEvaluator.evaluateProperty`: what the
current value `data` adds to `result`. -/
def evaluatePropertyStep (h : Host) (fuel : Nat) (name : String) (filter : Option Filter)
    (slice : Option Slice) (data : JSVal) : Except Err (List JSVal) :=
  if data.isNullish then Except.ok []
  else
    match getMember data name with
    | JSVal.undefined => Except.ok []
    | member =>
      let filtered : Except Err Result := match filter with
        | some f => applyFilter h f member
        | none => Except.ok (Result.value member)
      match filtered with
      | Except.error e => Except.error e
      | Except.ok value =>
        let sliced : Except Err Result := match slice, value.asArray with
          | some sl, some elems => (applySlice fuel sl elems).map Result.fresh
          | _, _ => Except.ok value
        match sliced with
        | Except.error e => Except.error e
        | Except.ok (Result.fresh elems) => Except.ok elems
        | Except.ok (Result.value (JSVal.arr _ elems)) => Except.ok elems
        | Except.ok (Result.value v) => Except.ok [v]

/-- Runs `step` on every element in turn and appends the contributions; stops at
the first error. -/
def concatMapExcept {α β : Type} (step : α → Except Err (List β)) :
    List α → Except Err (List β)
  | [] => Except.ok []
  | x :: xs =>
    match step x with
    | Except.error e => Except.error e
    | Except.ok ys =>
      match concatMapExcept step xs with
      | Except.error e => Except.error e
      | Except.ok zs => Except.ok (ys ++ zs)

/-- The method `PropertyChainEvaluator.evaluateProperty` on a `Property` segment
with the given `name`, `filter` and `slice`. -/
def evaluateProperty (h : Host) (fuel : Nat) (name : String) (filter : Option Filter)
    (slice : Option Slice) (dataArray : List JSVal) : Except Err (List JSVal) :=
  concatMapExcept (evaluatePropertyStep h fuel name filter slice) dataArray

/-- The loop of `evaluateWildcard` over the current values; `result` is the array
built so far. -/
def wildcardLoop : List JSVal → List JSVal → List JSVal
  | [], result => result
  | data :: rest, result =>
    if data.isNullish then wildcardLoop rest result
    else
      match data with
      | JSVal.arr _ elems => wildcardLoop rest (result ++ elems)
      | JSVal.obj _ members => wildcardLoop rest (result ++ members.map Prod.snd)
      | _ => wildcardLoop rest result

/-- The method `PropertyChainEvaluator.evaluateWildcard`. -/
def evaluateWildcard (h : Host) (segment : Segment) (dataArray : List JSVal) :
    Except Err (List JSVal) :=
  let result := wildcardLoop dataArray []
  match segment.filter with
  | some f => filterByFilter h f result
  | none => Except.ok result

/-- The method `Set.prototype.add` on a set kept in insertion order. -/
def setAdd (set : List JSVal) (v : JSVal) : List JSVal :=
  if set.any (fun w => w.sameValueZero v) then set else set ++ [v]

/-- The filter test of `traverse` in `evaluateDeepWildcard` on a value that is
neither `null` nor `undefined`: adds the value to `result` when the segment has a
filter that the value satisfies. -/
def deepVisit (h : Host) (filter : Option Filter) (data : JSVal) (result : List JSVal) :
    Except Err (List JSVal) :=
  match filter with
  | none => Except.ok result
  | some f =>
    match evaluateFilter h f data with
    | Except.error e => Except.error e
    | Except.ok true => Except.ok (setAdd result data)
    | Except.ok false => Except.ok result

mutual

/-- The closure `traverse` of `evaluateDeepWildcard`; `result` is the set built so
far. -/
def traverse (h : Host) (filter : Option Filter) : JSVal → List JSVal →
    Except Err (List JSVal)
  | JSVal.arr id elems, result =>
    match deepVisit h filter (JSVal.arr id elems) result with
    | Except.error e => Except.error e
    | Except.ok result1 => traverseElems h filter elems result1
  | JSVal.obj id members, result =>
    match deepVisit h filter (JSVal.obj id members) result with
    | Except.error e => Except.error e
    | Except.ok result1 => traverseMembers h filter members result1
  | JSVal.undefined, result => Except.ok result
  | JSVal.null, result => Except.ok result
  | data, result => deepVisit h filter data result

/-- The call `data.forEach(traverse)` on the elements of an array. -/
def traverseElems (h : Host) (filter : Option Filter) : List JSVal → List JSVal →
    Except Err (List JSVal)
  | [], result => Except.ok result
  | v :: vs, result =>
    match traverse h filter v result with
    | Except.error e => Except.error e
    | Except.ok result1 => traverseElems h filter vs result1

/-- The call `Object.values(data).forEach(traverse)` on the members of an object. -/
def traverseMembers (h : Host) (filter : Option Filter) : List (String × JSVal) →
    List JSVal → Except Err (List JSVal)
  | [], result => Except.ok result
  | (_, v) :: ms, result =>
    match traverse h filter v result with
    | Except.error e => Except.error e
    | Except.ok result1 => traverseMembers h filter ms result1

end

/-- The method `PropertyChainEvaluator.evaluateDeepWildcard`. -/
def evaluateDeepWildcard (h : Host) (segment : Segment) (dataArray : List JSVal) :
    Except Err (List JSVal) :=
  traverseElems h segment.filter dataArray []

/-- The method `PropertyChainEvaluator.evaluateSegment`. -/
def evaluateSegment (h : Host) (fuel : Nat) (segment : Segment) (dataArray : List JSVal) :
    Except Err (List JSVal) :=
  match segment with
  | Segment.property name filter slice => evaluateProperty h fuel name filter slice dataArray
  | Segment.wildcard _ => evaluateWildcard h segment dataArray
  | Segment.deepWildcard _ => evaluateDeepWildcard h segment dataArray

/-- The method `PropertyChainEvaluator.evaluateSegments`. -/
def evaluateSegments (h : Host) (fuel : Nat) :
    List Segment → List JSVal → Except Err (List JSVal)
  | [], currentData => Except.ok currentData
  | segment :: rest, currentData =>
    match evaluateSegment h fuel segment currentData with
    | Except.error e => Except.error e
    | Except.ok next =>
      if next.isEmpty then Except.ok next else evaluateSegments h fuel rest next

/-- The method `PropertyChainEvaluator.evaluate`; `fuel` bounds the rounds of every
slice loop. -/
def PropertyChainEvaluator.evaluate (h : Host) (fuel : Nat) (chain : AST) (data : JSVal) :
    Except Err (List JSVal) :=
  match chain with
  | AST.propertyChain segments => evaluateSegments h fuel segments [data]
  | _ => Except.error (Err.thrown "TypeError: segments is not iterable")

/-! ## Evaluator (`src/evaluator.js`) -/

/-- Identity of a node of a syntax tree: its path from the root (`0` for the left
or only child, `1` for the right child).  The parser builds a fresh object for every
node, so distinct positions are distinct objects. -/
abbrev NodeId := List Nat

/-- A record `{ data, result }` stored in the node memo. -/
structure MemoEntry where
  data : JSVal
  result : Result

/-- Modelled from the spec: the class `ClearableWeakMap` of `./utils/weakmap`, which
`evaluator.js` imports and which is not among the sources.  The node memo maps a
node identity to the record last stored for it and can be cleared as a whole. -/
structure ClearableWeakMap where
  entries : List (NodeId × MemoEntry)

namespace ClearableWeakMap

/-- Modelled from the spec: the empty memo, `new ClearableWeakMap()`. -/
def empty : ClearableWeakMap := ⟨[]⟩

/-- Modelled from the spec: `clear()` of the node memo, which forgets every entry. -/
def clear (_m : ClearableWeakMap) : ClearableWeakMap := ⟨[]⟩

/-- Modelled from the spec: `get(node)` of the node memo. -/
def get (m : ClearableWeakMap) (node : NodeId) : Option MemoEntry := m.entries.lookup node

/-- Modelled from the spec: `set(node, entry)` of the node memo. -/
def set (m : ClearableWeakMap) (node : NodeId) (entry : MemoEntry) : ClearableWeakMap :=
  ⟨(node, entry) :: m.entries.filter (fun e => e.1 != node)⟩

end ClearableWeakMap

/-- An instance of `SelectorEvaluator`: its syntax tree and its node memo. -/
structure SelectorEvaluator where
  ast : AST
  valueCache : ClearableWeakMap

namespace SelectorEvaluator

/-- The method `SelectorEvaluator.isTruthy`. -/
def isTruthy (value : Result) : Bool :=
  match value with
  | Result.fresh elems => decide (elems.length > 0)
  | Result.value (JSVal.arr _ elems) => decide (elems.length > 0)
  | Result.value v => v.toBoolean

/-- The method `SelectorEvaluator.normalizeResult`. -/
def normalizeResult (value : Result) : Result :=
  match value with
  | Result.fresh elems => Result.fresh elems
  | Result.value (JSVal.arr id elems) => Result.value (JSVal.arr id elems)
  | Result.value JSVal.undefined => Result.fresh []
  | Result.value v => Result.fresh [v]

/-- The elements of the array `normalizeResult(value)`. -/
def normalizedElems (value : Result) : List JSVal :=
  ((normalizeResult value).asArray).getD []

/-- The method `SelectorEvaluator.intersectResults`. -/
def intersectResults (left right : Result) : Result :=
  let leftArr := normalizedElems left
  let rightArr := normalizedElems right
  Result.fresh (leftArr.filter (fun item => rightArr.any (fun w => w.sameValueZero item)))

/-- The method `SelectorEvaluator.unionResults`. -/
def unionResults (left right : Result) : Result :=
  let leftArr := normalizedElems left
  let rightArr := normalizedElems right
  Result.fresh ((leftArr ++ rightArr).foldl setAdd [])

/-- The values that `for (const data of dataArray)` runs through; a value that is
neither an array nor a string is not iterable. -/
def iterate : JSVal → Except Err (List JSVal)
  | JSVal.arr _ elems => Except.ok elems
  | JSVal.str s => Except.ok (s.toList.map (fun c => JSVal.str (String.singleton c)))
  | _ => Except.error (Err.thrown "TypeError: dataArray is not iterable")

/-- One round of the loop of `SelectorEvaluator.evaluateProperty`.  The class has
no method `applyFilter` or `applySlice`, so the calls `this.applyFilter(..)` and
`this.applySlice(..)` throw. -/
def evaluatePropertyStep (name : String) (filter : Option Filter) (slice : Option Slice)
    (data : JSVal) : Except Err (List JSVal) :=
  if data.isNullish then Except.ok []
  else
    match getMember data name with
    | JSVal.undefined => Except.ok []
    | member =>
      if filter.isSome then
        Except.error (Err.thrown "TypeError: this.applyFilter is not a function")
      else if slice.isSome && member.isArray then
        Except.error (Err.thrown "TypeError: this.applySlice is not a function")
      else
        match member with
        | JSVal.arr _ elems => Except.ok elems
        | v => Except.ok [v]

/-- The method `SelectorEvaluator.evaluateProperty`: it fills the local array
`result` and ends without a `return` statement, so its value is `undefined`. -/
def evaluateProperty (name : String) (filter : Option Filter) (slice : Option Slice)
    (dataArray : JSVal) : Except Err JSVal :=
  match iterate dataArray with
  | Except.error e => Except.error e
  | Except.ok items =>
    match concatMapExcept (evaluatePropertyStep name filter slice) items with
    | Except.error e => Except.error e
    | Except.ok _ => Except.ok JSVal.undefined

/-- The method `SelectorEvaluator.evaluatePropertySegment`.  The class has no
method `evaluateWildcard` or `evaluateDeepWildcard`. -/
def evaluatePropertySegment (segment : Segment) (dataArray : JSVal) : Except Err JSVal :=
  match segment with
  | Segment.property name filter slice => evaluateProperty name filter slice dataArray
  | Segment.wildcard _ =>
    Except.error (Err.thrown "TypeError: this.evaluateWildcard is not a function")
  | Segment.deepWildcard _ =>
    Except.error (Err.thrown "TypeError: this.evaluateDeepWildcard is not a function")

/-- The test `!currentData || !currentData.length`. -/
def shouldBreak (currentData : JSVal) : Bool :=
  !currentData.toBoolean || !(getMember currentData "length").toBoolean

/-- The loop of `SelectorEvaluator.evaluatePropertyChain`. -/
def evaluatePropertyChainLoop : List Segment → JSVal → Except Err JSVal
  | [], currentData => Except.ok currentData
  | segment :: rest, currentData =>
    match evaluatePropertySegment segment currentData with
    | Except.error e => Except.error e
    | Except.ok next =>
      if shouldBreak next then Except.ok next else evaluatePropertyChainLoop rest next

/-- The method `SelectorEvaluator.evaluatePropertyChain`: the loop starts from
`data` itself. -/
def evaluatePropertyChain (segments : List Segment) (data : JSVal) : Except Err JSVal :=
  evaluatePropertyChainLoop segments data

/-- The part of `evaluateLogicalExpression` that follows the evaluation of the
left operand, up to the decision whether the right operand is needed: `some r` is
the short-circuit result. -/
def shortCircuit (operator : LogicalOp) (left : Result) : Option Result :=
  match operator with
  | LogicalOp.and => if !isTruthy left then some (normalizeResult (Result.fresh [])) else none
  | LogicalOp.or => if isTruthy left then some (normalizeResult left) else none

/-- The last statement of `evaluateLogicalExpression`. -/
def combineResults (operator : LogicalOp) (left right : Result) : Result :=
  match operator with
  | LogicalOp.and => intersectResults left right
  | LogicalOp.or => unionResults left right

/-- The memo test at the head of `evaluateNode`: the stored result, when there is a
record for the node whose `data` is the same value as `data`. -/
def memoHit (memo : ClearableWeakMap) (node : NodeId) (data : JSVal) : Option Result :=
  match memo.get node with
  | some cached => if cached.data.strictEquals data then some cached.result else none
  | none => none

/-- The method `SelectorEvaluator.evaluateNode` (with `evaluateLogicalExpression`
unfolded in its first case) on the node `node` whose identity is `id`; returns the
outcome and the node memo afterwards.  The class has no method
`evaluateUnaryExpression`. -/
def evaluateNode (data : JSVal) : AST → NodeId → ClearableWeakMap →
    Except Err Result × ClearableWeakMap
  | AST.logical operator left right, id, memo =>
    match memoHit memo id data with
    | some result => (Except.ok result, memo)
    | none =>
      match evaluateNode data left (id ++ [0]) memo with
      | (Except.error e, memo1) => (Except.error e, memo1)
      | (Except.ok leftResult, memo1) =>
        match shortCircuit operator leftResult with
        | some result =>
          (Except.ok result, memo1.set id { data := data, result := result })
        | none =>
          match evaluateNode data right (id ++ [1]) memo1 with
          | (Except.error e, memo2) => (Except.error e, memo2)
          | (Except.ok rightResult, memo2) =>
            let result := combineResults operator leftResult rightResult
            (Except.ok result, memo2.set id { data := data, result := result })
  | AST.unary _, id, memo =>
    match memoHit memo id data with
    | some result => (Except.ok result, memo)
    | none =>
      (Except.error (Err.thrown "TypeError: this.evaluateUnaryExpression is not a function"),
        memo)
  | AST.propertyChain segments, id, memo =>
    match memoHit memo id data with
    | some result => (Except.ok result, memo)
    | none =>
      match evaluatePropertyChain segments data with
      | Except.error e => (Except.error e, memo)
      | Except.ok v =>
        (Except.ok (Result.value v), memo.set id { data := data, result := Result.value v })

/-- The constructor `new SelectorEvaluator(ast, options)`. -/
def create (ast : AST) : SelectorEvaluator := { ast := ast, valueCache := ClearableWeakMap.empty }

/-- The method `SelectorEvaluator.evaluate`: clears the node memo and evaluates the
root node; returns the outcome and the evaluator afterwards. -/
def evaluate (ev : SelectorEvaluator) (data : JSVal) : Except Err Result × SelectorEvaluator :=
  let r := evaluateNode data ev.ast [] ev.valueCache.clear
  (r.1, { ev with valueCache := r.2 })

end SelectorEvaluator

/-! ## Selector cache (`src/cache.js`) and entry point (`src/index.js`) -/

/-- A cache record `{ evaluator, lastUsed }`. -/
structure CacheEntry where
  evaluator : SelectorEvaluator
  lastUsed : Nat

/-- An instance of `SelectorCache`: `cache` lists the entries of the `Map` in
insertion order.  The array `lru` is never read and is left out. -/
structure SelectorCache where
  maxSize : Nat
  cache : List (String × CacheEntry)
  currentSize : Int

namespace SelectorCache

/-- The constructor `new SelectorCache(maxSize)`. -/
def create (maxSize : Nat) : SelectorCache :=
  { maxSize := maxSize, cache := [], currentSize := 0 }

/-- The method `Map.prototype.set`: replaces the value of an existing key in place,
appends a new key. -/
def mapSet (m : List (String × CacheEntry)) (key : String) (entry : CacheEntry) :
    List (String × CacheEntry) :=
  if m.any (fun e => e.1 == key) then m.map (fun e => if e.1 == key then (key, entry) else e)
  else m ++ [(key, entry)]

/-- The method `SelectorCache.get` at clock reading `now`: the evaluator found
(`none` for `null`) and the cache afterwards. -/
def get (c : SelectorCache) (now : Nat) (selector : String) :
    Option SelectorEvaluator × SelectorCache :=
  match c.cache.lookup selector with
  | some entry =>
    (some entry.evaluator,
      { c with cache := mapSet c.cache selector { entry with lastUsed := now } })
  | none => (none, c)

/-- The scanning loop of `evictOldest`: `oldest` is `none` for `Infinity`. -/
def findOldest : List (String × CacheEntry) → Option Nat → Option String →
    Option Nat × Option String
  | [], oldest, oldestKey => (oldest, oldestKey)
  | (key, entry) :: rest, oldest, oldestKey =>
    match oldest with
    | none => findOldest rest (some entry.lastUsed) (some key)
    | some o =>
      if entry.lastUsed < o then findOldest rest (some entry.lastUsed) (some key)
      else findOldest rest oldest oldestKey

/-- The method `SelectorCache.evictOldest`.  The test `if (oldestKey)` fails for
`null` and for the empty string. -/
def evictOldest (c : SelectorCache) : SelectorCache :=
  match (findOldest c.cache none none).2 with
  | some key =>
    if key ≠ "" then
      { c with cache := c.cache.filter (fun e => e.1 != key), currentSize := c.currentSize - 1 }
    else c
  | none => c

/-- The method `SelectorCache.set` at clock reading `now`. -/
def set (c : SelectorCache) (now : Nat) (selector : String) (evaluator : SelectorEvaluator) :
    SelectorCache :=
  let c1 := if c.currentSize ≥ c.maxSize then c.evictOldest else c
  { c1 with
    cache := mapSet c1.cache selector { evaluator := evaluator, lastUsed := now }
    currentSize := c1.currentSize + 1 }

end SelectorCache

/-- The value `select` returns for an outcome: the result, or `undefined` when an
error was caught. -/
def resultOrUndefined : Except Err Result → Result
  | Except.ok r => r
  | Except.error _ => Result.value JSVal.undefined

/-- The function `select` of `src/index.js`, run on the module-level cache `cache`
at clock reading `now`: the value returned and the cache afterwards.  Every thrown
error is caught and turned into `undefined`. -/
def select (cache : SelectorCache) (now : Nat) (selector : String) (data : JSVal) :
    Result × SelectorCache :=
  match cache.get now selector with
  | (some cached, cache1) =>
    let r := cached.evaluate data
    (resultOrUndefined r.1,
      { cache1 with cache := cache1.cache.map (fun e =>
          if e.1 == selector then (e.1, { e.2 with evaluator := r.2 }) else e) })
  | (none, cache1) =>
    match parse selector with
    | Except.error _ => (Result.value JSVal.undefined, cache1)
    | Except.ok ast =>
      let evaluator := SelectorEvaluator.create ast
      let cache2 := cache1.set now selector evaluator
      let r := evaluator.evaluate data
      (resultOrUndefined r.1,
        { cache2 with cache := cache2.cache.map (fun e =>
            if e.1 == selector then (e.1, { e.2 with evaluator := r.2 }) else e) })

/-- The module-level cache of `src/index.js`, `new SelectorCache(1000)`. -/
def initialCache : SelectorCache := SelectorCache.create 1000

/-! ## Specification-side definitions -/

/-- The numeric `price` member of an object, when it has one. -/
def priceOf : JSVal → Option JSNum
  | JSVal.obj _ members =>
    match members.lookup "price" with
    | some (JSVal.num p) => some p
    | _ => none
  | _ => none

/-- The item has a numeric `price` that is greater than 10. -/
def priceAbove10 (item : JSVal) : Bool :=
  match priceOf item with
  | some p => JSNum.lt (JSNum.fin 10) p
  | none => false

/-- The sample input of the test suite, `{user: {name: "John"}}`. -/
def johnData : JSVal :=
  JSVal.obj 0 [("user", JSVal.obj 1 [("name", JSVal.str "John")])]

/-- The sample input `{items: [{price: 5}, {price: 20}]}`. -/
def itemsData : JSVal :=
  JSVal.obj 0 [("items", JSVal.arr 1
    [JSVal.obj 2 [("price", JSVal.num (JSNum.fin 5))],
     JSVal.obj 3 [("price", JSVal.num (JSNum.fin 20))]])]

/-- The chain that the parser builds for `items[*][price>10]`. -/
def itemsChain : AST :=
  AST.propertyChain [Segment.property "items"
    (some (Filter.comparison FilterOp.gt "price" (JSVal.num (JSNum.fin 10)))) none]

/-- A host whose regular expressions never match and whose coercing comparisons are
false; used for concrete evaluations that reach neither. -/
def sampleHost : Host := { regexTest := fun _ _ => some false, relational := fun _ _ _ => false }

/-- The operands of a sequence `u0 o1 u1 ... on un`, cut into the maximal runs that
are joined by `AND` (the sequence is split at its `OR` operators). -/
def splitAtOr : AST → List (LogicalOp × AST) → List (List AST)
  | u, [] => [[u]]
  | u, (LogicalOp.and, v) :: rest =>
    match splitAtOr v rest with
    | g :: gs => (u :: g) :: gs
    | [] => [[u]]
  | u, (LogicalOp.or, v) :: rest => [u] :: splitAtOr v rest

/-- Left-associative fold of a non-empty list of trees with the operator `op`. -/
def foldLeft (op : LogicalOp) : List AST → AST
  | [] => default
  | x :: xs => xs.foldl (AST.logical op) x

/-- The tree the specification assigns to `u0 o1 u1 ... on un`: every `AND` run is
folded to the left, then the runs are folded to the left with `OR`. -/
def specTree (u0 : AST) (rest : List (LogicalOp × AST)) : AST :=
  foldLeft LogicalOp.or ((splitAtOr u0 rest).map (foldLeft LogicalOp.and))

/-- The collecting loop of `parseLogicalExpression`, returning the operators paired
with the operands that follow them. -/
def collectJoined : Nat → List Token → Nat → Except Err (List (LogicalOp × AST) × Nat)
  | 0, _, _ => Except.error Err.outOfFuel
  | fuel + 1, tokens, pos =>
    match tokens.get? pos with
    | some Token.and =>
      match parseUnary fuel tokens (pos + 1) with
      | Except.error e => Except.error e
      | Except.ok (operand, pos1) =>
        match collectJoined fuel tokens pos1 with
        | Except.error e => Except.error e
        | Except.ok (rest, pos2) => Except.ok ((LogicalOp.and, operand) :: rest, pos2)
    | some Token.or =>
      match parseUnary fuel tokens (pos + 1) with
      | Except.error e => Except.error e
      | Except.ok (operand, pos1) =>
        match collectJoined fuel tokens pos1 with
        | Except.error e => Except.error e
        | Except.ok (rest, pos2) => Except.ok ((LogicalOp.or, operand) :: rest, pos2)
    | _ => Except.ok ([], pos)

/-- The folded `AND` runs, computed with an accumulator for the run in progress. -/
def groupsFrom : AST → List (LogicalOp × AST) → List AST
  | cur, [] => [cur]
  | cur, (LogicalOp.and, v) :: rest => groupsFrom (AST.logical LogicalOp.and cur v) rest
  | cur, (LogicalOp.or, v) :: rest => cur :: groupsFrom v rest

/-- A slice bound after normalization: an unset bound is `dflt`, a negative bound
has the length added. -/
def normalizedBound (length dflt : Int) : Option Int → Int
  | none => dflt
  | some b => if b < 0 then length + b else b

/-- The indices `s, s + k, s + 2k, ...` that are below `e`, in increasing order. -/
def sliceIndices (s e k : Nat) : List Nat :=
  (List.range ((e - s + k - 1) / k)).map (fun j => s + j * k)

/-- The slice with the integer fields `start`, `end` and `step`. -/
def intSlice (start end_ : Option Int) (step : Int) : Slice :=
  { start := start.map JSInt.int, end_ := end_.map JSInt.int, step := JSInt.int step }

/-- The filter holds of the value: `evaluateFilter` returns `true` (and does not
throw). -/
def satisfiesFilter (h : Host) (filter : Filter) (v : JSVal) : Bool :=
  match evaluateFilter h filter v with
  | Except.ok true => true
  | _ => false

/-- What the specification lets one current value contribute to a wildcard step:
the elements of an array, the member values of a non-array object, nothing for
`null`, `undefined` and scalars. -/
def specChildren : JSVal → List JSVal
  | JSVal.arr _ elems => elems
  | JSVal.obj _ members => members.map Prod.snd
  | JSVal.undefined => []
  | JSVal.null => []
  | JSVal.bool _ => []
  | JSVal.num _ => []
  | JSVal.str _ => []

/-- The value `v` is reachable from `root`: it is `root` itself, or it is reached
through any number of array-element and object-member steps. -/
inductive Reachable : JSVal → JSVal → Prop where
  | self (v : JSVal) : Reachable v v
  | elem (id : Nat) (elems : List JSVal) (w v : JSVal) :
      w ∈ elems → Reachable w v → Reachable (JSVal.arr id elems) v
  | member (id : Nat) (members : List (String × JSVal)) (key : String) (w v : JSVal) :
      (key, w) ∈ members → Reachable w v → Reachable (JSVal.obj id members) v

/-- The value `v` is reachable from one of the current values. -/
def ReachableFrom (current : List JSVal) (v : JSVal) : Prop :=
  ∃ root, root ∈ current ∧ Reachable root v

mutual

/-- The values reachable from a value, in depth-first order. -/
def descendants : JSVal → List JSVal
  | JSVal.arr id elems => JSVal.arr id elems :: descendantsElems elems
  | JSVal.obj id members => JSVal.obj id members :: descendantsMembers members
  | v => [v]

/-- The values reachable from the elements of a list, in depth-first order. -/
def descendantsElems : List JSVal → List JSVal
  | [] => []
  | v :: vs => descendants v ++ descendantsElems vs

/-- The values reachable from the members of an object, in depth-first order. -/
def descendantsMembers : List (String × JSVal) → List JSVal
  | [] => []
  | (_, v) :: ms => descendants v ++ descendantsMembers ms

end

/-- One visit of the deep-wildcard traversal, as a step on the result set: a value
that is neither `null` nor `undefined` and satisfies the filter is added. -/
def visitStep (h : Host) (filter : Filter) (result : List JSVal) (v : JSVal) : List JSVal :=
  if v.isNullish then result
  else if satisfiesFilter h filter v then setAdd result v
  else result

/-- The sample input `[{x: 1}, {x: 2}]`. -/
def xData : JSVal :=
  JSVal.arr 0 [JSVal.obj 1 [("x", JSVal.num (JSNum.fin 1))],
    JSVal.obj 2 [("x", JSVal.num (JSNum.fin 2))]]

/-- The filter `[x=1]`. -/
def xEqualsOne : Filter := Filter.comparison FilterOp.eq "x" (JSVal.num (JSNum.fin 1))

/-- Evaluation of a syntax tree by `SelectorEvaluator` with the node memo left out:
what `evaluateNode` computes when no memo record is found. -/
def evaluatePure (data : JSVal) : AST → Except Err Result
  | AST.logical operator left right =>
    match evaluatePure data left with
    | Except.error e => Except.error e
    | Except.ok leftResult =>
      match SelectorEvaluator.shortCircuit operator leftResult with
      | some result => Except.ok result
      | none =>
        match evaluatePure data right with
        | Except.error e => Except.error e
        | Except.ok rightResult =>
          Except.ok (SelectorEvaluator.combineResults operator leftResult rightResult)
  | AST.unary _ =>
    Except.error (Err.thrown "TypeError: this.evaluateUnaryExpression is not a function")
  | AST.propertyChain segments =>
    match SelectorEvaluator.evaluatePropertyChain segments data with
    | Except.error e => Except.error e
    | Except.ok v => Except.ok (Result.value v)

/-- The value `x` is a member of the value set `set`, as `Set.prototype.has` tells. -/
def isMember (set : List JSVal) (x : JSVal) : Bool :=
  set.any (fun w => w.sameValueZero x)

/-- The value set of a result: the elements of an array, nothing for `undefined`,
the value itself for any other scalar. -/
def valueSet (r : Result) : List JSVal := SelectorEvaluator.normalizedElems r

/-- The outcomes of `evaluate` when one evaluator is run on the inputs in turn. -/
def evaluateAll : SelectorEvaluator → List JSVal → List (Except Err Result)
  | _, [] => []
  | ev, d :: ds => (ev.evaluate d).1 :: evaluateAll (ev.evaluate d).2 ds

/-- The empty property chain, which the parser builds where no segment stands. -/
def emptyChain : AST := AST.propertyChain []

/-- A result is either empty or covers the value set of the input: every value of
the result is a value of the input, and when the result is not empty every value of
the input is a member of it. -/
def EmptyOrFull (data : JSVal) (r : Result) : Prop :=
  (∀ x ∈ valueSet r, x ∈ valueSet (Result.value data)) ∧
  (valueSet r = [] ∨ ∀ v ∈ valueSet (Result.value data), isMember (valueSet r) v = true)

/-- The sample input `[1, 1]`. -/
def onesData : JSVal :=
  JSVal.arr 0 [JSVal.num (JSNum.fin 1), JSVal.num (JSNum.fin 1)]

/-- Every entry of the selector cache holds an evaluator that was built from the parse
of its key. -/
def CacheConsistent (c : SelectorCache) : Prop :=
  ∀ e ∈ c.cache, parse e.1 = Except.ok e.2.evaluator.ast

/-- The chain that the parser builds for `user.name`. -/
def userNameChain : AST :=
  AST.propertyChain [Segment.property "user" none none, Segment.property "name" none none]

/-- The text of four characters: an opening single quote followed by `abc`. -/
def openQuoteText : String := String.mk [Char.ofNat 39, 'a', 'b', 'c']

/-- The slice of the bracket text `0:3:0`. -/
def zeroStepSlice : Slice :=
  { start := some (JSInt.int 0), end_ := some (JSInt.int 3), step := JSInt.int 0 }

/-- The chain that the parser builds for `arr[0:3:0]`. -/
def zeroStepChain : AST :=
  AST.propertyChain [Segment.property "arr" none (some zeroStepSlice)]

/-- The sample input `{arr: [1]}`. -/
def arrData : JSVal := JSVal.obj 0 [("arr", JSVal.arr 1 [JSVal.num (JSNum.fin 1)])]

/-- The square brackets of a text are balanced: no prefix has more closing than
opening brackets, and the totals are equal. -/
def Balanced (cs : List Char) : Prop :=
  (∀ p : List Char, p <+: cs → p.count ']' ≤ p.count '[') ∧ cs.count ']' = cs.count '['

/-- A cache of capacity 2 that was filled with the keys `a` (at time 0) and `b` (at
time 1) and then read at key `a` (at time 2). -/
def filledThenRead (ev : SelectorEvaluator) : SelectorCache :=
  ((((SelectorCache.create 2).set 0 "a" ev).set 1 "b" ev).get 2 "a").2

/-- The chain that the parser builds for `user[name]`: the segment `user` with the
existence filter `name`. -/
def userFilterChain : AST :=
  AST.propertyChain [Segment.property "user" (some (Filter.existence "name")) none]

/-! ## Theorems -/

/-! ### `select("user.name", data)` -/

/-- C1 (code defect): `select("user.name", data)` on the fresh module cache returns
`undefined` for every object `data`, in particular for `{user: {name: "John"}}`, where
the test suite expects `"John"`: `SelectorEvaluator.evaluatePropertyChain` hands
`data` itself (not `[data]`) to `evaluateProperty`, whose `for ... of` over a plain
object throws, and `select` turns the error into `undefined`. -/
theorem select_user_name_returns_undefined :
    (∀ (now id : Nat) (members : List (String × JSVal)),
      (select initialCache now "user.name" (JSVal.obj id members)).1
        = Result.value JSVal.undefined) ∧
    (select initialCache 0 "user.name" johnData).1 = Result.value JSVal.undefined ∧
    (select initialCache 0 "user.name" johnData).1 ≠ Result.value (JSVal.str "John") := by
  refine ⟨fun now id members => rfl, rfl, ?_⟩
  intro hEq
  have h2 : Result.value JSVal.undefined = Result.value (JSVal.str "John") := hEq
  injection h2 with h3
  cases h3

/-! ### `items[*][price>10]` -/

theorem parse_items_chain : parse "items[*][price>10]" = Except.ok itemsChain := by
  with_unfolding_all rfl

theorem resolvePath_price (id : Nat) (members : List (String × JSVal)) :
    resolvePath (JSVal.obj id members) "price"
      = (members.lookup "price").getD JSVal.undefined := by
  have hsplit : jsSplit "price" "." = ["price"] := by decide
  simp [resolvePath, hsplit, resolvePathLoop, JSVal.isNullish, getMember]

theorem filterByFilter_price (h : Host) (xs : List JSVal)
    (hx : ∀ x ∈ xs, (priceOf x).isSome = true) :
    filterByFilter h (Filter.comparison FilterOp.gt "price" (JSVal.num (JSNum.fin 10))) xs
      = Except.ok (xs.filter priceAbove10) := by
  induction xs with
  | nil => rfl
  | cons x rest ih =>
    have hrest : ∀ y ∈ rest, (priceOf y).isSome = true :=
      fun y hy => hx y (List.mem_cons_of_mem _ hy)
    have hxp := hx x (List.mem_cons_self _ _)
    have hev : evaluateFilter h
        (Filter.comparison FilterOp.gt "price" (JSVal.num (JSNum.fin 10))) x
          = Except.ok (priceAbove10 x) := by
      cases x with
      | obj id members =>
        cases hl : members.lookup "price" with
        | none => simp [priceOf, hl] at hxp
        | some v =>
          cases v <;> simp [priceOf, hl] at hxp
          simp [evaluateFilter, resolvePath_price, hl, priceAbove10, priceOf, applyOperator]
      | _ => simp [priceOf] at hxp
    rw [filterByFilter, hev, ih hrest]
    cases hb : priceAbove10 x <;> simp [List.filter, hb]

/-- C2: the selector `items[*][price>10]` parses to a chain which the property-chain
evaluator maps, on every object whose `items` member is an array `xs` of objects
with a numeric `price`, to exactly the elements of `xs` whose price is greater than
10, in their original order; on `{items: [{price: 5}, {price: 20}]}` the result is
the array holding only the `{price: 20}` item. -/
theorem items_price_filter_selects_above_10 :
    (∀ (h : Host) (fuel id xsId : Nat) (members : List (String × JSVal)) (xs : List JSVal),
      members.lookup "items" = some (JSVal.arr xsId xs) →
      (∀ x ∈ xs, (priceOf x).isSome = true) →
      ∃ chain, parse "items[*][price>10]" = Except.ok chain ∧
        PropertyChainEvaluator.evaluate h fuel chain (JSVal.obj id members)
          = Except.ok (xs.filter priceAbove10)) ∧
    (∃ chain, parse "items[*][price>10]" = Except.ok chain ∧
      PropertyChainEvaluator.evaluate sampleHost 0 chain itemsData
        = Except.ok [JSVal.obj 3 [("price", JSVal.num (JSNum.fin 20))]]) := by
  constructor
  · intro h fuel id xsId members xs hitems hprice
    refine ⟨itemsChain, parse_items_chain, ?_⟩
    simp [PropertyChainEvaluator.evaluate, itemsChain, evaluateSegments, evaluateSegment,
      evaluateProperty, concatMapExcept, evaluatePropertyStep, JSVal.isNullish, getMember,
      hitems, applyFilter, filterByFilter_price h xs hprice, Except.map, Result.asArray]
  · exact ⟨itemsChain, parse_items_chain, by with_unfolding_all rfl⟩

theorem items_price_filter_selects_above_10_witness :
    ∃ chain, parse "items[*][price>10]" = Except.ok chain ∧
      PropertyChainEvaluator.evaluate sampleHost 0 chain itemsData
        = Except.ok ([JSVal.obj 2 [("price", JSVal.num (JSNum.fin 5))],
            JSVal.obj 3 [("price", JSVal.num (JSNum.fin 20))]].filter priceAbove10) :=
  items_price_filter_selects_above_10.1 sampleHost 0 0 1
    [("items", JSVal.arr 1
      [JSVal.obj 2 [("price", JSVal.num (JSNum.fin 5))],
       JSVal.obj 3 [("price", JSVal.num (JSNum.fin 20))]])]
    [JSVal.obj 2 [("price", JSVal.num (JSNum.fin 5))],
     JSVal.obj 3 [("price", JSVal.num (JSNum.fin 20))]]
    rfl (by intro x hx; simp at hx; rcases hx with rfl | rfl <;> rfl)

/-! ### `parseFilter` on `>=` and `<=` -/

/-- C4 (code defect): `parseFilter` tries the operators in the order of its table,
`=` first, so a text with `>=` or `<=` is cut at its `=` sign: `price>=10` becomes the
comparison `eq` with property path `price>` and value `10`, and `price<=10` the
comparison `eq` with property path `price<`; the operators `gte` and `lte` of the
table are never produced for such texts. -/
theorem parseFilter_gte_lte_split_at_equals :
    parseFilter "price>=10"
      = Filter.comparison FilterOp.eq "price>" (JSVal.num (JSNum.fin 10)) ∧
    parseFilter "price<=10"
      = Filter.comparison FilterOp.eq "price<" (JSVal.num (JSNum.fin 10)) ∧
    parseFilter "a >= b" = Filter.comparison FilterOp.eq "a >" (JSVal.str "b") := by
  refine ⟨?_, ?_, ?_⟩ <;> with_unfolding_all rfl

/-! ### A filter after a wildcard -/

/-- C5 (code defect): `parsePropertyChain` only lets a `Property` segment become
`current`, so a `FILTER` token that follows a wildcard never reaches the wildcard
segment.  When the chain starts with `*` or `**` the parse throws
`Filter without property` (so `**[x=1]` does not parse), and in `a.*[x=1]` the filter
is stored on the `Property` segment `a` while the `Wildcard` segment stays without a
filter. -/
theorem parse_filter_after_wildcard :
    (∀ (raw : String) (rest : List Token),
      parseTokens (Token.deepWildcard :: Token.filter raw :: rest)
        = Except.error (Err.thrown "Filter without property")) ∧
    (∀ (raw : String) (rest : List Token),
      parseTokens (Token.wildcard :: Token.filter raw :: rest)
        = Except.error (Err.thrown "Filter without property")) ∧
    tokenize "**[x=1]" = Except.ok [Token.deepWildcard, Token.filter "x=1"] ∧
    parse "**[x=1]" = Except.error (Err.thrown "Filter without property") ∧
    parse "a.*[x=1]" = Except.ok (AST.propertyChain
      [Segment.property "a" (some (Filter.comparison FilterOp.eq "x" (JSVal.num (JSNum.fin 1))))
        none,
       Segment.wildcard none]) := by
  refine ⟨fun raw rest => rfl, fun raw rest => rfl, rfl, rfl, ?_⟩
  with_unfolding_all rfl

/-! ### Tokens left over after a parse -/

/-- C6 (code defect): `parse` returns what `parseLogicalExpression` returns without
checking that the token array is used up.  For `a.b(.c)` it returns the property
chain of `a.b` with the parser position at 3 of 7 tokens, instead of failing. -/
theorem parse_returns_chain_of_prefix :
    tokenize "a.b(.c)" = Except.ok
      [Token.property "a", Token.dot, Token.property "b", Token.leftParen, Token.dot,
       Token.property "c", Token.rightParen] ∧
    parseTokens
      [Token.property "a", Token.dot, Token.property "b", Token.leftParen, Token.dot,
       Token.property "c", Token.rightParen]
      = Except.ok (AST.propertyChain
          [Segment.property "a" none none, Segment.property "b" none none], 3) ∧
    parse "a.b(.c)" = Except.ok (AST.propertyChain
      [Segment.property "a" none none, Segment.property "b" none none]) ∧
    parse "a.b(.c)" = parse "a.b" := by
  refine ⟨rfl, rfl, rfl, rfl⟩

/-! ### Slices that leave the array -/

/-- C8 (code defect): the loop of `applySlice` reads `array[i]` for every `i` from
the normalized start up to the normalized end without comparing `i` with the length
of the array, so an index outside the array adds `undefined` to the result.  `[3:10]`
on an array of length 5 gives 7 values (the two elements and five `undefined`),
`[-2:]` on an array of length 1 gives `[undefined, x]`, and the slice `[7:9]`, wholly
outside an array of length 5, gives two `undefined` instead of the empty array. -/
theorem applySlice_out_of_range_adds_undefined (a b c d e : JSVal) :
    applySlice 10 { start := some (JSInt.int 3), end_ := some (JSInt.int 10), step := JSInt.int 1 }
        [a, b, c, d, e]
      = Except.ok [d, e, JSVal.undefined, JSVal.undefined, JSVal.undefined, JSVal.undefined,
          JSVal.undefined] ∧
    applySlice 10 { start := some (JSInt.int (-2)), end_ := none, step := JSInt.int 1 } [a]
      = Except.ok [JSVal.undefined, a] ∧
    applySlice 10 { start := some (JSInt.int 7), end_ := some (JSInt.int 9), step := JSInt.int 1 }
        [a, b, c, d, e]
      = Except.ok [JSVal.undefined, JSVal.undefined] ∧
    parseSlice "3:10"
      = { start := some (JSInt.int 3), end_ := some (JSInt.int 10), step := JSInt.int 1 } ∧
    parseSlice "-2:" = { start := some (JSInt.int (-2)), end_ := none, step := JSInt.int 1 } := by
  refine ⟨rfl, rfl, rfl, rfl, rfl⟩

/-! ### Operator precedence in `parseLogicalExpression` -/

theorem splitAtOr_shape (u : AST) (rest : List (LogicalOp × AST)) :
    ∃ t gs, splitAtOr u rest = (u :: t) :: gs := by
  induction rest generalizing u with
  | nil => exact ⟨[], [], rfl⟩
  | cons p r ih =>
    obtain ⟨op, v⟩ := p
    cases op with
    | and =>
      obtain ⟨t, gs, h⟩ := ih v
      exact ⟨v :: t, gs, by simp [splitAtOr, h]⟩
    | or => exact ⟨[], splitAtOr v r, rfl⟩

theorem groupsFrom_of_split (rest : List (LogicalOp × AST)) :
    ∀ (u x : AST) (t : List AST) (gs : List (List AST)),
      splitAtOr u rest = (u :: t) :: gs →
      t.foldl (AST.logical LogicalOp.and) x :: gs.map (foldLeft LogicalOp.and)
        = groupsFrom x rest := by
  induction rest with
  | nil =>
    intro u x t gs h
    simp [splitAtOr] at h
    obtain ⟨rfl, rfl⟩ := h
    rfl
  | cons p r ih =>
    intro u x t gs h
    obtain ⟨op, v⟩ := p
    cases op with
    | and =>
      obtain ⟨t1, gs1, h1⟩ := splitAtOr_shape v r
      simp [splitAtOr, h1] at h
      obtain ⟨rfl, rfl⟩ := h
      have := ih v (AST.logical LogicalOp.and x v) t1 gs1 h1
      simpa [groupsFrom] using this
    | or =>
      obtain ⟨t1, gs1, h1⟩ := splitAtOr_shape v r
      simp [splitAtOr, h1] at h
      obtain ⟨rfl, rfl⟩ := h
      have := ih v v t1 gs1 h1
      simp [groupsFrom, foldLeft, ← this]

theorem map_foldLeft_splitAtOr (u : AST) (rest : List (LogicalOp × AST)) :
    (splitAtOr u rest).map (foldLeft LogicalOp.and) = groupsFrom u rest := by
  obtain ⟨t, gs, h⟩ := splitAtOr_shape u rest
  rw [h, ← groupsFrom_of_split rest u u t gs h]
  simp [foldLeft]

theorem groupsFrom_ne_nil (cur : AST) (rest : List (LogicalOp × AST)) :
    groupsFrom cur rest ≠ [] := by
  induction rest generalizing cur with
  | nil => simp [groupsFrom]
  | cons p r ih =>
    obtain ⟨op, v⟩ := p
    cases op <;> simp [groupsFrom, ih]

theorem getD_append_at {α : Type} (pre : List α) (x d : α) (xs : List α) :
    (pre ++ x :: xs).getD pre.length d = x := by
  induction pre with
  | nil => rfl
  | cons a pre ih => simpa using ih

theorem getD_append_next {α : Type} (pre : List α) (x y d : α) (xs : List α) :
    (pre ++ x :: y :: xs).getD (pre.length + 1) d = y := by
  induction pre with
  | nil => rfl
  | cons a pre ih => simpa using ih

theorem get?_append_at {α : Type} (pre : List α) (x : α) (xs : List α) :
    (pre ++ x :: xs).get? pre.length = some x := by
  induction pre with
  | nil => rfl
  | cons a pre ih => simpa using ih

theorem set_append_at {α : Type} (pre : List α) (x z : α) (xs : List α) :
    (pre ++ x :: xs).set pre.length z = pre ++ z :: xs := by
  induction pre with
  | nil => rfl
  | cons a pre ih => simp

theorem eraseIdx_append_at {α : Type} (pre : List α) (x : α) (xs : List α) :
    (pre ++ x :: xs).eraseIdx pre.length = pre ++ xs := by
  induction pre with
  | nil => rfl
  | cons a pre ih => simpa using ih

theorem eraseIdx_append_next {α : Type} (pre : List α) (x y : α) (xs : List α) :
    (pre ++ x :: y :: xs).eraseIdx (pre.length + 1) = pre ++ x :: xs := by
  induction pre with
  | nil => rfl
  | cons a pre ih => simpa using ih

theorem andLoop_groups (rest : List (LogicalOp × AST)) :
    ∀ (pre : List AST) (cur : AST) (fuel : Nat), rest.length ≤ fuel →
      andLoop fuel pre.length (pre ++ cur :: rest.map Prod.snd)
          (List.replicate pre.length LogicalOp.or ++ rest.map Prod.fst)
        = (pre ++ groupsFrom cur rest,
            List.replicate ((pre ++ groupsFrom cur rest).length - 1) LogicalOp.or) := by
  induction rest with
  | nil =>
    intro pre cur fuel _
    cases fuel <;> simp [andLoop, groupsFrom]
  | cons p r ih =>
    intro pre cur fuel hfuel
    obtain ⟨op, v⟩ := p
    cases fuel with
    | zero => simp at hfuel
    | succ f =>
      have hf : r.length ≤ f := by simpa using hfuel
      have hlen : pre.length
          < (List.replicate pre.length LogicalOp.or ++ (op :: r.map Prod.fst)).length := by
        simp
      have hget : (List.replicate pre.length LogicalOp.or ++ (op :: r.map Prod.fst)).get?
          pre.length = some op := by
        have := get?_append_at (List.replicate pre.length LogicalOp.or) op (r.map Prod.fst)
        simpa using this
      have herase : (List.replicate pre.length LogicalOp.or ++ (op :: r.map Prod.fst)).eraseIdx
          pre.length = List.replicate pre.length LogicalOp.or ++ r.map Prod.fst := by
        have := eraseIdx_append_at (List.replicate pre.length LogicalOp.or) op (r.map Prod.fst)
        simpa using this
      cases op with
      | and =>
        have h1 := ih pre (AST.logical LogicalOp.and cur v) f hf
        simp only [List.map_cons] at hlen hget herase ⊢
        rw [andLoop, if_pos hlen, if_pos hget]
        simp only [getD_append_at, getD_append_next, set_append_at, eraseIdx_append_next, herase]
        rw [h1]
        rfl
      | or =>
        have h1 := ih (pre ++ [cur]) v f hf
        simp only [List.map_cons] at hlen hget herase ⊢
        have hne : ¬ (some LogicalOp.or = some LogicalOp.and) := by simp
        rw [andLoop, if_pos hlen, hget, if_neg hne]
        have e1 : pre ++ cur :: v :: r.map Prod.snd = (pre ++ [cur]) ++ v :: r.map Prod.snd := by
          simp
        have e2 : List.replicate pre.length LogicalOp.or ++ LogicalOp.or :: r.map Prod.fst
            = List.replicate (pre ++ [cur]).length LogicalOp.or ++ r.map Prod.fst := by
          simp [List.replicate_succ']
        have e3 : pre.length + 1 = (pre ++ [cur]).length := by simp
        rw [e1, e2, e3, h1]
        simp [groupsFrom]

theorem foldl_range_getD (gs : List AST) (d : AST) :
    ∀ x : AST, (List.range gs.length).foldl
      (fun result i => AST.logical LogicalOp.or result ((x :: gs).getD (i + 1) d)) x
        = gs.foldl (AST.logical LogicalOp.or) x := by
  have key : ∀ (gs : List AST) (x : AST), (List.range gs.length).foldl
      (fun result i => AST.logical LogicalOp.or result (gs.getD i d)) x
        = gs.foldl (AST.logical LogicalOp.or) x := by
    intro gs
    induction gs with
    | nil => intro x; rfl
    | cons g gs ih =>
      intro x
      rw [List.length_cons, List.range_succ_eq_map, List.foldl_cons, List.foldl_map]
      simpa using ih (AST.logical LogicalOp.or x g)
  intro x
  simpa using key gs x

theorem orLoop_groups (g0 : AST) (gs : List AST) :
    orLoop (g0 :: gs) (List.replicate gs.length LogicalOp.or)
      = foldLeft LogicalOp.or (g0 :: gs) := by
  unfold orLoop foldLeft
  rw [List.length_replicate]
  exact foldl_range_getD gs default g0

theorem combineExpressions_eq_specTree (u0 : AST) (rest : List (LogicalOp × AST)) :
    combineExpressions (u0 :: rest.map Prod.snd) (rest.map Prod.fst) = specTree u0 rest := by
  unfold specTree
  rw [map_foldLeft_splitAtOr]
  cases rest with
  | nil => rfl
  | cons p r =>
    have hlen : ¬ ((u0 :: (p :: r).map Prod.snd).length = 1) := by simp
    rw [combineExpressions, if_neg hlen]
    have h := andLoop_groups (p :: r) [] u0 ((p :: r).map Prod.fst).length (by simp)
    simp only [List.length_nil, List.replicate_zero, List.nil_append] at h
    rw [h]
    cases hg : groupsFrom u0 (p :: r) with
    | nil => exact absurd hg (groupsFrom_ne_nil _ _)
    | cons g0 gs =>
      simpa using orLoop_groups g0 gs

theorem collectOperands_eq_collectJoined (fuel : Nat) :
    ∀ (tokens : List Token) (es : List AST) (os : List LogicalOp) (pos : Nat),
      collectOperands fuel tokens es os pos =
        match collectJoined fuel tokens pos with
        | Except.error e => Except.error e
        | Except.ok (rest, p) => Except.ok (es ++ rest.map Prod.snd, os ++ rest.map Prod.fst, p) := by
  induction fuel with
  | zero => intro tokens es os pos; simp [collectOperands, collectJoined]
  | succ f ih =>
    intro tokens es os pos
    rw [collectOperands, collectJoined]
    cases ht : tokens.get? pos with
    | none => simp
    | some tok =>
      cases tok <;> simp
      · cases hu : parseUnary f tokens (pos + 1) with
        | error e => simp
        | ok r =>
          obtain ⟨operand, pos1⟩ := r
          simp only [ih]
          cases collectJoined f tokens pos1 with
          | error e => simp
          | ok q => obtain ⟨rest, p⟩ := q; simp
      · cases hu : parseUnary f tokens (pos + 1) with
        | error e => simp
        | ok r =>
          obtain ⟨operand, pos1⟩ := r
          simp only [ih]
          cases collectJoined f tokens pos1 with
          | error e => simp
          | ok q => obtain ⟨rest, p⟩ := q; simp

theorem parseLogicalExpression_eq (fuel : Nat) (tokens : List Token) (pos : Nat) :
    parseLogicalExpression (fuel + 1) tokens pos =
      match parseUnary fuel tokens pos with
      | Except.error e => Except.error e
      | Except.ok (u0, pos1) =>
        match collectJoined fuel tokens pos1 with
        | Except.error e => Except.error e
        | Except.ok (rest, pos2) => Except.ok (specTree u0 rest, pos2) := by
  rw [parseLogicalExpression]
  cases hu : parseUnary fuel tokens pos with
  | error e => rfl
  | ok r =>
    obtain ⟨u0, pos1⟩ := r
    simp only [collectOperands_eq_collectJoined]
    cases collectJoined fuel tokens pos1 with
    | error e => rfl
    | ok q =>
      obtain ⟨rest, p⟩ := q
      simp only [List.nil_append, List.singleton_append]
      rw [combineExpressions_eq_specTree]

theorem parsePropertyChainLoop_pos (rest : List Token) :
    ∀ (segs : List Segment) (cur : Option Nat) (pos : Nat) (r : AST × Nat),
      parsePropertyChainLoop rest segs cur pos = Except.ok r → pos ≤ r.2 := by
  induction rest with
  | nil =>
    intro segs cur pos r h
    simp [parsePropertyChainLoop] at h
    subst h; simp
  | cons tok rest ih =>
    intro segs cur pos r h
    cases tok <;> simp only [parsePropertyChainLoop] at h
    case filter raw =>
      cases cur with
      | none => simp at h
      | some i => exact Nat.le_of_succ_le (ih _ _ _ _ h)
    case slice sl =>
      cases cur with
      | none => simp at h
      | some i => exact Nat.le_of_succ_le (ih _ _ _ _ h)
    case dot => exact Nat.le_of_succ_le (ih _ _ _ _ h)
    case wildcard => exact Nat.le_of_succ_le (ih _ _ _ _ h)
    case deepWildcard => exact Nat.le_of_succ_le (ih _ _ _ _ h)
    case property name => exact Nat.le_of_succ_le (ih _ _ _ _ h)
    all_goals (simp at h; subst h; simp)

theorem parsePropertyChainLoop_ne_outOfFuel (rest : List Token) :
    ∀ (segs : List Segment) (cur : Option Nat) (pos : Nat),
      parsePropertyChainLoop rest segs cur pos ≠ Except.error Err.outOfFuel := by
  induction rest with
  | nil => intro segs cur pos; simp [parsePropertyChainLoop]
  | cons tok rest ih =>
    intro segs cur pos
    cases tok <;> simp only [parsePropertyChainLoop]
    case filter raw =>
      cases cur with
      | none => simp
      | some i => exact ih _ _ _
    case slice sl =>
      cases cur with
      | none => simp
      | some i => exact ih _ _ _
    case dot => exact ih _ _ _
    case wildcard => exact ih _ _ _
    case deepWildcard => exact ih _ _ _
    case property name => exact ih _ _ _
    all_goals simp

/-- Positions only move forward: the three parsing functions return a position that
is not before the one they started from. -/
theorem parse_pos_le (fuel : Nat) :
    (∀ (tokens : List Token) (pos : Nat) (r : AST × Nat),
      parseUnary fuel tokens pos = Except.ok r → pos ≤ r.2) ∧
    (∀ (tokens : List Token) (pos : Nat) (r : AST × Nat),
      parseLogicalExpression fuel tokens pos = Except.ok r → pos ≤ r.2) ∧
    (∀ (tokens : List Token) (es : List AST) (os : List LogicalOp) (pos : Nat)
      (r : List AST × List LogicalOp × Nat),
      collectOperands fuel tokens es os pos = Except.ok r → pos ≤ r.2.2) := by
  induction fuel with
  | zero =>
    refine ⟨?_, ?_, ?_⟩
    · intro tokens pos r h; simp [parseUnary] at h
    · intro tokens pos r h; simp [parseLogicalExpression] at h
    · intro tokens es os pos r h; simp [collectOperands] at h
  | succ f ih =>
    obtain ⟨ihU, ihL, ihC⟩ := ih
    refine ⟨?_, ?_, ?_⟩
    · intro tokens pos r h
      rw [parseUnary] at h
      split at h
      · split at h
        · simp at h
        · rename_i e p1 hu
          simp at h
          subst h
          exact Nat.le_of_succ_le (ihU tokens (pos + 1) (e, p1) hu)
      · split at h
        · simp at h
        · rename_i e p1 hl
          split at h
          · simp at h
            subst h
            have := ihL tokens (pos + 1) (e, p1) hl
            simp at this ⊢
            omega
          · simp at h
      · exact parsePropertyChainLoop_pos _ _ _ _ _ h
    · intro tokens pos r h
      rw [parseLogicalExpression] at h
      split at h
      · simp at h
      · rename_i first p1 hu
        split at h
        · simp at h
        · rename_i es os p2 hc
          simp at h
          subst h
          have h1 := ihU tokens pos (first, p1) hu
          have h2 := ihC _ _ _ _ (es, os, p2) hc
          simp at h1 h2 ⊢
          omega
    · intro tokens es os pos r h
      rw [collectOperands] at h
      split at h
      · split at h
        · simp at h
        · rename_i operand p1 hu
          have h1 := ihU tokens (pos + 1) (operand, p1) hu
          have h2 := ihC _ _ _ _ _ h
          simp at h1
          omega
      · split at h
        · simp at h
        · rename_i operand p1 hu
          have h1 := ihU tokens (pos + 1) (operand, p1) hu
          have h2 := ihC _ _ _ _ _ h
          simp at h1
          omega
      · simp at h
        subst h
        simp

/-- Fuel adequacy: with `2 * (remaining tokens) + 1` units of fuel (`+ 2` for
`parseLogicalExpression`) the parsing functions never run out of fuel. -/
theorem parse_fuel_enough (fuel : Nat) :
    (∀ (tokens : List Token) (pos : Nat), 2 * (tokens.length - pos) + 1 ≤ fuel →
      parseUnary fuel tokens pos ≠ Except.error Err.outOfFuel) ∧
    (∀ (tokens : List Token) (pos : Nat), 2 * (tokens.length - pos) + 2 ≤ fuel →
      parseLogicalExpression fuel tokens pos ≠ Except.error Err.outOfFuel) ∧
    (∀ (tokens : List Token) (es : List AST) (os : List LogicalOp) (pos : Nat),
      2 * (tokens.length - pos) + 1 ≤ fuel →
      collectOperands fuel tokens es os pos ≠ Except.error Err.outOfFuel) := by
  induction fuel with
  | zero =>
    refine ⟨?_, ?_, ?_⟩
    · intro tokens pos h; omega
    · intro tokens pos h; omega
    · intro tokens es os pos h; omega
  | succ f ih =>
    obtain ⟨ihU, ihL, ihC⟩ := ih
    have hlt : ∀ (tokens : List Token) (pos : Nat) (t : Token),
        tokens.get? pos = some t → pos < tokens.length := by
      intro tokens pos t ht
      by_contra hge
      have : tokens.get? pos = none := by simp at hge ⊢; exact hge
      rw [this] at ht
      cases ht
    refine ⟨?_, ?_, ?_⟩
    · intro tokens pos hf
      rw [parseUnary]
      split
      · rename_i ht
        have hp := hlt _ _ _ ht
        have hne := ihU tokens (pos + 1) (by omega)
        split
        · rename_i e he
          intro hcontra
          simp at hcontra
          subst hcontra
          exact hne he
        · simp
      · rename_i ht
        have hp := hlt _ _ _ ht
        have hne := ihL tokens (pos + 1) (by omega)
        split
        · rename_i e he
          intro hcontra
          simp at hcontra
          subst hcontra
          exact hne he
        · split <;> simp
      · exact parsePropertyChainLoop_ne_outOfFuel _ _ _ _
    · intro tokens pos hf
      rw [parseLogicalExpression]
      have hne := ihU tokens pos (by omega)
      split
      · rename_i e he
        intro hcontra
        simp at hcontra
        subst hcontra
        exact hne he
      · rename_i first p1 hu
        have hmono := (parse_pos_le f).1 _ _ (_, _) hu
        simp at hmono
        have hne2 := ihC tokens [first] [] p1 (by omega)
        split
        · rename_i e he
          intro hcontra
          simp at hcontra
          subst hcontra
          exact hne2 he
        · simp
    · intro tokens es os pos hf
      rw [collectOperands]
      split
      · rename_i ht
        have hp := hlt _ _ _ ht
        have hne := ihU tokens (pos + 1) (by omega)
        split
        · rename_i e he
          intro hcontra
          simp at hcontra
          subst hcontra
          exact hne he
        · rename_i operand p1 hu
          have hmono := (parse_pos_le f).1 _ _ (_, _) hu
          simp at hmono
          exact ihC _ _ _ _ (by omega)
      · rename_i ht
        have hp := hlt _ _ _ ht
        have hne := ihU tokens (pos + 1) (by omega)
        split
        · rename_i e he
          intro hcontra
          simp at hcontra
          subst hcontra
          exact hne he
        · rename_i operand p1 hu
          have hmono := (parse_pos_le f).1 _ _ (_, _) hu
          simp at hmono
          exact ihC _ _ _ _ (by omega)
      · simp

theorem parseTokens_ne_outOfFuel (tokens : List Token) :
    parseTokens tokens ≠ Except.error Err.outOfFuel :=
  (parse_fuel_enough (parseFuel tokens.length)).2.1 tokens 0 (by simp [parseFuel])

/-! ### The tokenizer and the parser always finish -/

theorem scanBracket_ge (rest : List Char) : ∀ (pos depth : Nat), pos ≤ scanBracket rest pos depth := by
  induction rest with
  | nil => intro pos depth; simp [scanBracket]
  | cons c rest ih =>
    intro pos depth
    simp only [scanBracket]
    split
    · split
      · exact Nat.le_refl _
      · exact Nat.le_of_succ_le (ih _ _)
    · split
      · exact Nat.le_of_succ_le (ih _ _)
      · exact Nat.le_of_succ_le (ih _ _)

theorem scanIdentifier_ge (rest : List Char) : ∀ pos : Nat, pos ≤ scanIdentifier rest pos := by
  induction rest with
  | nil => intro pos; simp [scanIdentifier]
  | cons c rest ih =>
    intro pos
    simp only [scanIdentifier]
    split
    · exact Nat.le_of_succ_le (ih _)
    · exact Nat.le_refl _

theorem isIdentifierPart_of_start (c : Char) (h : isIdentifierStart c = true) :
    isIdentifierPart c = true := by
  simp only [isIdentifierStart, isIdentifierPart, Char.isAlphanum, Bool.or_eq_true] at h ⊢
  rcases h with (h | h) | h
  · exact Or.inl (Or.inl (Or.inl h))
  · exact Or.inl (Or.inr h)
  · exact Or.inr h

theorem tokenizeNext_selector (t : Tokenizer) : t.tokenizeNext.selector = t.selector := by
  unfold Tokenizer.tokenizeNext
  split
  · rfl
  · simp only [Tokenizer.tokenizeSquareBracket, Tokenizer.tokenizeIdentifier, Tokenizer.addToken]
    simp only [apply_ite Tokenizer.selector, ite_self]

theorem lt_ite_of_lt (p : Prop) [Decidable p] (a x y : Nat) (hx : p → a < x)
    (hy : ¬ p → a < y) : a < (if p then x else y) := by
  by_cases hp : p
  · rw [if_pos hp]; exact hx hp
  · rw [if_neg hp]; exact hy hp

theorem tokenizeNext_pos (t : Tokenizer) (h : t.pos < t.selector.length) :
    t.pos < t.tokenizeNext.pos := by
  unfold Tokenizer.tokenizeNext
  split
  · rename_i hnone
    rw [List.get?_eq_none] at hnone
    omega
  · rename_i c hc
    simp only [Tokenizer.tokenizeSquareBracket, Tokenizer.tokenizeIdentifier, Tokenizer.addToken]
    have hb := scanBracket_ge (t.selector.drop (t.pos + 1)) (t.pos + 1) 1
    have hid : isIdentifierStart c = true →
        t.pos + 1 ≤ scanIdentifier (t.selector.drop t.pos) t.pos := by
      intro hstart
      have hdrop : t.selector.drop t.pos = c :: t.selector.drop (t.pos + 1) := by
        rw [List.get?_eq_getElem?, List.getElem?_eq_getElem h] at hc
        injection hc with hc
        rw [← hc]
        exact List.drop_eq_getElem_cons h
      have hpart := isIdentifierPart_of_start c hstart
      have hge := scanIdentifier_ge (t.selector.drop (t.pos + 1)) (t.pos + 1)
      simp only [hdrop, scanIdentifier, hpart, if_true]
      exact hge
    generalize scanBracket (t.selector.drop (t.pos + 1)) (t.pos + 1) 1 = sb at hb ⊢
    generalize scanIdentifier (t.selector.drop t.pos) t.pos = si at hid ⊢
    simp only [apply_ite Tokenizer.pos]
    repeat' (apply lt_ite_of_lt <;> intro _)
    all_goals first
      | exact Nat.lt_succ_self _
      | exact Nat.lt_succ_of_le (Nat.le_of_succ_le hb)
      | exact Nat.lt_add_of_pos_right (by decide)
      | exact hid (by assumption)

theorem tokenizer_loop_total (fuel : Nat) :
    ∀ t : Tokenizer, t.selector.length - t.pos ≤ fuel → ∃ t1, Tokenizer.loop fuel t = Except.ok t1 := by
  induction fuel with
  | zero =>
    intro t h
    have : ¬ (t.pos < t.selector.length) := by omega
    exact ⟨t, by simp [Tokenizer.loop, this]⟩
  | succ f ih =>
    intro t h
    by_cases hlt : t.pos < t.selector.length
    · have hp := tokenizeNext_pos t hlt
      have hs := tokenizeNext_selector t
      obtain ⟨t1, h1⟩ := ih t.tokenizeNext (by rw [hs]; omega)
      exact ⟨t1, by rw [Tokenizer.loop, if_pos hlt, h1]⟩
    · exact ⟨t, by rw [Tokenizer.loop, if_neg hlt]⟩

/-- The tokenizer never runs out of fuel: `tokenize` returns a token array for every
selector text. -/
theorem tokenize_total (selector : String) : ∃ tokens, tokenize selector = Except.ok tokens := by
  have hlen : selector.toList.length - 0 ≤ selector.length := by
    cases selector
    exact Nat.le_refl _
  obtain ⟨t1, h1⟩ := tokenizer_loop_total selector.length
    { selector := selector.toList, tokens := [], pos := 0 } hlen
  refine ⟨t1.tokens, ?_⟩
  unfold tokenize
  rw [h1]
  rfl

/-- The method `parse` never runs out of fuel. -/
theorem parse_ne_outOfFuel (selector : String) : parse selector ≠ Except.error Err.outOfFuel := by
  obtain ⟨tokens, ht⟩ := tokenize_total selector
  simp only [parse, ht]
  have h := parseTokens_ne_outOfFuel tokens
  cases hp : parseTokens tokens with
  | error e =>
    rw [hp] at h
    simp only [Except.map]
    intro hcontra
    injection hcontra with he
    exact h (by rw [he])
  | ok r => simp [Except.map]

/-! ### The tree built by `parseLogicalExpression` -/

/-- C3: `parseLogicalExpression` parses the first unary operand, collects the
operators `o1..on` with the operands `u1..un` that follow them, and returns the tree
`specTree u0 [(o1,u1),..,(on,un)]`: the sequence split at its `OR` operators, every
`AND` run folded to the left, the runs folded to the left with `OR`.  Neither the
tokenizer nor the parser runs out of the fuel that `parse` supplies.  So `a|b&c` is
`OR(a, AND(b,c))`, `a&b|c` is `OR(AND(a,b), c)` and `a&b&c` is `AND(AND(a,b), c)`. -/
theorem parseLogicalExpression_folds_and_before_or :
    (∀ (fuel : Nat) (tokens : List Token) (pos : Nat),
      parseLogicalExpression (fuel + 1) tokens pos =
        match parseUnary fuel tokens pos with
        | Except.error e => Except.error e
        | Except.ok (u0, pos1) =>
          match collectJoined fuel tokens pos1 with
          | Except.error e => Except.error e
          | Except.ok (rest, pos2) => Except.ok (specTree u0 rest, pos2)) ∧
    (∀ (u0 : AST) (rest : List (LogicalOp × AST)),
      combineExpressions (u0 :: rest.map Prod.snd) (rest.map Prod.fst) = specTree u0 rest) ∧
    (∀ tokens : List Token, parseTokens tokens ≠ Except.error Err.outOfFuel) ∧
    (∀ selector : String, parse selector ≠ Except.error Err.outOfFuel) ∧
    (∀ a b c : AST,
      specTree a [(LogicalOp.or, b), (LogicalOp.and, c)]
        = AST.logical LogicalOp.or a (AST.logical LogicalOp.and b c) ∧
      specTree a [(LogicalOp.and, b), (LogicalOp.or, c)]
        = AST.logical LogicalOp.or (AST.logical LogicalOp.and a b) c ∧
      specTree a [(LogicalOp.and, b), (LogicalOp.and, c)]
        = AST.logical LogicalOp.and (AST.logical LogicalOp.and a b) c) ∧
    parse "a|b&c" = Except.ok (AST.logical LogicalOp.or
      (AST.propertyChain [Segment.property "a" none none])
      (AST.logical LogicalOp.and (AST.propertyChain [Segment.property "b" none none])
        (AST.propertyChain [Segment.property "c" none none]))) ∧
    parse "a&b|c" = Except.ok (AST.logical LogicalOp.or
      (AST.logical LogicalOp.and (AST.propertyChain [Segment.property "a" none none])
        (AST.propertyChain [Segment.property "b" none none]))
      (AST.propertyChain [Segment.property "c" none none])) ∧
    parse "a&b&c" = Except.ok (AST.logical LogicalOp.and
      (AST.logical LogicalOp.and (AST.propertyChain [Segment.property "a" none none])
        (AST.propertyChain [Segment.property "b" none none]))
      (AST.propertyChain [Segment.property "c" none none])) :=
  ⟨parseLogicalExpression_eq, combineExpressions_eq_specTree, parseTokens_ne_outOfFuel,
    parse_ne_outOfFuel, fun _ _ _ => ⟨rfl, rfl, rfl⟩, rfl, rfl, rfl⟩

/-! ### Slices inside the array -/

theorem sliceCount_step (i e k : Nat) (hk : 0 < k) (hlt : i < e) :
    (e - i + k - 1) / k = (e - (i + k) + k - 1) / k + 1 := by
  by_cases hcase : e ≤ i + k
  · have h0 : e - (i + k) = 0 := by omega
    have h1 : (e - (i + k) + k - 1) / k = 0 := by
      apply Nat.div_eq_of_lt
      omega
    rw [h1]
    apply Nat.div_eq_of_lt_le
    · omega
    · omega
  · have h2 : e - i + k - 1 = (e - (i + k) + k - 1) + k := by omega
    rw [h2, Nat.add_div_right _ hk]

theorem sliceCount_le (m k : Nat) (hk : 0 < k) : (m + k - 1) / k ≤ m := by
  apply Nat.le_of_lt_succ
  rw [Nat.div_lt_iff_lt_mul hk]
  have h1 : m ≤ m * k := Nat.le_mul_of_pos_right m hk
  have h2 : (m + 1) * k = m * k + k := Nat.succ_mul m k
  have h3 : m.succ * k = m * k + k := Nat.succ_mul m k
  omega

theorem applySliceLoop_indices (array : List JSVal) (e k : Nat) (hk : 0 < k) (fuel : Nat) :
    ∀ (i : Nat) (acc : List JSVal), (e - i + k - 1) / k ≤ fuel →
      applySliceLoop array (JSInt.int e) (JSInt.int k) fuel (JSInt.int i) acc
        = Except.ok (acc ++ (List.range ((e - i + k - 1) / k)).map
            (fun j => array.getD (i + j * k) JSVal.undefined)) := by
  induction fuel with
  | zero =>
    intro i acc hf
    have hn : (e - i + k - 1) / k = 0 := Nat.le_zero.mp hf
    have hie : ¬ (i < e) := by
      intro hlt
      rw [sliceCount_step i e k hk hlt] at hn
      exact absurd hn (Nat.succ_ne_zero _)
    simp [applySliceLoop, JSInt.lt, hn, hie]
  | succ f ih =>
    intro i acc hf
    by_cases hlt : i < e
    · have hstep := sliceCount_step i e k hk hlt
      rw [hstep] at hf
      have hf2 : (e - (i + k) + k - 1) / k ≤ f := by omega
      have hcond : JSInt.lt (JSInt.int i) (JSInt.int e) = true := by
        simp [JSInt.lt, hlt]
      have hadd : JSInt.add (JSInt.int i) (JSInt.int k) = JSInt.int ((i + k : Nat) : Int) := by
        simp [JSInt.add]
      have hidx : indexArray array (JSInt.int i) = array.getD i JSVal.undefined := by
        simp [indexArray]
      rw [applySliceLoop, if_pos hcond, hadd, hidx, ih (i + k) _ hf2, hstep,
        List.range_succ_eq_map]
      simp [List.map_map, Function.comp_def, Nat.succ_mul, Nat.add_assoc, Nat.add_comm k]
    · have hn : (e - i + k - 1) / k = 0 := by
        apply Nat.div_eq_of_lt
        omega
      have hcond : ¬ (JSInt.lt (JSInt.int i) (JSInt.int e) = true) := by
        simp [JSInt.lt, hlt]
      rw [applySliceLoop, if_neg hcond, hn]
      simp

theorem applySlice_normalized (array : List JSVal) (start end_ : Option Int) (step : Int)
    (fuel : Nat) (hstep : step ≠ 0)
    (hs : 0 ≤ normalizedBound array.length 0 start)
    (hse : normalizedBound array.length 0 start ≤ normalizedBound array.length array.length end_)
    (_he : normalizedBound array.length array.length end_ ≤ array.length)
    (hfuel : array.length ≤ fuel) :
    applySlice fuel (intSlice start end_ step) array
      = Except.ok
          (if step < 0 then
            ((sliceIndices (normalizedBound array.length 0 start).toNat
                (normalizedBound array.length array.length end_).toNat step.natAbs).map
              (fun i => array.getD i JSVal.undefined)).reverse
          else
            (sliceIndices (normalizedBound array.length 0 start).toNat
                (normalizedBound array.length array.length end_).toNat step.natAbs).map
              (fun i => array.getD i JSVal.undefined)) := by
  have hk : 0 < step.natAbs := Int.natAbs_pos.mpr hstep
  have hnS : (if JSInt.lt ((start.map JSInt.int).getD (JSInt.int 0)) (JSInt.int 0) = true
      then JSInt.add (JSInt.int array.length) ((start.map JSInt.int).getD (JSInt.int 0))
      else (start.map JSInt.int).getD (JSInt.int 0))
        = JSInt.int (normalizedBound array.length 0 start) := by
    cases start with
    | none => simp [normalizedBound, JSInt.lt]
    | some b =>
      by_cases hb : b < 0 <;> simp [normalizedBound, JSInt.lt, JSInt.add, hb]
  have hnE : (if JSInt.lt ((end_.map JSInt.int).getD (JSInt.int array.length)) (JSInt.int 0) = true
      then JSInt.add (JSInt.int array.length) ((end_.map JSInt.int).getD (JSInt.int array.length))
      else (end_.map JSInt.int).getD (JSInt.int array.length))
        = JSInt.int (normalizedBound array.length array.length end_) := by
    cases end_ with
    | none => simp [normalizedBound, JSInt.lt]
    | some b =>
      by_cases hb : b < 0 <;> simp [normalizedBound, JSInt.lt, JSInt.add, hb]
  generalize hsv : normalizedBound array.length 0 start = s at *
  generalize hev : normalizedBound array.length array.length end_ = e at *
  have he0 : 0 ≤ e := le_trans hs hse
  obtain ⟨sn, rfl⟩ := Int.eq_ofNat_of_zero_le hs
  obtain ⟨en, rfl⟩ := Int.eq_ofNat_of_zero_le he0
  have hsen : sn ≤ en := by exact_mod_cast hse
  have henL : en ≤ array.length := by exact_mod_cast _he
  have hcount : (en - sn + step.natAbs - 1) / step.natAbs ≤ fuel :=
    le_trans (sliceCount_le (en - sn) step.natAbs hk) (by omega)
  have hloop := applySliceLoop_indices array en step.natAbs hk fuel sn [] hcount
  unfold applySlice intSlice
  simp only [hnS, hnE, JSInt.abs, hloop]
  by_cases hneg : step < 0 <;>
    simp [JSInt.lt, hneg, sliceIndices, List.map_map, Function.comp_def]

theorem mem_sliceIndices (s e k i : Nat) (hk : 0 < k) :
    i ∈ sliceIndices s e k ↔ s ≤ i ∧ i < e ∧ k ∣ (i - s) := by
  unfold sliceIndices
  simp only [List.mem_map, List.mem_range]
  constructor
  · rintro ⟨j, hj, rfl⟩
    have h1 : (j + 1) * k ≤ e - s + k - 1 := (Nat.le_div_iff_mul_le hk).mp hj
    have h2 : (j + 1) * k = j * k + k := Nat.succ_mul j k
    have h2s : j.succ * k = j * k + k := Nat.succ_mul j k
    refine ⟨by omega, by omega, ?_⟩
    have h3 : s + j * k - s = j * k := by omega
    rw [h3]
    exact Dvd.intro_left j rfl
  · rintro ⟨hsi, hie, hdvd⟩
    refine ⟨(i - s) / k, ?_, ?_⟩
    · have h1 : (i - s) / k * k = i - s := Nat.div_mul_cancel hdvd
      have h2 : ((i - s) / k + 1) * k = (i - s) / k * k + k := Nat.succ_mul _ k
      have h3 : ((i - s) / k).succ * k = (i - s) / k * k + k := Nat.succ_mul _ k
      exact (Nat.le_div_iff_mul_le hk).mpr (by omega)
    · have h1 : (i - s) / k * k = i - s := Nat.div_mul_cancel hdvd
      omega

theorem map_getD_range_drop (l : List JSVal) (s : Nat) :
    (List.range (l.length - s)).map (fun j => l.getD (s + j) JSVal.undefined) = l.drop s := by
  apply List.ext_getElem
  · simp
  · intro i h1 h2
    simp at h1 h2 ⊢
    have h3 : s + i < l.length := by omega
    simp [List.getD_eq_getElem?_getD, List.getElem?_eq_getElem h3]

theorem sliceIndices_step_one (l : List JSVal) (s : Nat) :
    (sliceIndices s l.length 1).map (fun i => l.getD i JSVal.undefined) = l.drop s := by
  have := map_getD_range_drop l s
  simpa [sliceIndices, List.map_map, Function.comp_def] using this

/-- C7: for an array of length `L` and a slice with integer fields and `step ≠ 0`
whose normalized bounds `s` and `e` satisfy `0 ≤ s ≤ e ≤ L`, `applySlice` (given fuel
for `L` rounds) returns the elements at the indices `s, s + |step|, s + 2|step|, ...`
below `e`, in that order when `step > 0` and reversed when `step < 0`.  The index list
`sliceIndices s e k` holds exactly the `i` with `s ≤ i < e` and `k ∣ i - s`.  So
`[::-1]` gives the whole array reversed, `[-2:]` the last two elements, and `[1:3]` on
`[0,1,2,3,4]` gives `[1,2]`. -/
theorem applySlice_within_bounds :
    (∀ (array : List JSVal) (start end_ : Option Int) (step : Int) (fuel : Nat),
      step ≠ 0 →
      0 ≤ normalizedBound array.length 0 start →
      normalizedBound array.length 0 start ≤ normalizedBound array.length array.length end_ →
      normalizedBound array.length array.length end_ ≤ array.length →
      array.length ≤ fuel →
      applySlice fuel (intSlice start end_ step) array
        = Except.ok
            (if step < 0 then
              ((sliceIndices (normalizedBound array.length 0 start).toNat
                  (normalizedBound array.length array.length end_).toNat step.natAbs).map
                (fun i => array.getD i JSVal.undefined)).reverse
            else
              (sliceIndices (normalizedBound array.length 0 start).toNat
                  (normalizedBound array.length array.length end_).toNat step.natAbs).map
                (fun i => array.getD i JSVal.undefined))) ∧
    (∀ s e k i : Nat, 0 < k → (i ∈ sliceIndices s e k ↔ s ≤ i ∧ i < e ∧ k ∣ (i - s))) ∧
    (∀ (array : List JSVal) (fuel : Nat), array.length ≤ fuel →
      applySlice fuel (intSlice none none (-1)) array = Except.ok array.reverse) ∧
    (∀ (array : List JSVal) (fuel : Nat), 2 ≤ array.length → array.length ≤ fuel →
      applySlice fuel (intSlice (some (-2)) none 1) array
        = Except.ok (array.drop (array.length - 2))) ∧
    applySlice 5 (intSlice (some 1) (some 3) 1)
        [JSVal.num (JSNum.fin 0), JSVal.num (JSNum.fin 1), JSVal.num (JSNum.fin 2),
         JSVal.num (JSNum.fin 3), JSVal.num (JSNum.fin 4)]
      = Except.ok [JSVal.num (JSNum.fin 1), JSVal.num (JSNum.fin 2)] ∧
    parseSlice "1:3" = intSlice (some 1) (some 3) 1 ∧
    parseSlice "-2:" = intSlice (some (-2)) none 1 ∧
    parseSlice "::-1" = intSlice none none (-1) := by
  refine ⟨applySlice_normalized, fun s e k i hk => mem_sliceIndices s e k i hk, ?_, ?_,
    rfl, rfl, rfl, rfl⟩
  · intro array fuel hfuel
    have h := applySlice_normalized array none none (-1) fuel (by decide)
      (by simp [normalizedBound]) (by simp [normalizedBound]) (by simp [normalizedBound]) hfuel
    rw [h]
    have hmap := sliceIndices_step_one array 0
    simp only [normalizedBound, Int.toNat_ofNat, Int.toNat_zero] at hmap ⊢
    simpa using hmap
  · intro array fuel hlen hfuel
    have hb : normalizedBound array.length 0 (some (-2)) = ((array.length - 2 : Nat) : Int) := by
      simp [normalizedBound]
      omega
    have h := applySlice_normalized array (some (-2)) none 1 fuel (by decide)
      (by rw [hb]; exact Int.ofNat_nonneg _)
      (by rw [hb]; simp [normalizedBound])
      (by simp [normalizedBound]) hfuel
    rw [h, hb]
    have hmap := sliceIndices_step_one array (array.length - 2)
    simp only [normalizedBound, Int.toNat_ofNat] at hmap ⊢
    simpa using hmap

theorem applySlice_within_bounds_witness :
    applySlice 3 (intSlice (some 0) (some 3) (-2)) [JSVal.null, JSVal.bool true, JSVal.bool false]
      = Except.ok [JSVal.bool false, JSVal.null] :=
  applySlice_within_bounds.1 [JSVal.null, JSVal.bool true, JSVal.bool false] (some 0) (some 3)
    (-2) 3 (by decide) (by decide) (by decide) (by decide) (by decide)

/-! ### Wildcard and deep wildcard -/

theorem wildcardLoop_eq (cur : List JSVal) :
    ∀ acc : List JSVal, wildcardLoop cur acc = acc ++ cur.flatMap specChildren := by
  induction cur with
  | nil => intro acc; simp [wildcardLoop]
  | cons d rest ih =>
    intro acc
    cases d <;> simp [wildcardLoop, JSVal.isNullish, specChildren, ih]

theorem filterByFilter_eq_filter (h : Host) (f : Filter) (xs : List JSVal)
    (htotal : ∀ v ∈ xs, ∃ b, evaluateFilter h f v = Except.ok b) :
    filterByFilter h f xs = Except.ok (xs.filter (satisfiesFilter h f)) := by
  induction xs with
  | nil => rfl
  | cons x rest ih =>
    obtain ⟨b, hb⟩ := htotal x (List.mem_cons_self _ _)
    have hrest := ih (fun v hv => htotal v (List.mem_cons_of_mem _ hv))
    rw [filterByFilter, hb, hrest]
    cases b <;> simp [List.filter, satisfiesFilter, hb]

theorem evaluateFilter_total_of_not_regex (h : Host) (op : FilterOp) (property : String)
    (value v : JSVal) (hop : op ≠ FilterOp.regex) :
    ∃ b, evaluateFilter h (Filter.comparison op property value) v = Except.ok b := by
  simp only [evaluateFilter]
  generalize resolvePath v property = a
  cases op
  case regex => exact absurd rfl hop
  case eq => exact ⟨_, rfl⟩
  all_goals
    cases a <;> cases value <;> exact ⟨_, rfl⟩

mutual

theorem reachable_of_mem_descendants :
    ∀ (r v : JSVal), v ∈ descendants r → Reachable r v
  | JSVal.arr id es, v, h => by
    simp only [descendants, List.mem_cons] at h
    rcases h with rfl | h
    · exact Reachable.self _
    · obtain ⟨w, hw, hr⟩ := reachable_of_mem_descendantsElems es v h
      exact Reachable.elem id es w v hw hr
  | JSVal.obj id ms, v, h => by
    simp only [descendants, List.mem_cons] at h
    rcases h with rfl | h
    · exact Reachable.self _
    · obtain ⟨k, w, hw, hr⟩ := reachable_of_mem_descendantsMembers ms v h
      exact Reachable.member id ms k w v hw hr
  | JSVal.undefined, v, h => by
    simp only [descendants, List.mem_singleton] at h
    subst h; exact Reachable.self _
  | JSVal.null, v, h => by
    simp only [descendants, List.mem_singleton] at h
    subst h; exact Reachable.self _
  | JSVal.bool b, v, h => by
    simp only [descendants, List.mem_singleton] at h
    subst h; exact Reachable.self _
  | JSVal.num n, v, h => by
    simp only [descendants, List.mem_singleton] at h
    subst h; exact Reachable.self _
  | JSVal.str s, v, h => by
    simp only [descendants, List.mem_singleton] at h
    subst h; exact Reachable.self _

theorem reachable_of_mem_descendantsElems :
    ∀ (es : List JSVal) (v : JSVal), v ∈ descendantsElems es → ∃ w, w ∈ es ∧ Reachable w v
  | [], v, h => by simp [descendantsElems] at h
  | x :: xs, v, h => by
    simp only [descendantsElems, List.mem_append] at h
    rcases h with h | h
    · exact ⟨x, List.mem_cons_self _ _, reachable_of_mem_descendants x v h⟩
    · obtain ⟨w, hw, hr⟩ := reachable_of_mem_descendantsElems xs v h
      exact ⟨w, List.mem_cons_of_mem _ hw, hr⟩

theorem reachable_of_mem_descendantsMembers :
    ∀ (ms : List (String × JSVal)) (v : JSVal), v ∈ descendantsMembers ms →
      ∃ k w, (k, w) ∈ ms ∧ Reachable w v
  | [], v, h => by simp [descendantsMembers] at h
  | (k, x) :: xs, v, h => by
    simp only [descendantsMembers, List.mem_append] at h
    rcases h with h | h
    · exact ⟨k, x, List.mem_cons_self _ _, reachable_of_mem_descendants x v h⟩
    · obtain ⟨k1, w, hw, hr⟩ := reachable_of_mem_descendantsMembers xs v h
      exact ⟨k1, w, List.mem_cons_of_mem _ hw, hr⟩

end

theorem mem_descendants_self (v : JSVal) : v ∈ descendants v := by
  cases v <;> simp [descendants]

theorem mem_descendantsElems (es : List JSVal) (w v : JSVal) (hw : w ∈ es)
    (hv : v ∈ descendants w) : v ∈ descendantsElems es := by
  induction es with
  | nil => cases hw
  | cons x xs ih =>
    simp only [descendantsElems, List.mem_append]
    rcases List.mem_cons.mp hw with rfl | hw
    · exact Or.inl hv
    · exact Or.inr (ih hw)

theorem mem_descendantsMembers (ms : List (String × JSVal)) (k : String) (w v : JSVal)
    (hw : (k, w) ∈ ms) (hv : v ∈ descendants w) : v ∈ descendantsMembers ms := by
  induction ms with
  | nil => cases hw
  | cons x xs ih =>
    obtain ⟨k1, x1⟩ := x
    simp only [descendantsMembers, List.mem_append]
    rcases List.mem_cons.mp hw with heq | hw
    · injection heq with h1 h2
      subst h2
      exact Or.inl hv
    · exact Or.inr (ih hw)

theorem mem_descendants_of_reachable (r v : JSVal) (h : Reachable r v) : v ∈ descendants r := by
  induction h with
  | self v => exact mem_descendants_self v
  | elem id es w v hw _ ih =>
    simp only [descendants, List.mem_cons]
    exact Or.inr (mem_descendantsElems es w v hw ih)
  | member id ms k w v hw _ ih =>
    simp only [descendants, List.mem_cons]
    exact Or.inr (mem_descendantsMembers ms k w v hw ih)

theorem mem_descendantsElems_iff (cur : List JSVal) (v : JSVal) :
    v ∈ descendantsElems cur ↔ ReachableFrom cur v := by
  constructor
  · intro h
    obtain ⟨w, hw, hr⟩ := reachable_of_mem_descendantsElems cur v h
    exact ⟨w, hw, hr⟩
  · rintro ⟨w, hw, hr⟩
    exact mem_descendantsElems cur w v hw (mem_descendants_of_reachable w v hr)

theorem deepVisit_eq (h : Host) (f : Filter) (x : JSVal) (res : List JSVal)
    (hx : x.isNullish = false) (htotal : ∃ b, evaluateFilter h f x = Except.ok b) :
    deepVisit h (some f) x res = Except.ok (visitStep h f res x) := by
  obtain ⟨b, hb⟩ := htotal
  cases b <;> simp [deepVisit, visitStep, satisfiesFilter, hb, hx]

mutual

theorem traverse_eq_foldl (h : Host) (f : Filter) :
    ∀ (v : JSVal) (res : List JSVal),
      (∀ x ∈ descendants v, x.isNullish = false → ∃ b, evaluateFilter h f x = Except.ok b) →
      traverse h (some f) v res = Except.ok ((descendants v).foldl (visitStep h f) res)
  | JSVal.arr id es, res, ht => by
    have h1 := deepVisit_eq h f (JSVal.arr id es) res rfl
      (ht _ (mem_descendants_self _) rfl)
    have h2 := traverseElems_eq_foldl h f es (visitStep h f res (JSVal.arr id es))
      (fun x hx hn => ht x (by simp only [descendants, List.mem_cons]; exact Or.inr hx) hn)
    simp only [traverse, h1, h2, descendants, List.foldl_cons]
  | JSVal.obj id ms, res, ht => by
    have h1 := deepVisit_eq h f (JSVal.obj id ms) res rfl
      (ht _ (mem_descendants_self _) rfl)
    have h2 := traverseMembers_eq_foldl h f ms (visitStep h f res (JSVal.obj id ms))
      (fun x hx hn => ht x (by simp only [descendants, List.mem_cons]; exact Or.inr hx) hn)
    simp only [traverse, h1, h2, descendants, List.foldl_cons]
  | JSVal.undefined, res, _ => by
    simp [traverse, descendants, visitStep, JSVal.isNullish]
  | JSVal.null, res, _ => by
    simp [traverse, descendants, visitStep, JSVal.isNullish]
  | JSVal.bool b, res, ht => by
    have h1 := deepVisit_eq h f (JSVal.bool b) res rfl (ht _ (mem_descendants_self _) rfl)
    simp [traverse, h1, descendants]
  | JSVal.num n, res, ht => by
    have h1 := deepVisit_eq h f (JSVal.num n) res rfl (ht _ (mem_descendants_self _) rfl)
    simp [traverse, h1, descendants]
  | JSVal.str s, res, ht => by
    have h1 := deepVisit_eq h f (JSVal.str s) res rfl (ht _ (mem_descendants_self _) rfl)
    simp [traverse, h1, descendants]

theorem traverseElems_eq_foldl (h : Host) (f : Filter) :
    ∀ (es : List JSVal) (res : List JSVal),
      (∀ x ∈ descendantsElems es, x.isNullish = false →
        ∃ b, evaluateFilter h f x = Except.ok b) →
      traverseElems h (some f) es res
        = Except.ok ((descendantsElems es).foldl (visitStep h f) res)
  | [], res, _ => by simp [traverseElems, descendantsElems]
  | x :: xs, res, ht => by
    have h1 := traverse_eq_foldl h f x res
      (fun y hy hn => ht y (by simp only [descendantsElems, List.mem_append]; exact Or.inl hy) hn)
    have h2 := traverseElems_eq_foldl h f xs ((descendants x).foldl (visitStep h f) res)
      (fun y hy hn => ht y (by simp only [descendantsElems, List.mem_append]; exact Or.inr hy) hn)
    simp only [traverseElems, h1, h2, descendantsElems, List.foldl_append]

theorem traverseMembers_eq_foldl (h : Host) (f : Filter) :
    ∀ (ms : List (String × JSVal)) (res : List JSVal),
      (∀ x ∈ descendantsMembers ms, x.isNullish = false →
        ∃ b, evaluateFilter h f x = Except.ok b) →
      traverseMembers h (some f) ms res
        = Except.ok ((descendantsMembers ms).foldl (visitStep h f) res)
  | [], res, _ => by simp [traverseMembers, descendantsMembers]
  | (k, x) :: xs, res, ht => by
    have h1 := traverse_eq_foldl h f x res
      (fun y hy hn => ht y (by simp only [descendantsMembers, List.mem_append]; exact Or.inl hy) hn)
    have h2 := traverseMembers_eq_foldl h f xs ((descendants x).foldl (visitStep h f) res)
      (fun y hy hn => ht y (by simp only [descendantsMembers, List.mem_append]; exact Or.inr hy) hn)
    simp only [traverseMembers, h1, h2, descendantsMembers, List.foldl_append]

end

mutual

theorem traverse_no_filter (h : Host) :
    ∀ (v : JSVal) (res : List JSVal), traverse h none v res = Except.ok res
  | JSVal.arr id es, res => by
    simp only [traverse, deepVisit, traverseElems_no_filter h es res]
  | JSVal.obj id ms, res => by
    simp only [traverse, deepVisit, traverseMembers_no_filter h ms res]
  | JSVal.undefined, res => by simp [traverse]
  | JSVal.null, res => by simp [traverse]
  | JSVal.bool b, res => by simp [traverse, deepVisit]
  | JSVal.num n, res => by simp [traverse, deepVisit]
  | JSVal.str s, res => by simp [traverse, deepVisit]

theorem traverseElems_no_filter (h : Host) :
    ∀ (es : List JSVal) (res : List JSVal), traverseElems h none es res = Except.ok res
  | [], res => by simp [traverseElems]
  | x :: xs, res => by
    simp only [traverseElems, traverse_no_filter h x res, traverseElems_no_filter h xs res]

theorem traverseMembers_no_filter (h : Host) :
    ∀ (ms : List (String × JSVal)) (res : List JSVal),
      traverseMembers h none ms res = Except.ok res
  | [], res => by simp [traverseMembers]
  | (k, x) :: xs, res => by
    simp only [traverseMembers, traverse_no_filter h x res, traverseMembers_no_filter h xs res]

end

theorem sameValueZero_self (v : JSVal) : v.sameValueZero v = true := by
  cases v <;> simp [JSVal.sameValueZero]

theorem satisfiesFilter_iff (h : Host) (f : Filter) (v : JSVal) :
    satisfiesFilter h f v = true ↔ evaluateFilter h f v = Except.ok true := by
  unfold satisfiesFilter
  cases hev : evaluateFilter h f v with
  | error e => simp
  | ok b => cases b <;> simp

theorem mem_setAdd (res : List JSVal) (x v : JSVal)
    (hc : ∀ w ∈ res, w.sameValueZero x = true → w = x) :
    v ∈ setAdd res x ↔ v ∈ res ∨ v = x := by
  unfold setAdd
  by_cases hany : res.any (fun w => w.sameValueZero x) = true
  · rw [if_pos hany]
    constructor
    · exact Or.inl
    · rintro (hv | rfl)
      · exact hv
      · obtain ⟨w, hw, hs⟩ := List.any_eq_true.mp hany
        have := hc w hw hs
        subst this
        exact hw
  · rw [if_neg hany]
    simp

theorem pairwise_setAdd (res : List JSVal) (x : JSVal)
    (hp : res.Pairwise (fun a b => a.sameValueZero b = false)) :
    (setAdd res x).Pairwise (fun a b => a.sameValueZero b = false) := by
  unfold setAdd
  by_cases hany : res.any (fun w => w.sameValueZero x) = true
  · rw [if_pos hany]; exact hp
  · rw [if_neg hany]
    refine List.pairwise_append.mpr ⟨hp, List.pairwise_singleton _ _, ?_⟩
    intro a ha b hb
    rw [List.mem_singleton] at hb
    subst hb
    cases hs : a.sameValueZero b with
    | false => rfl
    | true => exact absurd (List.any_eq_true.mpr ⟨a, ha, hs⟩) hany

theorem pairwise_foldl_visitStep (h : Host) (f : Filter) (xs : List JSVal) :
    ∀ res : List JSVal, res.Pairwise (fun a b => a.sameValueZero b = false) →
      (xs.foldl (visitStep h f) res).Pairwise (fun a b => a.sameValueZero b = false) := by
  induction xs with
  | nil => intro res hp; exact hp
  | cons x xs ih =>
    intro res hp
    rw [List.foldl_cons]
    apply ih
    unfold visitStep
    split
    · exact hp
    · split
      · exact pairwise_setAdd res x hp
      · exact hp

theorem mem_visitStep (h : Host) (f : Filter) (res : List JSVal) (x v : JSVal)
    (hc : ∀ w ∈ res, w.sameValueZero x = true → w = x) :
    v ∈ visitStep h f res x ↔
      v ∈ res ∨ (v = x ∧ x.isNullish = false ∧ satisfiesFilter h f x = true) := by
  unfold visitStep
  by_cases hn : x.isNullish = true
  · simp [hn]
  · by_cases hs : satisfiesFilter h f x = true
    · have hn2 : x.isNullish = false := by simpa using hn
      rw [if_neg hn, if_pos hs, mem_setAdd res x v hc]
      simp [hn2, hs]
    · rw [if_neg hn, if_neg hs]
      simp [hs]

theorem mem_foldl_visitStep (h : Host) (f : Filter) (xs : List JSVal) :
    ∀ res : List JSVal,
      (∀ a b, a ∈ res ++ xs → b ∈ res ++ xs → a.sameValueZero b = true → a = b) →
      ∀ v, v ∈ xs.foldl (visitStep h f) res ↔
        v ∈ res ∨ (v ∈ xs ∧ v.isNullish = false ∧ satisfiesFilter h f v = true) := by
  induction xs with
  | nil => intro res _ v; simp
  | cons x xs ih =>
    intro res hc v
    have hstep : ∀ u, u ∈ visitStep h f res x ↔
        u ∈ res ∨ (u = x ∧ x.isNullish = false ∧ satisfiesFilter h f x = true) :=
      fun u => mem_visitStep h f res x u
        (fun w hw hs => hc w x (by simp [hw]) (by simp) hs)
    have hc2 : ∀ a b, a ∈ visitStep h f res x ++ xs → b ∈ visitStep h f res x ++ xs →
        a.sameValueZero b = true → a = b := by
      intro a b ha hb hs
      have hsub : ∀ u, u ∈ visitStep h f res x ++ xs → u ∈ res ++ x :: xs := by
        intro u hu
        rw [List.mem_append] at hu
        rcases hu with hu | hu
        · rcases (hstep u).mp hu with hu | ⟨rfl, _, _⟩
          · simp [hu]
          · simp
        · simp [hu]
      exact hc a b (hsub a ha) (hsub b hb) hs
    rw [List.foldl_cons, ih (visitStep h f res x) hc2 v, hstep v]
    constructor
    · rintro ((hv | ⟨rfl, hn, hs⟩) | ⟨hv, hn, hs⟩)
      · exact Or.inl hv
      · exact Or.inr ⟨List.mem_cons_self _ _, hn, hs⟩
      · exact Or.inr ⟨List.mem_cons_of_mem _ hv, hn, hs⟩
    · rintro (hv | ⟨hv, hn, hs⟩)
      · exact Or.inl (Or.inl hv)
      · rcases List.mem_cons.mp hv with rfl | hv
        · exact Or.inl (Or.inr ⟨rfl, hn, hs⟩)
        · exact Or.inr ⟨hv, hn, hs⟩

theorem evaluateDeepWildcard_with_filter (h : Host) (segment : Segment) (f : Filter)
    (current : List JSVal) (hf : segment.filter = some f)
    (htotal : ∀ v, ReachableFrom current v → v.isNullish = false →
      ∃ b, evaluateFilter h f v = Except.ok b)
    (hheap : ∀ a b, ReachableFrom current a → ReachableFrom current b →
      a.sameValueZero b = true → a = b) :
    ∃ out, evaluateDeepWildcard h segment current = Except.ok out ∧
      (∀ v, v ∈ out ↔
        (v.isNullish = false ∧ ReachableFrom current v ∧
          evaluateFilter h f v = Except.ok true)) ∧
      out.Pairwise (fun a b => a.sameValueZero b = false) ∧ out.Nodup := by
  have hrun : evaluateDeepWildcard h segment current
      = Except.ok ((descendantsElems current).foldl (visitStep h f) []) := by
    unfold evaluateDeepWildcard
    rw [hf]
    exact traverseElems_eq_foldl h f current []
      (fun x hx hn => htotal x ((mem_descendantsElems_iff current x).mp hx) hn)
  have hpair := pairwise_foldl_visitStep h f (descendantsElems current) [] List.Pairwise.nil
  refine ⟨_, hrun, ?_, hpair, ?_⟩
  · intro v
    rw [mem_foldl_visitStep h f (descendantsElems current) [] ?_ v]
    · simp only [List.not_mem_nil, false_or, mem_descendantsElems_iff, satisfiesFilter_iff]
      constructor
      · rintro ⟨hr, hn, hs⟩; exact ⟨hn, hr, hs⟩
      · rintro ⟨hn, hr, hs⟩; exact ⟨hr, hn, hs⟩
    · intro a b ha hb hs
      rw [List.nil_append] at ha hb
      exact hheap a b ((mem_descendantsElems_iff current a).mp ha)
        ((mem_descendantsElems_iff current b).mp hb) hs
  · refine List.Pairwise.imp ?_ hpair
    intro a b hab heq
    subst heq
    rw [sameValueZero_self] at hab
    cases hab

theorem xData_heap_consistent :
    ∀ a b, ReachableFrom [xData] a → ReachableFrom [xData] b →
      a.sameValueZero b = true → a = b := by
  intro a b ha hb hs
  rw [← mem_descendantsElems_iff] at ha hb
  simp [descendantsElems, descendants, descendantsMembers, xData] at ha hb
  rcases ha with rfl | rfl | rfl | rfl | rfl <;>
    rcases hb with rfl | rfl | rfl | rfl | rfl <;>
    first
      | rfl
      | (simp [JSVal.sameValueZero] at hs)

/-- C9: `evaluateDeepWildcard` on a segment without a filter returns the empty
array.  On a segment with the filter `f` (which does not throw on the values it is
asked about) and current values whose objects are identified by their `id`, it returns
an array `out` such that a value is in `out` exactly when it is neither `null` nor
`undefined`, it is reachable from a current value (the value itself, or through array
elements and object members, at any depth) and `evaluateFilter(f, v)` is `true`;
`out` has no two entries that are the same value. -/
theorem evaluateDeepWildcard_collects_matching_reachable :
    (∀ (h : Host) (segment : Segment) (current : List JSVal), segment.filter = none →
      evaluateDeepWildcard h segment current = Except.ok []) ∧
    (∀ (h : Host) (segment : Segment) (f : Filter) (current : List JSVal),
      segment.filter = some f →
      (∀ v, ReachableFrom current v → v.isNullish = false →
        ∃ b, evaluateFilter h f v = Except.ok b) →
      (∀ a b, ReachableFrom current a → ReachableFrom current b →
        a.sameValueZero b = true → a = b) →
      ∃ out, evaluateDeepWildcard h segment current = Except.ok out ∧
        (∀ v, v ∈ out ↔
          (v.isNullish = false ∧ ReachableFrom current v ∧
            evaluateFilter h f v = Except.ok true)) ∧
        out.Pairwise (fun a b => a.sameValueZero b = false) ∧ out.Nodup) ∧
    evaluateDeepWildcard sampleHost (Segment.deepWildcard (some xEqualsOne)) [xData]
      = Except.ok [JSVal.obj 1 [("x", JSVal.num (JSNum.fin 1))]] := by
  refine ⟨?_, evaluateDeepWildcard_with_filter, by with_unfolding_all rfl⟩
  intro h segment current hf
  unfold evaluateDeepWildcard
  rw [hf]
  exact traverseElems_no_filter h current []

theorem evaluateDeepWildcard_collects_matching_reachable_witness :
    evaluateDeepWildcard sampleHost (Segment.deepWildcard none) [xData] = Except.ok [] ∧
    ∃ out, evaluateDeepWildcard sampleHost (Segment.deepWildcard (some xEqualsOne)) [xData]
        = Except.ok out ∧
      (∀ v, v ∈ out ↔
        (v.isNullish = false ∧ ReachableFrom [xData] v ∧
          evaluateFilter sampleHost xEqualsOne v = Except.ok true)) ∧
      out.Pairwise (fun a b => a.sameValueZero b = false) ∧ out.Nodup :=
  ⟨evaluateDeepWildcard_collects_matching_reachable.1 sampleHost (Segment.deepWildcard none)
      [xData] rfl,
    evaluateDeepWildcard_collects_matching_reachable.2.1 sampleHost
      (Segment.deepWildcard (some xEqualsOne)) xEqualsOne [xData] rfl
      (fun v _ _ => evaluateFilter_total_of_not_regex sampleHost FilterOp.eq "x"
        (JSVal.num (JSNum.fin 1)) v (by decide))
      xData_heap_consistent⟩

/-- C10: `evaluateWildcard` returns, in the order of the current values, the
elements of every current array and the member values of every current non-array
object (`null`, `undefined` and scalars add nothing); when the segment has a filter
(which does not throw on these values) only the values that satisfy it are kept, in
the same order.  On the single current value `{"a": 1, "b": 2}` without a filter the
result is `[1, 2]`. -/
theorem evaluateWildcard_splices_children :
    (∀ (h : Host) (segment : Segment) (current : List JSVal), segment.filter = none →
      evaluateWildcard h segment current = Except.ok (current.flatMap specChildren)) ∧
    (∀ (h : Host) (segment : Segment) (f : Filter) (current : List JSVal),
      segment.filter = some f →
      (∀ v ∈ current.flatMap specChildren, ∃ b, evaluateFilter h f v = Except.ok b) →
      evaluateWildcard h segment current
        = Except.ok ((current.flatMap specChildren).filter (satisfiesFilter h f))) ∧
    (∀ (h : Host) (f : Filter) (v : JSVal),
      satisfiesFilter h f v = true ↔ evaluateFilter h f v = Except.ok true) ∧
    evaluateWildcard sampleHost (Segment.wildcard none)
        [JSVal.obj 0 [("a", JSVal.num (JSNum.fin 1)), ("b", JSVal.num (JSNum.fin 2))]]
      = Except.ok [JSVal.num (JSNum.fin 1), JSVal.num (JSNum.fin 2)] := by
  refine ⟨?_, ?_, satisfiesFilter_iff, rfl⟩
  · intro h segment current hf
    simp [evaluateWildcard, hf, wildcardLoop_eq]
  · intro h segment f current hf htotal
    simp only [evaluateWildcard, hf, wildcardLoop_eq, List.nil_append]
    exact filterByFilter_eq_filter h f _ htotal

theorem evaluateWildcard_splices_children_witness :
    evaluateWildcard sampleHost (Segment.wildcard none) [xData, JSVal.null]
      = Except.ok ([xData, JSVal.null].flatMap specChildren) ∧
    evaluateWildcard sampleHost (Segment.wildcard (some xEqualsOne)) [xData, JSVal.null]
      = Except.ok (([xData, JSVal.null].flatMap specChildren).filter
          (satisfiesFilter sampleHost xEqualsOne)) :=
  ⟨evaluateWildcard_splices_children.1 sampleHost (Segment.wildcard none) [xData, JSVal.null] rfl,
    evaluateWildcard_splices_children.2.1 sampleHost (Segment.wildcard (some xEqualsOne))
      xEqualsOne [xData, JSVal.null] rfl
      (fun v _ => evaluateFilter_total_of_not_regex sampleHost FilterOp.eq "x"
        (JSVal.num (JSNum.fin 1)) v (by decide))⟩

section EvaluatorResults

open SelectorEvaluator

/-! ### Evaluation without the node memo -/

theorem lookup_eq_none_of_keys {β : Type} (l : List (NodeId × β)) (k : NodeId)
    (h : ∀ e ∈ l, e.1 ≠ k) : l.lookup k = none := by
  induction l with
  | nil => rfl
  | cons e rest ih =>
    obtain ⟨key, v⟩ := e
    have hne : key ≠ k := h (key, v) (List.mem_cons_self _ _)
    have hbeq : (k == key) = false := by
      simp only [beq_eq_false_iff_ne, ne_eq]
      exact fun heq => hne heq.symm
    simp only [List.lookup, hbeq]
    exact ih (fun e he => h e (List.mem_cons_of_mem _ he))

theorem memoHit_none (memo : ClearableWeakMap) (id : NodeId) (data : JSVal)
    (hfresh : ∀ e ∈ memo.entries, ¬ id <+: e.1) : memoHit memo id data = none := by
  have hl : memo.entries.lookup id = none :=
    lookup_eq_none_of_keys memo.entries id
      (fun e he heq => hfresh e he (by rw [heq]))
  simp [memoHit, ClearableWeakMap.get, hl]

theorem mem_set_entries (memo : ClearableWeakMap) (id : NodeId) (entry : MemoEntry)
    (e : NodeId × MemoEntry) (he : e ∈ (memo.set id entry).entries) :
    e ∈ memo.entries ∨ id <+: e.1 := by
  simp only [ClearableWeakMap.set, List.mem_cons, List.mem_filter] at he
  rcases he with rfl | ⟨he, _⟩
  · exact Or.inr (List.prefix_refl _)
  · exact Or.inl he

theorem prefix_child_absurd (id key : NodeId) (h0 : id ++ [0] <+: key) (h1 : id ++ [1] <+: key) :
    False := by
  obtain ⟨t0, ht0⟩ := h0
  obtain ⟨t1, ht1⟩ := h1
  rw [← ht1, List.append_assoc, List.append_assoc] at ht0
  have := List.append_cancel_left ht0
  simp at this

theorem evaluateNode_fresh (data : JSVal) (node : AST) :
    ∀ (id : NodeId) (memo : ClearableWeakMap), (∀ e ∈ memo.entries, ¬ id <+: e.1) →
      (evaluateNode data node id memo).1 = evaluatePure data node ∧
      (∀ e ∈ (evaluateNode data node id memo).2.entries, e ∈ memo.entries ∨ id <+: e.1) := by
  induction node with
  | logical op left right ihl ihr =>
    intro id memo hfresh
    have hfl : ∀ e ∈ memo.entries, ¬ (id ++ [0]) <+: e.1 :=
      fun e he hp => hfresh e he (List.IsPrefix.trans (List.prefix_append id [0]) hp)
    obtain ⟨hl1, hl2⟩ := ihl (id ++ [0]) memo hfl
    have hmemo := memoHit_none memo id data hfresh
    have hfr : ∀ e ∈ (evaluateNode data left (id ++ [0]) memo).2.entries,
        ¬ (id ++ [1]) <+: e.1 := by
      intro e he hp
      rcases hl2 e he with hin | hpre
      · exact hfresh e hin (List.IsPrefix.trans (List.prefix_append id [1]) hp)
      · exact prefix_child_absurd id e.1 hpre hp
    obtain ⟨hr1, hr2⟩ := ihr (id ++ [1]) (evaluateNode data left (id ++ [0]) memo).2 hfr
    have hsub0 : ∀ e : NodeId × MemoEntry, (id ++ [0]) <+: e.1 → id <+: e.1 :=
      fun e hp => List.IsPrefix.trans (List.prefix_append id [0]) hp
    have hsub1 : ∀ e : NodeId × MemoEntry, (id ++ [1]) <+: e.1 → id <+: e.1 :=
      fun e hp => List.IsPrefix.trans (List.prefix_append id [1]) hp
    rw [evaluateNode, evaluatePure, hmemo, ← hl1]
    rcases hleft : evaluateNode data left (id ++ [0]) memo with ⟨resL, memo1⟩
    rw [hleft] at hl2 hr1 hr2
    simp only at hl2 hr1 hr2 ⊢
    cases resL with
    | error e =>
      refine ⟨rfl, ?_⟩
      intro e1 he1
      rcases hl2 e1 he1 with h | h
      · exact Or.inl h
      · exact Or.inr (hsub0 e1 h)
    | ok leftResult =>
      simp only
      cases hsc : shortCircuit op leftResult with
      | some result =>
        refine ⟨rfl, ?_⟩
        intro e1 he1
        rcases mem_set_entries memo1 id _ e1 he1 with h | h
        · rcases hl2 e1 h with h | h
          · exact Or.inl h
          · exact Or.inr (hsub0 e1 h)
        · exact Or.inr h
      | none =>
        simp only
        rw [← hr1]
        rcases hright : evaluateNode data right (id ++ [1]) memo1 with ⟨resR, memo2⟩
        rw [hright] at hr2
        simp only at hr2 ⊢
        have hmem2 : ∀ e1 ∈ memo2.entries, e1 ∈ memo.entries ∨ id <+: e1.1 := by
          intro e1 he1
          rcases hr2 e1 he1 with h | h
          · rcases hl2 e1 h with h | h
            · exact Or.inl h
            · exact Or.inr (hsub0 e1 h)
          · exact Or.inr (hsub1 e1 h)
        cases resR with
        | error e => exact ⟨rfl, hmem2⟩
        | ok rightResult =>
          refine ⟨rfl, ?_⟩
          intro e1 he1
          rcases mem_set_entries memo2 id _ e1 he1 with h | h
          · exact hmem2 e1 h
          · exact Or.inr h
  | unary e _ =>
    intro id memo hfresh
    have hmemo := memoHit_none memo id data hfresh
    rw [evaluateNode, evaluatePure, hmemo]
    exact ⟨rfl, fun e he => Or.inl he⟩
  | propertyChain segments =>
    intro id memo hfresh
    have hmemo := memoHit_none memo id data hfresh
    rw [evaluateNode, evaluatePure, hmemo]
    cases hpc : evaluatePropertyChain segments data with
    | error e => exact ⟨rfl, fun e he => Or.inl he⟩
    | ok v =>
      refine ⟨rfl, ?_⟩
      intro e1 he1
      exact mem_set_entries memo id _ e1 he1

theorem evaluate_eq_pure (ev : SelectorEvaluator) (data : JSVal) :
    (ev.evaluate data).1 = evaluatePure data ev.ast ∧ (ev.evaluate data).2.ast = ev.ast := by
  refine ⟨?_, rfl⟩
  have h := (evaluateNode_fresh data ev.ast [] ev.valueCache.clear
    (by intro e he; simp [ClearableWeakMap.clear] at he)).1
  simpa [SelectorEvaluator.evaluate] using h

/-! ### Results of `AND` and `OR` nodes -/

theorem sameValueZero_trans (a b c : JSVal) (hab : a.sameValueZero b = true)
    (hbc : b.sameValueZero c = true) : a.sameValueZero c = true := by
  cases a <;> cases b <;> simp [JSVal.sameValueZero] at hab <;>
    cases c <;> simp [JSVal.sameValueZero] at hbc ⊢ <;> simp_all

theorem normalizedElems_of_asArray (r : Result) (a : List JSVal) (h : r.asArray = some a) :
    normalizedElems r = a ∧ isTruthy r = decide (a.length > 0) := by
  cases r with
  | fresh elems =>
    simp only [Result.asArray, Option.some.injEq] at h
    subst h
    exact ⟨rfl, rfl⟩
  | value v =>
    cases v <;> simp [Result.asArray] at h
    subst h
    exact ⟨rfl, rfl⟩

theorem normalizedElems_normalizeResult (r : Result) :
    normalizedElems (normalizeResult r) = normalizedElems r := by
  cases r with
  | fresh elems => rfl
  | value v => cases v <;> rfl

theorem normalizedElems_ne_nil_of_truthy (r : Result) (h : isTruthy r = true) :
    normalizedElems r ≠ [] := by
  cases r with
  | fresh elems =>
    simp only [isTruthy, decide_eq_true_eq] at h
    simp only [normalizedElems, normalizeResult, Result.asArray, Option.getD_some]
    exact List.ne_nil_of_length_pos h
  | value v =>
    cases v <;> simp [isTruthy, JSVal.toBoolean] at h <;>
      simp [normalizedElems, normalizeResult, Result.asArray]
    exact List.ne_nil_of_length_pos h

theorem mem_foldl_setAdd_of_mem (xs : List JSVal) :
    ∀ (res : List JSVal) (w : JSVal), w ∈ res → w ∈ xs.foldl setAdd res := by
  induction xs with
  | nil => intro res w hw; exact hw
  | cons x xs ih =>
    intro res w hw
    rw [List.foldl_cons]
    apply ih
    unfold setAdd
    split
    · exact hw
    · exact List.mem_append_left _ hw

theorem isMember_foldl_setAdd (xs : List JSVal) :
    ∀ (res : List JSVal) (x : JSVal), x ∈ xs → isMember (xs.foldl setAdd res) x = true := by
  induction xs with
  | nil => intro res x hx; cases hx
  | cons y ys ih =>
    intro res x hx
    rw [List.foldl_cons]
    rcases List.mem_cons.mp hx with rfl | hx
    · by_cases hany : res.any (fun w => w.sameValueZero x) = true
      · obtain ⟨w, hw, hs⟩ := List.any_eq_true.mp hany
        have hw2 : w ∈ ys.foldl setAdd (setAdd res x) :=
          mem_foldl_setAdd_of_mem ys _ w (by unfold setAdd; rw [if_pos hany]; exact hw)
        exact List.any_eq_true.mpr ⟨w, hw2, hs⟩
      · have hx2 : x ∈ ys.foldl setAdd (setAdd res x) :=
          mem_foldl_setAdd_of_mem ys _ x (by unfold setAdd; rw [if_neg hany]; simp)
        exact List.any_eq_true.mpr ⟨x, hx2, sameValueZero_self x⟩
    · exact ih _ x hx

theorem mem_of_mem_foldl_setAdd (xs : List JSVal) :
    ∀ (res : List JSVal) (u : JSVal), u ∈ xs.foldl setAdd res → u ∈ res ∨ u ∈ xs := by
  induction xs with
  | nil => intro res u hu; exact Or.inl hu
  | cons y ys ih =>
    intro res u hu
    rw [List.foldl_cons] at hu
    rcases ih _ u hu with h | h
    · unfold setAdd at h
      split at h
      · exact Or.inl h
      · rcases List.mem_append.mp h with h | h
        · exact Or.inl h
        · rw [List.mem_singleton] at h
          subst h
          exact Or.inr (List.mem_cons_self _ _)
    · exact Or.inr (List.mem_cons_of_mem _ h)

theorem pairwise_foldl_setAdd (xs : List JSVal) :
    ∀ res : List JSVal, res.Pairwise (fun a b => a.sameValueZero b = false) →
      (xs.foldl setAdd res).Pairwise (fun a b => a.sameValueZero b = false) := by
  induction xs with
  | nil => intro res hp; exact hp
  | cons x xs ih =>
    intro res hp
    rw [List.foldl_cons]
    exact ih _ (pairwise_setAdd res x hp)

theorem evaluatePropertyChain_result (segments : List Segment) (data v : JSVal)
    (h : evaluatePropertyChain segments data = Except.ok v) :
    (segments = [] ∧ v = data) ∨ v = JSVal.undefined := by
  cases segments with
  | nil =>
    simp only [evaluatePropertyChain, evaluatePropertyChainLoop, Except.ok.injEq] at h
    exact Or.inl ⟨rfl, h.symm⟩
  | cons seg rest =>
    right
    simp only [evaluatePropertyChain, evaluatePropertyChainLoop] at h
    cases seg with
    | property name filter slice =>
      simp only [evaluatePropertySegment, SelectorEvaluator.evaluateProperty] at h
      cases hit : iterate data with
      | error e => simp [hit] at h
      | ok items =>
        simp only [hit] at h
        cases hcm : concatMapExcept (SelectorEvaluator.evaluatePropertyStep name filter slice)
            items with
        | error e => simp [hcm] at h
        | ok r =>
          simp [hcm, shouldBreak, JSVal.toBoolean] at h
          exact h.symm
    | wildcard f => simp [evaluatePropertySegment] at h
    | deepWildcard f => simp [evaluatePropertySegment] at h

theorem evaluatePure_emptyOrFull (data : JSVal) (node : AST) :
    ∀ r : Result, evaluatePure data node = Except.ok r → EmptyOrFull data r := by
  induction node with
  | propertyChain segments =>
    intro r h
    simp only [evaluatePure] at h
    cases hpc : evaluatePropertyChain segments data with
    | error e => simp [hpc] at h
    | ok v =>
      simp only [hpc, Except.ok.injEq] at h
      subst h
      rcases evaluatePropertyChain_result segments data v hpc with ⟨_, rfl⟩ | rfl
      · refine ⟨fun x hx => hx, Or.inr ?_⟩
        intro w hw
        exact List.any_eq_true.mpr ⟨w, hw, sameValueZero_self w⟩
      · refine ⟨?_, Or.inl rfl⟩
        intro x hx
        simp [valueSet, normalizedElems, normalizeResult, Result.asArray] at hx
  | unary e _ =>
    intro r h
    simp [evaluatePure] at h
  | logical op left right ihl ihr =>
    intro r h
    simp only [evaluatePure] at h
    cases hl : evaluatePure data left with
    | error e => simp [hl] at h
    | ok leftResult =>
      have invL := ihl leftResult hl
      simp only [hl] at h
      cases op with
      | and =>
        by_cases ht : isTruthy leftResult = true
        · simp only [shortCircuit, ht, Bool.not_true] at h
          cases hr : evaluatePure data right with
          | error e => simp [hr] at h
          | ok rightResult =>
            have invR := ihr rightResult hr
            simp only [hr, combineResults, Except.ok.injEq, Bool.false_eq_true, if_false] at h
            subst h
            have hres : valueSet (intersectResults leftResult rightResult)
                = (valueSet leftResult).filter (isMember (valueSet rightResult)) := rfl
            rw [EmptyOrFull, hres]
            refine ⟨fun x hx => invL.1 x (List.mem_filter.mp hx).1, ?_⟩
            rcases invR.2 with hempty | hfull
            · left
              rw [hempty]
              simp [isMember]
            · right
              have hkeep : (valueSet leftResult).filter (isMember (valueSet rightResult))
                  = valueSet leftResult := by
                apply List.filter_eq_self.mpr
                intro x hx
                exact hfull x (invL.1 x hx)
              rw [hkeep]
              rcases invL.2 with hempty | hfullL
              · exact absurd hempty (normalizedElems_ne_nil_of_truthy leftResult ht)
              · exact hfullL
        · have hf : isTruthy leftResult = false := by simpa using ht
          simp only [shortCircuit, hf, Bool.not_false, if_true, Except.ok.injEq] at h
          subst h
          refine ⟨?_, Or.inl rfl⟩
          intro x hx
          simp [valueSet, normalizedElems, normalizeResult, Result.asArray] at hx
      | or =>
        by_cases ht : isTruthy leftResult = true
        · simp only [shortCircuit, ht, if_true, Except.ok.injEq] at h
          subst h
          simpa [EmptyOrFull, valueSet, normalizedElems_normalizeResult] using invL
        · have hf : isTruthy leftResult = false := by simpa using ht
          simp only [shortCircuit, hf, Bool.false_eq_true, if_false] at h
          cases hr : evaluatePure data right with
          | error e => simp [hr] at h
          | ok rightResult =>
            have invR := ihr rightResult hr
            simp only [hr, combineResults, Except.ok.injEq] at h
            subst h
            have hres : valueSet (unionResults leftResult rightResult)
                = (valueSet leftResult ++ valueSet rightResult).foldl setAdd [] := rfl
            rw [EmptyOrFull, hres]
            have hsub : ∀ x ∈ (valueSet leftResult ++ valueSet rightResult).foldl setAdd [],
                x ∈ valueSet (Result.value data) := by
              intro x hx
              rcases mem_of_mem_foldl_setAdd _ [] x hx with h0 | h1
              · cases h0
              · rcases List.mem_append.mp h1 with h1 | h1
                · exact invL.1 x h1
                · exact invR.1 x h1
            refine ⟨hsub, ?_⟩
            have hcover : ∀ (part : List JSVal),
                (∀ w ∈ part, w ∈ valueSet leftResult ++ valueSet rightResult) →
                (∀ v ∈ valueSet (Result.value data), isMember part v = true) →
                ∀ v ∈ valueSet (Result.value data),
                  isMember ((valueSet leftResult ++ valueSet rightResult).foldl setAdd []) v
                    = true := by
              intro part hpart hfull v hv
              obtain ⟨w, hw, hs⟩ := List.any_eq_true.mp (hfull v hv)
              obtain ⟨u, hu, hus⟩ := List.any_eq_true.mp
                (isMember_foldl_setAdd _ [] w (hpart w hw))
              exact List.any_eq_true.mpr ⟨u, hu, sameValueZero_trans u w v hus hs⟩
            rcases invL.2 with hemptyL | hfullL
            · rcases invR.2 with hemptyR | hfullR
              · left
                rw [hemptyL, hemptyR]
                rfl
              · exact Or.inr (hcover (valueSet rightResult)
                  (fun w hw => List.mem_append_right _ hw) hfullR)
            · exact Or.inr (hcover (valueSet leftResult)
                (fun w hw => List.mem_append_left _ hw) hfullL)

theorem evaluatePure_and (data : JSVal) (A B : AST) (ra rb : Result) (a b : List JSVal)
    (hA : evaluatePure data A = Except.ok ra) (ha : ra.asArray = some a)
    (hB : evaluatePure data B = Except.ok rb) (hb : rb.asArray = some b) :
    evaluatePure data (AST.logical LogicalOp.and A B)
      = Except.ok (Result.fresh (a.filter (isMember b))) := by
  obtain ⟨hea, hta⟩ := normalizedElems_of_asArray ra a ha
  obtain ⟨heb, _⟩ := normalizedElems_of_asArray rb b hb
  simp only [evaluatePure, hA, shortCircuit, hta]
  cases a with
  | nil => rfl
  | cons x xs =>
    have hpos : decide ((x :: xs).length > 0) = true := by simp
    simp only [hpos, Bool.not_true, Bool.false_eq_true, if_false, hB, combineResults,
      intersectResults, hea, heb]
    rfl

theorem evaluatePure_and_subset (data : JSVal) (A B : AST) (ra rb : Result)
    (hA : evaluatePure data A = Except.ok ra) (hB : evaluatePure data B = Except.ok rb) :
    ∃ ro, evaluatePure data (AST.logical LogicalOp.and A B) = Except.ok ro ∧
      (isTruthy ra = true →
        ro = Result.fresh ((valueSet ra).filter (isMember (valueSet rb)))) ∧
      (isTruthy ra = false → ro = Result.fresh []) ∧
      (∀ x ∈ valueSet ro, x ∈ valueSet ra ∧ isMember (valueSet rb) x = true) := by
  by_cases ht : isTruthy ra = true
  · have hcontra : isTruthy ra = false →
        Result.fresh ((valueSet ra).filter (isMember (valueSet rb))) = Result.fresh [] := by
      intro hf
      rw [ht] at hf
      cases hf
    refine ⟨Result.fresh ((valueSet ra).filter (isMember (valueSet rb))), ?_, fun _ => rfl,
      hcontra, ?_⟩
    · simp only [evaluatePure, hA, shortCircuit, ht, Bool.not_true, Bool.false_eq_true,
        if_false, hB, combineResults, intersectResults]
      rfl
    · intro x hx
      exact List.mem_filter.mp hx
  · have hf : isTruthy ra = false := by simpa using ht
    refine ⟨Result.fresh [], ?_, fun h => absurd h ht, fun _ => rfl, ?_⟩
    · simp only [evaluatePure, hA, shortCircuit, hf, Bool.not_false, if_true]
      rfl
    · intro x hx
      cases hx

/-- C11: when `A` and `B` evaluate on `data` to the arrays `a` and `b`, the node
`LogicalExpression{AND, A, B}` evaluates to the elements of `a` that are members of
`b` (by the membership test of `Set`), in the order of `a`; so every value of the
result is a value of `a` and a member of `b`.  Whatever `A` and `B` evaluate to
(scalars included), every value of the result of the node is a value of the result
of `A` and a member of the result of `B`: a truthy left result is intersected with
the right one, a falsy left result gives the empty array.  For the selector `&` on
`[1, 1]` both operands are the input itself and the result is `[1, 1]`. -/
theorem and_node_is_intersection :
    (∀ (A B : AST) (data : JSVal) (ra rb : Result) (a b : List JSVal),
      ((SelectorEvaluator.create A).evaluate data).1 = Except.ok ra → ra.asArray = some a →
      ((SelectorEvaluator.create B).evaluate data).1 = Except.ok rb → rb.asArray = some b →
      ((SelectorEvaluator.create (AST.logical LogicalOp.and A B)).evaluate data).1
          = Except.ok (Result.fresh (a.filter (isMember b))) ∧
        (∀ x ∈ a.filter (isMember b), x ∈ a ∧ isMember b x = true) ∧
        (a.filter (isMember b)).Sublist a) ∧
    (∀ (A B : AST) (data : JSVal) (ra rb : Result),
      ((SelectorEvaluator.create A).evaluate data).1 = Except.ok ra →
      ((SelectorEvaluator.create B).evaluate data).1 = Except.ok rb →
      ∃ ro, ((SelectorEvaluator.create (AST.logical LogicalOp.and A B)).evaluate data).1
          = Except.ok ro ∧
        (SelectorEvaluator.isTruthy ra = true →
          ro = Result.fresh ((valueSet ra).filter (isMember (valueSet rb)))) ∧
        (SelectorEvaluator.isTruthy ra = false → ro = Result.fresh []) ∧
        (∀ x ∈ valueSet ro, x ∈ valueSet ra ∧ isMember (valueSet rb) x = true)) ∧
    parse "&" = Except.ok (AST.logical LogicalOp.and emptyChain emptyChain) ∧
    ((SelectorEvaluator.create (AST.logical LogicalOp.and emptyChain emptyChain)).evaluate
        onesData).1
      = Except.ok (Result.fresh [JSVal.num (JSNum.fin 1), JSVal.num (JSNum.fin 1)]) := by
  refine ⟨?_, ?_, rfl, by with_unfolding_all rfl⟩
  · intro A B data ra rb a b hA ha hB hb
    rw [(evaluate_eq_pure _ data).1] at hA hB ⊢
    refine ⟨evaluatePure_and data A B ra rb a b hA ha hB hb, ?_, List.filter_sublist a⟩
    intro x hx
    exact List.mem_filter.mp hx
  · intro A B data ra rb hA hB
    rw [(evaluate_eq_pure _ data).1] at hA hB ⊢
    exact evaluatePure_and_subset data A B ra rb hA hB

theorem and_node_is_intersection_witness :
    (((SelectorEvaluator.create (AST.logical LogicalOp.and emptyChain emptyChain)).evaluate
        onesData).1
        = Except.ok (Result.fresh ([JSVal.num (JSNum.fin 1), JSVal.num (JSNum.fin 1)].filter
            (isMember [JSVal.num (JSNum.fin 1), JSVal.num (JSNum.fin 1)]))) ∧
      (∀ x ∈ [JSVal.num (JSNum.fin 1), JSVal.num (JSNum.fin 1)].filter
          (isMember [JSVal.num (JSNum.fin 1), JSVal.num (JSNum.fin 1)]),
        x ∈ [JSVal.num (JSNum.fin 1), JSVal.num (JSNum.fin 1)] ∧
          isMember [JSVal.num (JSNum.fin 1), JSVal.num (JSNum.fin 1)] x = true) ∧
      ([JSVal.num (JSNum.fin 1), JSVal.num (JSNum.fin 1)].filter
          (isMember [JSVal.num (JSNum.fin 1), JSVal.num (JSNum.fin 1)])).Sublist
        [JSVal.num (JSNum.fin 1), JSVal.num (JSNum.fin 1)]) ∧
    (∃ ro, ((SelectorEvaluator.create (AST.logical LogicalOp.and emptyChain emptyChain)).evaluate
          (JSVal.num (JSNum.fin 0))).1 = Except.ok ro ∧
        (SelectorEvaluator.isTruthy (Result.value (JSVal.num (JSNum.fin 0))) = true →
          ro = Result.fresh ((valueSet (Result.value (JSVal.num (JSNum.fin 0)))).filter
            (isMember (valueSet (Result.value (JSVal.num (JSNum.fin 0))))))) ∧
        (SelectorEvaluator.isTruthy (Result.value (JSVal.num (JSNum.fin 0))) = false →
          ro = Result.fresh []) ∧
        (∀ x ∈ valueSet ro, x ∈ valueSet (Result.value (JSVal.num (JSNum.fin 0))) ∧
          isMember (valueSet (Result.value (JSVal.num (JSNum.fin 0)))) x = true)) :=
  ⟨and_node_is_intersection.1 emptyChain emptyChain onesData (Result.value onesData)
      (Result.value onesData) [JSVal.num (JSNum.fin 1), JSVal.num (JSNum.fin 1)]
      [JSVal.num (JSNum.fin 1), JSVal.num (JSNum.fin 1)] rfl rfl rfl rfl,
    and_node_is_intersection.2.1 emptyChain emptyChain (JSVal.num (JSNum.fin 0))
      (Result.value (JSVal.num (JSNum.fin 0))) (Result.value (JSVal.num (JSNum.fin 0))) rfl rfl⟩

/-- C12, as stated, fails: the selector `|` parses to an `OR` node whose two operands
are the empty chain; on the input `[1, 1]` the left operand is truthy, the node
returns it as it is, and the result `[1, 1]` holds the same value twice. -/
theorem or_node_keeps_duplicates_of_left :
    parse "|" = Except.ok (AST.logical LogicalOp.or emptyChain emptyChain) ∧
    ((SelectorEvaluator.create (AST.logical LogicalOp.or emptyChain emptyChain)).evaluate
        onesData).1 = Except.ok (Result.value onesData) ∧
    valueSet (Result.value onesData) = [JSVal.num (JSNum.fin 1), JSVal.num (JSNum.fin 1)] ∧
    ¬ (valueSet (Result.value onesData)).Pairwise (fun a b => a.sameValueZero b = false) := by
  refine ⟨rfl, rfl, rfl, ?_⟩
  intro h
  have h1 : valueSet (Result.value onesData)
      = [JSVal.num (JSNum.fin 1), JSVal.num (JSNum.fin 1)] := rfl
  rw [h1] at h
  have h2 := (List.pairwise_cons.mp h).1 (JSVal.num (JSNum.fin 1)) (List.mem_singleton.mpr rfl)
  simp [JSVal.sameValueZero] at h2

/-- C12, amended: when `A` and `B` evaluate on `data`, every value of the result of
`A` and every value of the result of `B` is a member of the result of the node
`LogicalExpression{OR, A, B}`.  When the result of `A` is falsy the node returns the
union of both results, left values first, which has no duplicates.  When the result
of `A` is truthy the node returns that result as it is, without evaluating `B` (the
duplicates of that result stay). -/
theorem or_node_covers_operands :
    (∀ (A B : AST) (data : JSVal) (ra rb ro : Result),
      ((SelectorEvaluator.create A).evaluate data).1 = Except.ok ra →
      ((SelectorEvaluator.create B).evaluate data).1 = Except.ok rb →
      ((SelectorEvaluator.create (AST.logical LogicalOp.or A B)).evaluate data).1
        = Except.ok ro →
      (∀ x ∈ valueSet ra, isMember (valueSet ro) x = true) ∧
      (∀ x ∈ valueSet rb, isMember (valueSet ro) x = true)) ∧
    (∀ (A B : AST) (data : JSVal) (ra rb : Result),
      ((SelectorEvaluator.create A).evaluate data).1 = Except.ok ra →
      SelectorEvaluator.isTruthy ra = false →
      ((SelectorEvaluator.create B).evaluate data).1 = Except.ok rb →
      ((SelectorEvaluator.create (AST.logical LogicalOp.or A B)).evaluate data).1
          = Except.ok (Result.fresh ((valueSet ra ++ valueSet rb).foldl setAdd [])) ∧
        ((valueSet ra ++ valueSet rb).foldl setAdd []).Pairwise
          (fun a b => a.sameValueZero b = false)) ∧
    (∀ (A B : AST) (data : JSVal) (ra : Result),
      ((SelectorEvaluator.create A).evaluate data).1 = Except.ok ra →
      SelectorEvaluator.isTruthy ra = true →
      ((SelectorEvaluator.create (AST.logical LogicalOp.or A B)).evaluate data).1
        = Except.ok (SelectorEvaluator.normalizeResult ra)) := by
  have hshort : ∀ (A B : AST) (data : JSVal) (ra : Result),
      evaluatePure data A = Except.ok ra → isTruthy ra = true →
      evaluatePure data (AST.logical LogicalOp.or A B) = Except.ok (normalizeResult ra) := by
    intro A B data ra hA ht
    simp only [evaluatePure, hA, shortCircuit, ht, if_true]
  have hunion : ∀ (A B : AST) (data : JSVal) (ra rb : Result),
      evaluatePure data A = Except.ok ra → isTruthy ra = false →
      evaluatePure data B = Except.ok rb →
      evaluatePure data (AST.logical LogicalOp.or A B)
        = Except.ok (Result.fresh ((valueSet ra ++ valueSet rb).foldl setAdd [])) := by
    intro A B data ra rb hA ht hB
    simp only [evaluatePure, hA, shortCircuit, ht, Bool.false_eq_true, if_false, hB,
      combineResults, unionResults]
    rfl
  refine ⟨?_, ?_, ?_⟩
  · intro A B data ra rb ro hA hB hO
    rw [(evaluate_eq_pure _ data).1] at hA hB hO
    simp only [SelectorEvaluator.create] at hA hB hO
    by_cases ht : isTruthy ra = true
    · rw [hshort A B data ra hA ht] at hO
      injection hO with hO
      subst hO
      have hvs : valueSet (normalizeResult ra) = valueSet ra :=
        normalizedElems_normalizeResult ra
      rw [hvs]
      refine ⟨fun x hx => List.any_eq_true.mpr ⟨x, hx, sameValueZero_self x⟩, ?_⟩
      intro x hx
      have invA := evaluatePure_emptyOrFull data A ra hA
      have invB := evaluatePure_emptyOrFull data B rb hB
      rcases invA.2 with hempty | hfull
      · exact absurd hempty (normalizedElems_ne_nil_of_truthy ra ht)
      · exact hfull x (invB.1 x hx)
    · have hf : isTruthy ra = false := by simpa using ht
      rw [hunion A B data ra rb hA hf hB] at hO
      injection hO with hO
      subst hO
      have hvs : valueSet (Result.fresh ((valueSet ra ++ valueSet rb).foldl setAdd []))
          = (valueSet ra ++ valueSet rb).foldl setAdd [] := rfl
      rw [hvs]
      exact ⟨fun x hx => isMember_foldl_setAdd _ [] x (List.mem_append_left _ hx),
        fun x hx => isMember_foldl_setAdd _ [] x (List.mem_append_right _ hx)⟩
  · intro A B data ra rb hA ht hB
    rw [(evaluate_eq_pure _ data).1] at hA hB ⊢
    exact ⟨hunion A B data ra rb hA ht hB, pairwise_foldl_setAdd _ [] List.Pairwise.nil⟩
  · intro A B data ra hA ht
    rw [(evaluate_eq_pure _ data).1] at hA ⊢
    exact hshort A B data ra hA ht

theorem or_node_covers_operands_witness :
    ((∀ x ∈ valueSet (Result.value onesData),
        isMember (valueSet (Result.value onesData)) x = true) ∧
      (∀ x ∈ valueSet (Result.value onesData),
        isMember (valueSet (Result.value onesData)) x = true)) ∧
    (((SelectorEvaluator.create (AST.logical LogicalOp.or emptyChain emptyChain)).evaluate
          (JSVal.arr 0 [])).1
        = Except.ok (Result.fresh ((valueSet (Result.value (JSVal.arr 0 []))
            ++ valueSet (Result.value (JSVal.arr 0 []))).foldl setAdd [])) ∧
      ((valueSet (Result.value (JSVal.arr 0 []))
          ++ valueSet (Result.value (JSVal.arr 0 []))).foldl setAdd []).Pairwise
        (fun a b => a.sameValueZero b = false)) ∧
    ((SelectorEvaluator.create (AST.logical LogicalOp.or emptyChain emptyChain)).evaluate
        onesData).1 = Except.ok (SelectorEvaluator.normalizeResult (Result.value onesData)) :=
  ⟨or_node_covers_operands.1 emptyChain emptyChain onesData (Result.value onesData)
      (Result.value onesData) (Result.value onesData) rfl rfl rfl,
    or_node_covers_operands.2.1 emptyChain emptyChain (JSVal.arr 0 [])
      (Result.value (JSVal.arr 0 [])) (Result.value (JSVal.arr 0 [])) rfl rfl rfl,
    or_node_covers_operands.2.2 emptyChain emptyChain onesData (Result.value onesData) rfl rfl⟩

/-! ### Reuse of a cached evaluator -/

theorem evaluateAll_eq_map (ds : List JSVal) :
    ∀ ev : SelectorEvaluator,
      evaluateAll ev ds = ds.map (fun d => ((SelectorEvaluator.create ev.ast).evaluate d).1) := by
  induction ds with
  | nil => intro ev; rfl
  | cons d ds ih =>
    intro ev
    have h1 := evaluate_eq_pure ev d
    have h2 := evaluate_eq_pure (SelectorEvaluator.create ev.ast) d
    simp only [evaluateAll, List.map_cons, ih, h1.2]
    rw [h1.1, h2.1]
    rfl

theorem lookup_mem {β : Type} (l : List (String × β)) (k : String) (v : β)
    (h : l.lookup k = some v) : (k, v) ∈ l := by
  induction l with
  | nil => simp [List.lookup] at h
  | cons e rest ih =>
    obtain ⟨key, w⟩ := e
    by_cases hk : k = key
    · subst hk
      simp [List.lookup] at h
      subst h
      exact List.mem_cons_self _ _
    · have hbeq : (k == key) = false := by simpa using hk
      simp only [List.lookup, hbeq] at h
      exact List.mem_cons_of_mem _ (ih h)

theorem select_hit (c : SelectorCache) (now : Nat) (S : String) (data : JSVal)
    (entry : CacheEntry) (h : c.cache.lookup S = some entry) :
    (select c now S data).1 = resultOrUndefined (entry.evaluator.evaluate data).1 := by
  simp [select, SelectorCache.get, h]

theorem select_miss (c : SelectorCache) (now : Nat) (S : String) (data : JSVal) (ast : AST)
    (h : c.cache.lookup S = none) (hp : parse S = Except.ok ast) :
    (select c now S data).1
      = resultOrUndefined ((SelectorEvaluator.create ast).evaluate data).1 := by
  simp [select, SelectorCache.get, h, hp]

theorem mem_mapSet (m : List (String × CacheEntry)) (key : String) (entry : CacheEntry)
    (e : String × CacheEntry) (he : e ∈ SelectorCache.mapSet m key entry) :
    e ∈ m ∨ e = (key, entry) := by
  unfold SelectorCache.mapSet at he
  split at he
  · obtain ⟨e0, he0, heq⟩ := List.mem_map.mp he
    by_cases hk : (e0.1 == key) = true
    · rw [if_pos hk] at heq
      exact Or.inr heq.symm
    · rw [if_neg hk] at heq
      subst heq
      exact Or.inl he0
  · rcases List.mem_append.mp he with h | h
    · exact Or.inl h
    · exact Or.inr (List.mem_singleton.mp h)

theorem mem_evictOldest (c : SelectorCache) (e : String × CacheEntry)
    (he : e ∈ c.evictOldest.cache) : e ∈ c.cache := by
  unfold SelectorCache.evictOldest at he
  split at he
  · split at he
    · exact (List.mem_filter.mp he).1
    · exact he
  · exact he

theorem select_preserves_consistent (c : SelectorCache) (now : Nat) (S : String)
    (data : JSVal) (hc : CacheConsistent c) : CacheConsistent (select c now S data).2 := by
  intro e he
  cases hl : c.cache.lookup S with
  | some entry =>
    have hentry : parse S = Except.ok entry.evaluator.ast :=
      hc (S, entry) (lookup_mem c.cache S entry hl)
    simp only [select, SelectorCache.get, hl] at he
    obtain ⟨e0, he0, heq⟩ := List.mem_map.mp he
    have hbase : parse e0.1 = Except.ok e0.2.evaluator.ast := by
      rcases mem_mapSet _ _ _ _ he0 with h | h
      · exact hc e0 h
      · rw [h]; exact hentry
    by_cases hk : (e0.1 == S) = true
    · rw [if_pos hk] at heq
      subst heq
      have hkeq : e0.1 = S := by simpa using hk
      simp only [(evaluate_eq_pure entry.evaluator data).2]
      rw [hkeq]
      exact hentry
    · rw [if_neg hk] at heq
      subst heq
      exact hbase
  | none =>
    cases hp : parse S with
    | error err =>
      simp only [select, SelectorCache.get, hl, hp] at he
      exact hc e he
    | ok ast =>
      simp only [select, SelectorCache.get, hl, hp] at he
      obtain ⟨e0, he0, heq⟩ := List.mem_map.mp he
      have hbase : parse e0.1 = Except.ok e0.2.evaluator.ast := by
        simp only [SelectorCache.set] at he0
        rcases mem_mapSet _ _ _ _ he0 with h | h
        · split at h
          · exact hc e0 (mem_evictOldest c e0 h)
          · exact hc e0 h
        · rw [h]; exact hp
      by_cases hk : (e0.1 == S) = true
      · rw [if_pos hk] at heq
        subst heq
        have hkeq : e0.1 = S := by simpa using hk
        simp only [(evaluate_eq_pure (SelectorEvaluator.create ast) data).2]
        rw [hkeq]
        exact hp
      · rw [if_neg hk] at heq
        subst heq
        exact hbase

/-- C15: `evaluate` clears the node memo first, so its outcome does not depend on the
memo the evaluator holds: an evaluator that was used before gives on every input the
outcome of a fresh evaluator built from the same tree, and running one evaluator on
`D1..Dn` in turn gives for every `Di` the outcome of a fresh evaluator on `Di`.  The
cache of `select` only holds evaluators built from the parse of their key (this holds
of the initial cache and is kept by every call), so for a selector that parses,
`select` returns the same value on a cache hit as on a cache miss. -/
theorem evaluate_is_memo_transparent :
    (∀ (ev : SelectorEvaluator) (data : JSVal),
      (ev.evaluate data).1 = ((SelectorEvaluator.create ev.ast).evaluate data).1 ∧
      (ev.evaluate data).2.ast = ev.ast) ∧
    (∀ (ev : SelectorEvaluator) (ds : List JSVal),
      evaluateAll ev ds = ds.map (fun d => ((SelectorEvaluator.create ev.ast).evaluate d).1)) ∧
    CacheConsistent initialCache ∧
    (∀ (c : SelectorCache) (now : Nat) (S : String) (data : JSVal),
      CacheConsistent c → CacheConsistent (select c now S data).2) ∧
    (∀ (hit miss : SelectorCache) (now now2 : Nat) (S : String) (ast : AST) (data : JSVal)
      (entry : CacheEntry),
      parse S = Except.ok ast → CacheConsistent hit →
      hit.cache.lookup S = some entry → miss.cache.lookup S = none →
      (select hit now S data).1 = (select miss now2 S data).1) ∧
    (select (select initialCache 0 "&" onesData).2 1 "&" onesData).1
      = (select initialCache 0 "&" onesData).1 := by
  refine ⟨?_, fun ev ds => evaluateAll_eq_map ds ev, ?_, select_preserves_consistent, ?_,
    by with_unfolding_all rfl⟩
  · intro ev data
    have h1 := evaluate_eq_pure ev data
    have h2 := evaluate_eq_pure (SelectorEvaluator.create ev.ast) data
    exact ⟨by rw [h1.1, h2.1]; rfl, h1.2⟩
  · intro e he
    simp [initialCache, SelectorCache.create] at he
  · intro hit miss now now2 S ast data entry hp hc hhit hmiss
    have hentry : parse S = Except.ok entry.evaluator.ast :=
      hc (S, entry) (lookup_mem hit.cache S entry hhit)
    have hast : entry.evaluator.ast = ast := by
      rw [hp] at hentry
      injection hentry with h
      exact h.symm
    rw [select_hit hit now S data entry hhit, select_miss miss now2 S data ast hmiss hp,
      (evaluate_eq_pure entry.evaluator data).1,
      (evaluate_eq_pure (SelectorEvaluator.create ast) data).1, hast]
    rfl

theorem evaluate_is_memo_transparent_witness :
    CacheConsistent (select initialCache 0 "&" onesData).2 ∧
    (select (select initialCache 0 "&" onesData).2 1 "&" onesData).1
      = (select initialCache 0 "&" onesData).1 :=
  ⟨evaluate_is_memo_transparent.2.2.2.1 initialCache 0 "&" onesData
      evaluate_is_memo_transparent.2.2.1,
    evaluate_is_memo_transparent.2.2.2.2.1 (select initialCache 0 "&" onesData).2 initialCache
      1 0 "&" (AST.logical LogicalOp.and emptyChain emptyChain) onesData
      { evaluator := ((SelectorEvaluator.create
          (AST.logical LogicalOp.and emptyChain emptyChain)).evaluate onesData).2,
        lastUsed := 0 }
      rfl
      (evaluate_is_memo_transparent.2.2.2.1 initialCache 0 "&" onesData
        evaluate_is_memo_transparent.2.2.1)
      (by with_unfolding_all rfl) rfl⟩

/-! ### Property chains in `SelectorEvaluator` -/

/-- C16 (code defect): `SelectorEvaluator` does not hand a `PropertyChain` node to the
property-chain evaluator; it runs its own loop, which starts from `data` instead of
`[data]` and whose `evaluateProperty` returns nothing.  For the chain of `user.name`
on `{user: {name: "John"}}` it throws, where `PropertyChainEvaluator.evaluate` returns
`["John"]`; and whenever it returns a value for a chain with at least one segment,
that value is `undefined`. -/
theorem selectorEvaluator_differs_from_propertyChainEvaluator :
    parse "user.name" = Except.ok userNameChain ∧
    ((SelectorEvaluator.create userNameChain).evaluate johnData).1
      = Except.error (Err.thrown "TypeError: dataArray is not iterable") ∧
    PropertyChainEvaluator.evaluate sampleHost 0 userNameChain johnData
      = Except.ok [JSVal.str "John"] ∧
    (∀ (segment : Segment) (rest : List Segment) (data : JSVal) (r : Result),
      ((SelectorEvaluator.create (AST.propertyChain (segment :: rest))).evaluate data).1
        = Except.ok r → r = Result.value JSVal.undefined) := by
  refine ⟨rfl, rfl, rfl, ?_⟩
  intro segment rest data r h
  rw [(evaluate_eq_pure _ data).1] at h
  simp only [SelectorEvaluator.create, evaluatePure] at h
  cases hpc : evaluatePropertyChain (segment :: rest) data with
  | error e => simp [hpc] at h
  | ok v =>
    simp only [hpc, Except.ok.injEq] at h
    subst h
    rcases evaluatePropertyChain_result (segment :: rest) data v hpc with ⟨hnil, _⟩ | rfl
    · cases hnil
    · rfl

/-! ### `NOT` nodes -/

/-- C17 (code defect): `evaluateNode` calls `this.evaluateUnaryExpression`, a method
that `SelectorEvaluator` does not have, so evaluating a `UnaryExpression{NOT, e}` node
throws on every input, also as an operand of an enclosing `AND` or `OR` node; `select`
turns the error into `undefined`. -/
theorem not_node_throws :
    (∀ (e : AST) (data : JSVal),
      ((SelectorEvaluator.create (AST.unary e)).evaluate data).1 = Except.error
        (Err.thrown "TypeError: this.evaluateUnaryExpression is not a function")) ∧
    (∀ (operator : LogicalOp) (e B : AST) (data : JSVal),
      ((SelectorEvaluator.create (AST.logical operator (AST.unary e) B)).evaluate data).1
        = Except.error
          (Err.thrown "TypeError: this.evaluateUnaryExpression is not a function")) ∧
    parse "!a" = Except.ok (AST.unary (AST.propertyChain [Segment.property "a" none none])) ∧
    (∀ (now : Nat) (data : JSVal),
      (select initialCache now "!a" data).1 = Result.value JSVal.undefined) := by
  refine ⟨fun e data => rfl, fun operator e B data => rfl, rfl, fun now data => rfl⟩

/-! ### Literals of filter values -/

/-- C18 (code defect): `parseFilterValue` takes the value of `parseFloat` whenever it
is not `NaN`, and `parseFloat` reads a numeric prefix, so `10abc` becomes the number
`10`; and it strips the first and the last character whenever the first one is a
quote, so the text of an opening quote followed by `abc` becomes `ab`. -/
theorem parseFilterValue_alters_text :
    parseFilterValue "10abc" = JSVal.num (JSNum.fin 10) ∧
    parseFilterValue openQuoteText = JSVal.str "ab" ∧
    parseFilter "x=10abc" = Filter.comparison FilterOp.eq "x" (JSVal.num (JSNum.fin 10)) := by
  refine ⟨?_, ?_, ?_⟩ <;> with_unfolding_all rfl

/-! ### A slice with step 0 -/

/-- The loop without the limit on the length of `result`, with step `0`, start `0`
and end `3`: no number of rounds finishes it. -/
theorem applySliceLoop_zero_step (array : List JSVal) (fuel : Nat) :
    ∀ acc : List JSVal,
      applySliceLoop array (JSInt.int 3) (JSInt.int 0) fuel (JSInt.int 0) acc
        = Except.error Err.outOfFuel := by
  induction fuel with
  | zero => intro acc; rfl
  | succ f ih =>
    intro acc
    have hlt : JSInt.lt (JSInt.int 0) (JSInt.int 3) = true := rfl
    have hadd : JSInt.add (JSInt.int 0) (JSInt.int 0) = JSInt.int 0 := rfl
    rw [applySliceLoop, if_pos hlt, hadd]
    exact ih _

/-- The loop only appends to `result`. -/
theorem applySliceLoop_length_le (array : List JSVal) (stop inc : JSInt) (fuel : Nat) :
    ∀ (i : JSInt) (acc r : List JSVal),
      applySliceLoop array stop inc fuel i acc = Except.ok r → acc.length ≤ r.length := by
  induction fuel with
  | zero =>
    intro i acc r hr
    by_cases hc : JSInt.lt i stop = true
    · rw [applySliceLoop, if_pos hc] at hr
      cases hr
    · rw [applySliceLoop, if_neg hc] at hr
      cases hr
      exact Nat.le_refl _
  | succ f ih =>
    intro i acc r hr
    by_cases hc : JSInt.lt i stop = true
    · rw [applySliceLoop, if_pos hc] at hr
      have h1 := ih _ _ _ hr
      rw [List.length_append, List.length_singleton] at h1
      omega
    · rw [applySliceLoop, if_neg hc] at hr
      cases hr
      exact Nat.le_refl _

/-- Where the loop without the limit returns a result that fits into an array of the
host, the loop with the limit returns the same result. -/
theorem applySliceLoopLimited_of_applySliceLoop (maxLength : Nat) (array : List JSVal)
    (stop inc : JSInt) (fuel : Nat) :
    ∀ (i : JSInt) (acc r : List JSVal),
      applySliceLoop array stop inc fuel i acc = Except.ok r → r.length ≤ maxLength →
      applySliceLoopLimited maxLength array stop inc fuel i acc = Except.ok r := by
  induction fuel with
  | zero =>
    intro i acc r hr _
    by_cases hc : JSInt.lt i stop = true
    · rw [applySliceLoop, if_pos hc] at hr
      cases hr
    · rw [applySliceLoop, if_neg hc] at hr
      rw [applySliceLoopLimited, if_neg hc]
      exact hr
  | succ f ih =>
    intro i acc r hr hlen
    by_cases hc : JSInt.lt i stop = true
    · rw [applySliceLoop, if_pos hc] at hr
      have h1 := applySliceLoop_length_le array stop inc f _ _ _ hr
      rw [List.length_append, List.length_singleton] at h1
      have h2 : acc.length < maxLength := by omega
      rw [applySliceLoopLimited, if_pos hc, if_pos h2]
      exact ih _ _ _ hr hlen
    · rw [applySliceLoop, if_neg hc] at hr
      rw [applySliceLoopLimited, if_neg hc]
      exact hr

/-- Where `applySlice` without the limit returns a result that fits into an array of
the host, `applySlice` with the limit returns the same result. -/
theorem applySliceLimited_of_applySlice (maxLength fuel : Nat) (slice : Slice)
    (array r : List JSVal) (hr : applySlice fuel slice array = Except.ok r)
    (hlen : r.length ≤ maxLength) :
    applySliceLimited maxLength fuel slice array = Except.ok r := by
  unfold applySlice at hr
  unfold applySliceLimited
  simp only at hr ⊢
  generalize hloop : applySliceLoop array _ _ fuel _ [] = res at hr
  cases res with
  | error e => cases hr
  | ok r0 =>
    have hr2 : (if JSInt.lt slice.step (JSInt.int 0) = true then r0.reverse else r0) = r := by
      simpa using hr
    have hlen0 : r0.length ≤ maxLength := by
      rw [← hr2] at hlen
      split at hlen
      · rwa [List.length_reverse] at hlen
      · exact hlen
    rw [applySliceLoopLimited_of_applySliceLoop maxLength array _ _ fuel _ _ _ hloop hlen0]
    exact hr

/-- With step `0`, start `0` and end `3` the loop with the limit pushes until `result`
holds `maxLength` elements: it is still running after `fuel` rounds while there is
room for `fuel` more elements, and the push after that throws. -/
theorem applySliceLoopLimited_zero_step (maxLength : Nat) (array : List JSVal)
    (fuel : Nat) :
    ∀ acc : List JSVal, acc.length ≤ maxLength →
      applySliceLoopLimited maxLength array (JSInt.int 3) (JSInt.int 0) fuel (JSInt.int 0) acc
        = Except.error (if acc.length + fuel ≤ maxLength then Err.outOfFuel
            else Err.thrown "RangeError: Invalid array length") := by
  have hlt : JSInt.lt (JSInt.int 0) (JSInt.int 3) = true := rfl
  have hadd : JSInt.add (JSInt.int 0) (JSInt.int 0) = JSInt.int 0 := rfl
  induction fuel with
  | zero =>
    intro acc hacc
    rw [applySliceLoopLimited, if_pos hlt, if_pos (by omega)]
  | succ f ih =>
    intro acc hacc
    by_cases hroom : acc.length < maxLength
    · rw [applySliceLoopLimited, if_pos hlt, if_pos hroom, hadd, ih _ (by
        rw [List.length_append, List.length_singleton]; omega)]
      rw [List.length_append, List.length_singleton]
      by_cases hle : acc.length + (f + 1) ≤ maxLength
      · rw [if_pos hle, if_pos (by omega)]
      · rw [if_neg hle, if_neg (by omega)]
    · rw [applySliceLoopLimited, if_pos hlt, if_neg hroom, if_neg (by omega)]

/-- C19 (code defect): the tokenizer turns `arr[0:3:0]` into a slice with step `0`, and
with that slice the loop of `applySlice` never advances: `i` stays `0`, below the end
`3`, on every array, and every round pushes one more element.  On a host whose arrays
hold at most `maxLength` elements the call is still running after `fuel` rounds for
every `fuel` up to `maxLength`, and with more rounds it ends with the `RangeError` of
the push onto the full array: it never returns a value, and the number of rounds is
the limit of the host, whatever the length of the array.  The evaluation of the chain
`arr[0:3:0]` on `{arr: [1]}` accordingly ends with an error for every fuel. -/
theorem applySlice_zero_step_runs_to_array_limit :
    tokenize "arr[0:3:0]" = Except.ok [Token.property "arr", Token.slice zeroStepSlice] ∧
    parse "arr[0:3:0]" = Except.ok zeroStepChain ∧
    (∀ (maxLength fuel : Nat) (array : List JSVal),
      applySliceLimited maxLength fuel zeroStepSlice array
        = Except.error (if fuel ≤ maxLength then Err.outOfFuel
            else Err.thrown "RangeError: Invalid array length")) ∧
    (∀ (h : Host) (fuel : Nat),
      ∃ e : Err, PropertyChainEvaluator.evaluate h fuel zeroStepChain arrData
        = Except.error e) := by
  have hslice : ∀ (fuel : Nat) (array : List JSVal),
      applySlice fuel zeroStepSlice array = Except.error Err.outOfFuel := by
    intro fuel array
    have hloop := applySliceLoop_zero_step array fuel []
    simp only [applySlice, zeroStepSlice, Option.getD_some, JSInt.lt, JSInt.abs]
    have h1 : (decide ((0 : Int) < 0)) = false := by decide
    have h2 : (decide ((3 : Int) < 0)) = false := by decide
    simp only [h1, h2, Bool.false_eq_true, if_false]
    have h3 : ((Int.natAbs 0 : Nat) : Int) = 0 := rfl
    rw [h3, hloop]
  refine ⟨rfl, rfl, ?_, ?_⟩
  · intro maxLength fuel array
    have hloop := applySliceLoopLimited_zero_step maxLength array fuel [] (Nat.zero_le _)
    rw [List.length_nil, Nat.zero_add] at hloop
    simp only [applySliceLimited, zeroStepSlice, Option.getD_some, JSInt.lt, JSInt.abs]
    have h1 : (decide ((0 : Int) < 0)) = false := by decide
    have h2 : (decide ((3 : Int) < 0)) = false := by decide
    simp only [h1, h2, Bool.false_eq_true, if_false]
    have h3 : ((Int.natAbs 0 : Nat) : Int) = 0 := rfl
    rw [h3, hloop]
  · intro h fuel
    refine ⟨Err.outOfFuel, ?_⟩
    simp [PropertyChainEvaluator.evaluate, zeroStepChain, evaluateSegments, evaluateSegment,
      evaluateProperty, concatMapExcept, evaluatePropertyStep, arrData, JSVal.isNullish, getMember,
      Result.asArray, hslice, Except.map]

end EvaluatorResults

/-! ### Size and eviction of the selector cache -/

/-- C13 (code defect): `evictOldest` deletes the oldest entry only `if (oldestKey)`,
and the empty string is falsy.  In a cache of capacity 1 that holds the key `""`, the
next `set` evicts nothing and adds its entry, so the map holds 2 entries.  The empty
selector parses, so `select` does store the key `""`. -/
theorem cache_exceeds_maxSize_with_empty_key (ev1 ev2 : SelectorEvaluator) :
    (((SelectorCache.create 1).set 0 "" ev1).set 1 "a" ev2).cache.map Prod.fst = ["", "a"] ∧
    (((SelectorCache.create 1).set 0 "" ev1).set 1 "a" ev2).maxSize = 1 ∧
    (((SelectorCache.create 1).set 0 "" ev1).set 1 "a" ev2).maxSize
      < (((SelectorCache.create 1).set 0 "" ev1).set 1 "a" ev2).cache.length ∧
    parse "" = Except.ok emptyChain ∧
    ((select (SelectorCache.create 1) 0 "" JSVal.null).2.cache.map Prod.fst) = [""] := by
  exact ⟨rfl, rfl, Nat.lt_succ_self 1, rfl, rfl⟩

theorem findOldest_spec (l : List (String × CacheEntry)) :
    ∀ (o : Nat) (ko : String), ∃ t key,
      SelectorCache.findOldest l (some o) (some ko) = (some t, some key) ∧ t ≤ o ∧
      (∀ e ∈ l, t ≤ e.2.lastUsed) ∧
      ((t = o ∧ key = ko) ∨ ∃ entry, (key, entry) ∈ l ∧ entry.lastUsed = t) := by
  induction l with
  | nil =>
    intro o ko
    exact ⟨o, ko, rfl, Nat.le_refl _, (fun e he => absurd he (List.not_mem_nil e)),
      Or.inl ⟨rfl, rfl⟩⟩
  | cons x rest ih =>
    intro o ko
    obtain ⟨k, entry⟩ := x
    by_cases hlt : entry.lastUsed < o
    · obtain ⟨t, key, hf, hle, hall, hsrc⟩ := ih entry.lastUsed k
      refine ⟨t, key, ?_, by omega, ?_, ?_⟩
      · simp only [SelectorCache.findOldest, if_pos hlt]
        exact hf
      · intro e he
        rcases List.mem_cons.mp he with rfl | he
        · exact hle
        · exact hall e he
      · rcases hsrc with ⟨rfl, rfl⟩ | ⟨en, hen, ht⟩
        · exact Or.inr ⟨entry, List.mem_cons_self _ _, rfl⟩
        · exact Or.inr ⟨en, List.mem_cons_of_mem _ hen, ht⟩
    · obtain ⟨t, key, hf, hle, hall, hsrc⟩ := ih o ko
      refine ⟨t, key, ?_, hle, ?_, ?_⟩
      · simp only [SelectorCache.findOldest, if_neg hlt]
        exact hf
      · intro e he
        rcases List.mem_cons.mp he with rfl | he
        · simp only
          omega
        · exact hall e he
      · rcases hsrc with h | ⟨en, hen, ht⟩
        · exact Or.inl h
        · exact Or.inr ⟨en, List.mem_cons_of_mem _ hen, ht⟩

theorem findOldest_victim (l : List (String × CacheEntry)) (hne : l ≠ []) :
    ∃ victim ∈ l, (SelectorCache.findOldest l none none).2 = some victim.1 ∧
      ∀ e ∈ l, victim.2.lastUsed ≤ e.2.lastUsed := by
  cases l with
  | nil => exact absurd rfl hne
  | cons x rest =>
    obtain ⟨k, entry⟩ := x
    obtain ⟨t, key, hf, hle, hall, hsrc⟩ := findOldest_spec rest entry.lastUsed k
    rcases hsrc with ⟨rfl, rfl⟩ | ⟨en, hen, ht⟩
    · refine ⟨(key, entry), List.mem_cons_self _ _, ?_, ?_⟩
      · simp only [SelectorCache.findOldest, hf]
      · intro e he
        rcases List.mem_cons.mp he with rfl | he
        · exact Nat.le_refl _
        · exact hall e he
    · refine ⟨(key, en), List.mem_cons_of_mem _ hen, ?_, ?_⟩
      · simp only [SelectorCache.findOldest, hf]
      · intro e he
        simp only
        rw [ht]
        rcases List.mem_cons.mp he with rfl | he
        · exact hle
        · exact hall e he

theorem filter_key_length (l : List (String × CacheEntry)) (victim : String × CacheEntry)
    (hv : victim ∈ l) (hkeys : (l.map Prod.fst).Nodup) :
    (l.filter (fun e => e.1 != victim.1)).length + 1 = l.length := by
  induction l with
  | nil => cases hv
  | cons x rest ih =>
    rw [List.map_cons, List.nodup_cons] at hkeys
    obtain ⟨hx, hrest⟩ := hkeys
    rcases List.mem_cons.mp hv with rfl | hv
    · have hall : rest.filter (fun e => e.1 != victim.1) = rest := by
        apply List.filter_eq_self.mpr
        intro e he
        have : e.1 ≠ victim.1 := fun heq => hx (heq ▸ List.mem_map_of_mem Prod.fst he)
        simpa using this
      simp [List.filter, hall]
    · have hne : x.1 ≠ victim.1 :=
        fun heq => hx (heq ▸ List.mem_map_of_mem Prod.fst hv)
      have hkeep : (x.1 != victim.1) = true := by simpa using hne
      simp only [List.filter, hkeep, List.length_cons]
      have := ih hv hrest
      omega

theorem set_on_full_cache (c : SelectorCache) (now : Nat) (k : String)
    (ev : SelectorEvaluator) (hpos : 0 < c.maxSize) (hfull : c.cache.length = c.maxSize)
    (hsize : (c.cache.length : Int) ≤ c.currentSize)
    (hkeys : (c.cache.map Prod.fst).Nodup) (hnonempty : ∀ e ∈ c.cache, e.1 ≠ "")
    (htimes : (c.cache.map (fun e => e.2.lastUsed)).Nodup)
    (hnew : k ∉ c.cache.map Prod.fst) :
    ∃ victim ∈ c.cache,
      (∀ e ∈ c.cache, e.1 ≠ victim.1 → victim.2.lastUsed < e.2.lastUsed) ∧
      (c.set now k ev).cache
        = c.cache.filter (fun e => e.1 != victim.1) ++ [(k, { evaluator := ev, lastUsed := now })] ∧
      (c.cache.filter (fun e => e.1 != victim.1)).length + 1 = c.cache.length ∧
      (c.set now k ev).cache.length = c.maxSize := by
  have hne : c.cache ≠ [] := by
    intro h
    rw [h] at hfull
    simp at hfull
    omega
  obtain ⟨victim, hv, hfind, hmin⟩ := findOldest_victim c.cache hne
  have hlen := filter_key_length c.cache victim hv hkeys
  refine ⟨victim, hv, ?_, ?_, hlen, ?_⟩
  · intro e he hkey
    have hle := hmin e he
    have hneq : victim.2.lastUsed ≠ e.2.lastUsed := by
      intro heq
      have hinj := List.inj_on_of_nodup_map htimes hv he heq
      exact hkey (by rw [hinj])
    omega
  · have hge : c.currentSize ≥ (c.maxSize : Int) := by
      rw [← hfull]; exact hsize
    have hvne : victim.1 ≠ "" := hnonempty victim hv
    have hevict : c.evictOldest.cache = c.cache.filter (fun e => e.1 != victim.1) := by
      simp only [SelectorCache.evictOldest, hfind, if_pos hvne]
    have hany : (c.cache.filter (fun e => e.1 != victim.1)).any (fun e => e.1 == k) = false := by
      rw [List.any_eq_false]
      intro e he
      have hin := (List.mem_filter.mp he).1
      have : e.1 ≠ k := fun heq => hnew (heq ▸ List.mem_map_of_mem Prod.fst hin)
      simpa using this
    simp only [SelectorCache.set, if_pos hge, hevict, SelectorCache.mapSet, hany,
      Bool.false_eq_true, if_false]
  · have hge : c.currentSize ≥ (c.maxSize : Int) := by
      rw [← hfull]; exact hsize
    have hvne : victim.1 ≠ "" := hnonempty victim hv
    have hevict : c.evictOldest.cache = c.cache.filter (fun e => e.1 != victim.1) := by
      simp only [SelectorCache.evictOldest, hfind, if_pos hvne]
    have hany : (c.cache.filter (fun e => e.1 != victim.1)).any (fun e => e.1 == k) = false := by
      rw [List.any_eq_false]
      intro e he
      have hin := (List.mem_filter.mp he).1
      have : e.1 ≠ k := fun heq => hnew (heq ▸ List.mem_map_of_mem Prod.fst hin)
      simpa using this
    simp only [SelectorCache.set, if_pos hge, hevict, SelectorCache.mapSet, hany,
      Bool.false_eq_true, if_false, List.length_append, List.length_singleton]
    omega

theorem length_mapSet_le (m : List (String × CacheEntry)) (key : String) (entry : CacheEntry) :
    (SelectorCache.mapSet m key entry).length ≤ m.length + 1 := by
  unfold SelectorCache.mapSet
  split
  · simp
  · simp

theorem evictOldest_keeps_count (c : SelectorCache)
    (h : (c.cache.length : Int) ≤ c.currentSize) :
    (c.evictOldest.cache.length : Int) ≤ c.evictOldest.currentSize := by
  by_cases hne : c.cache = []
  · have hf : (SelectorCache.findOldest c.cache none none).2 = none := by
      rw [hne]; rfl
    simp only [SelectorCache.evictOldest, hf]
    exact h
  · obtain ⟨victim, hv, hfind, _⟩ := findOldest_victim c.cache hne
    simp only [SelectorCache.evictOldest, hfind]
    split
    · have hlt : (c.cache.filter (fun e => e.1 != victim.1)).length < c.cache.length := by
        apply List.length_filter_lt_length_iff_exists.mpr
        exact ⟨victim, hv, by simp⟩
      simp only
      omega
    · exact h

theorem set_keeps_count (c : SelectorCache) (now : Nat) (k : String) (ev : SelectorEvaluator)
    (h : (c.cache.length : Int) ≤ c.currentSize) :
    ((c.set now k ev).cache.length : Int) ≤ (c.set now k ev).currentSize := by
  simp only [SelectorCache.set]
  split
  · have h1 := evictOldest_keeps_count c h
    have h2 := length_mapSet_le c.evictOldest.cache k { evaluator := ev, lastUsed := now }
    omega
  · have h2 := length_mapSet_le c.cache k { evaluator := ev, lastUsed := now }
    omega

theorem get_keeps_count (c : SelectorCache) (now : Nat) (k : String)
    (h : (c.cache.length : Int) ≤ c.currentSize) :
    (((c.get now k).2).cache.length : Int) ≤ ((c.get now k).2).currentSize := by
  unfold SelectorCache.get
  split
  · rename_i entry hl
    have hany : c.cache.any (fun e => e.1 == k) = true := by
      rw [List.any_eq_true]
      exact ⟨(k, entry), lookup_mem c.cache k entry hl, by simp⟩
    simp only [SelectorCache.mapSet, hany, if_true, List.length_map]
    exact h
  · exact h

/-- C14: in a cache that holds `maxSize ≥ 1` entries under distinct non-empty keys with
pairwise distinct `lastUsed` times (and whose counter `currentSize` is not below the
number of entries, which `create`, `get` and `set` maintain), `set(k, e)` for a new key
`k` removes exactly one entry, the one whose `lastUsed` is smaller than that of every
other entry, keeps the other entries in their order and appends `k`.  After filling a
cache of capacity 2 with `a` and `b` and reading `a`, the insertion of `c` evicts `b`
and keeps `a`. -/
theorem set_evicts_least_recently_used :
    (∀ (c : SelectorCache) (now : Nat) (k : String) (ev : SelectorEvaluator),
      0 < c.maxSize → c.cache.length = c.maxSize →
      (c.cache.length : Int) ≤ c.currentSize →
      (c.cache.map Prod.fst).Nodup → (∀ e ∈ c.cache, e.1 ≠ "") →
      (c.cache.map (fun e => e.2.lastUsed)).Nodup →
      k ∉ c.cache.map Prod.fst →
      ∃ victim ∈ c.cache,
        (∀ e ∈ c.cache, e.1 ≠ victim.1 → victim.2.lastUsed < e.2.lastUsed) ∧
        (c.set now k ev).cache
          = c.cache.filter (fun e => e.1 != victim.1)
              ++ [(k, { evaluator := ev, lastUsed := now })] ∧
        (c.cache.filter (fun e => e.1 != victim.1)).length + 1 = c.cache.length ∧
        (c.set now k ev).cache.length = c.maxSize) ∧
    (∀ maxSize : Nat,
      ((SelectorCache.create maxSize).cache.length : Int)
        ≤ (SelectorCache.create maxSize).currentSize) ∧
    (∀ (c : SelectorCache) (now : Nat) (k : String) (ev : SelectorEvaluator),
      (c.cache.length : Int) ≤ c.currentSize →
      ((c.set now k ev).cache.length : Int) ≤ (c.set now k ev).currentSize) ∧
    (∀ (c : SelectorCache) (now : Nat) (k : String),
      (c.cache.length : Int) ≤ c.currentSize →
      (((c.get now k).2).cache.length : Int) ≤ ((c.get now k).2).currentSize) ∧
    (∀ ev : SelectorEvaluator,
      (filledThenRead ev).cache.map (fun e => (e.1, e.2.lastUsed)) = [("a", 2), ("b", 1)] ∧
      ((filledThenRead ev).set 3 "c" ev).cache.map (fun e => (e.1, e.2.lastUsed))
        = [("a", 2), ("c", 3)]) :=
  ⟨set_on_full_cache, fun _ => Int.le_refl _, set_keeps_count, get_keeps_count,
    fun _ => ⟨rfl, rfl⟩⟩

theorem set_evicts_least_recently_used_witness :
    ∃ victim ∈ (filledThenRead (SelectorEvaluator.create emptyChain)).cache,
      (∀ e ∈ (filledThenRead (SelectorEvaluator.create emptyChain)).cache,
        e.1 ≠ victim.1 → victim.2.lastUsed < e.2.lastUsed) ∧
      ((filledThenRead (SelectorEvaluator.create emptyChain)).set 3 "c"
          (SelectorEvaluator.create emptyChain)).cache
        = (filledThenRead (SelectorEvaluator.create emptyChain)).cache.filter
            (fun e => e.1 != victim.1)
          ++ [("c", { evaluator := SelectorEvaluator.create emptyChain, lastUsed := 3 })] ∧
      ((filledThenRead (SelectorEvaluator.create emptyChain)).cache.filter
          (fun e => e.1 != victim.1)).length + 1
        = (filledThenRead (SelectorEvaluator.create emptyChain)).cache.length ∧
      ((filledThenRead (SelectorEvaluator.create emptyChain)).set 3 "c"
          (SelectorEvaluator.create emptyChain)).cache.length
        = (filledThenRead (SelectorEvaluator.create emptyChain)).maxSize :=
  set_evicts_least_recently_used.1 (filledThenRead (SelectorEvaluator.create emptyChain)) 3 "c"
    (SelectorEvaluator.create emptyChain) (by decide) rfl (by decide) (by decide) (by decide)
    (by decide) (by decide)

/-! ### Bracket tokens -/

theorem scanBracket_balanced (cs : List Char) :
    ∀ (pos depth : Nat) (tail : List Char),
      (∀ p : List Char, p <+: cs → p.count ']' + 1 ≤ depth + p.count '[') →
      depth + cs.count '[' = cs.count ']' + 1 →
      scanBracket (cs ++ ']' :: tail) pos depth = pos + cs.length := by
  induction cs with
  | nil =>
    intro pos depth tail _ htotal
    have hd : depth = 1 := by simpa using htotal
    subst hd
    simp [scanBracket]
  | cons x xs ih =>
    intro pos depth tail hpre htotal
    have hhead := hpre [x] (by simp)
    by_cases hclose : x = ']'
    · subst hclose
      have hd : 2 ≤ depth := by simpa using hhead
      have hne : ¬ (depth - 1 = 0) := by omega
      have hrec := ih (pos + 1) (depth - 1) tail
        (by
          intro p hp
          have := hpre (']' :: p) (by simpa using hp)
          simp at this
          omega)
        (by
          simp at htotal
          omega)
      rw [List.cons_append, scanBracket, if_pos rfl, if_neg hne, hrec, List.length_cons]
      omega
    · by_cases hopen : x = '['
      · subst hopen
        have hrec := ih (pos + 1) (depth + 1) tail
          (by
            intro p hp
            have := hpre ('[' :: p) (by simpa using hp)
            simp at this
            omega)
          (by
            simp at htotal
            omega)
        rw [List.cons_append, scanBracket, if_neg hclose, if_pos rfl, hrec, List.length_cons]
        omega
      · have hc1 : (x == ']') = false := by simpa using hclose
        have hc2 : (x == '[') = false := by simpa using hopen
        have hrec := ih (pos + 1) depth tail
          (by
            intro p hp
            have := hpre (x :: p) (by simpa using hp)
            simp [List.count_cons, hc1, hc2] at this
            omega)
          (by
            simp [List.count_cons, hc1, hc2] at htotal
            omega)
        rw [List.cons_append, scanBracket, if_neg hclose, if_neg hopen, hrec, List.length_cons]
        omega

theorem tokenizer_loop_done (fuel : Nat) (t : Tokenizer) (h : ¬ t.pos < t.selector.length) :
    Tokenizer.loop fuel t = Except.ok t := by
  cases fuel with
  | zero => simp [Tokenizer.loop, h]
  | succ f => simp [Tokenizer.loop, h]

theorem tokenize_bracket (cs : List Char) (hb : Balanced cs) :
    tokenize (String.mk ('[' :: cs ++ [']']))
      = Except.ok [if isSlice (String.mk cs) then Token.slice (parseSlice (String.mk cs))
          else Token.filter (String.mk cs)] := by
  have hscan : scanBracket (cs ++ [']']) 1 1 = 1 + cs.length :=
    scanBracket_balanced cs 1 1 []
      (by intro p hp; have := hb.1 p hp; omega)
      (by have := hb.2; omega)
  have hlen : (String.mk ('[' :: cs ++ [']'])).length = cs.length + 1 + 1 := by
    simp [String.length]
  have hslice : sliceChars ('[' :: (cs ++ [']'])) 1 (1 + cs.length) = cs := by
    simp [sliceChars, Nat.add_comm 1 cs.length]
  have hnext : (Tokenizer.tokenizeNext
      { selector := '[' :: cs ++ [']'], tokens := [], pos := 0 })
      = { selector := '[' :: cs ++ [']'],
          tokens := [if isSlice (String.mk cs) then Token.slice (parseSlice (String.mk cs))
            else Token.filter (String.mk cs)],
          pos := 1 + cs.length + 1 } := by
    simp only [Tokenizer.tokenizeNext, List.cons_append, List.get?_cons_zero]
    have h1 : ¬ ('[' = '.') := by decide
    simp only [if_neg h1, if_true, Tokenizer.tokenizeSquareBracket, Nat.zero_add,
      List.drop_succ_cons, List.drop_zero, hscan, hslice, Tokenizer.addToken, List.nil_append]
    split <;> rfl
  unfold tokenize
  rw [hlen]
  simp only [String.toList]
  rw [Tokenizer.loop, if_pos (by simp), hnext, tokenizer_loop_done _ _ (by simp; omega)]
  rfl

/-- C20: for every text `c` whose square brackets are balanced, the tokenizer turns
`[` + `c` + `]` into exactly one token: `SLICE` (with the parsed slice) when `c` matches
the slice pattern, `FILTER` with the value `c` unchanged otherwise, nested brackets
included.  So `items[a[b]c]` gives `PROPERTY(items)`, `FILTER("a[b]c")`. -/
theorem tokenize_balanced_bracket_gives_one_token :
    (∀ c : String, Balanced c.toList →
      tokenize ("[" ++ c ++ "]")
        = Except.ok [if isSlice c then Token.slice (parseSlice c) else Token.filter c]) ∧
    tokenize "items[a[b]c]" = Except.ok [Token.property "items", Token.filter "a[b]c"] ∧
    tokenize "[a[b]c]" = Except.ok [Token.filter "a[b]c"] ∧
    tokenize "[1:3]" = Except.ok [Token.slice (parseSlice "1:3")] := by
  refine ⟨?_, rfl, rfl, rfl⟩
  intro c hb
  have h := tokenize_bracket c.toList hb
  have hs : "[" ++ c ++ "]" = String.mk ('[' :: c.toList ++ [']']) := by
    apply String.ext
    simp [String.toList]
  have hc : String.mk c.toList = c := rfl
  rw [hs, h, hc]

theorem balanced_sample : Balanced "a[b]c".toList := by
  constructor
  · intro p hp
    have hlen : p.length ≤ 5 := by
      have := hp.length_le
      simpa using this
    obtain ⟨t, ht⟩ := hp
    have hp2 : p = ("a[b]c".toList).take p.length := by
      rw [← ht]; simp
    rw [hp2]
    have h5 : p.length = 0 ∨ p.length = 1 ∨ p.length = 2 ∨ p.length = 3 ∨ p.length = 4 ∨
        p.length = 5 := by omega
    rcases h5 with h | h | h | h | h | h <;> rw [h] <;> decide
  · decide

theorem tokenize_balanced_bracket_gives_one_token_witness :
    tokenize ("[" ++ "a[b]c" ++ "]")
      = Except.ok [if isSlice "a[b]c" then Token.slice (parseSlice "a[b]c")
          else Token.filter "a[b]c"] :=
  tokenize_balanced_bracket_gives_one_token.1 "a[b]c" balanced_sample

/-! ### A filter on a member that is not an array -/

theorem evaluatePropertyStep_filter_non_array (h : Host) (fuel : Nat) (name : String)
    (f : Filter) (slice : Option Slice) (data member : JSVal)
    (hn : data.isNullish = false) (hm : getMember data name = member)
    (hu : member ≠ JSVal.undefined) (ha : member.isArray = false) :
    evaluatePropertyStep h fuel name (some f) slice data = Except.ok [JSVal.undefined] := by
  unfold evaluatePropertyStep
  rw [hm]
  cases member with
  | undefined => exact absurd rfl hu
  | arr id elems => simp [JSVal.isArray] at ha
  | null => cases slice <;> simp [hn, applyFilter, Result.asArray]
  | bool b => cases slice <;> simp [hn, applyFilter, Result.asArray]
  | num n => cases slice <;> simp [hn, applyFilter, Result.asArray]
  | str s => cases slice <;> simp [hn, applyFilter, Result.asArray]
  | obj id members => cases slice <;> simp [hn, applyFilter, Result.asArray]

theorem evaluateProperty_filter_on_object_member (h : Host) (fuel id : Nat) (name : String)
    (f : Filter) (slice : Option Slice) (v : JSVal) (rest : List (String × JSVal))
    (hu : v ≠ JSVal.undefined) (ha : v.isArray = false) :
    evaluateProperty h fuel name (some f) slice [JSVal.obj id ((name, v) :: rest)]
      = Except.ok [JSVal.undefined] := by
  have hm : getMember (JSVal.obj id ((name, v) :: rest)) name = v := by
    simp [getMember, List.lookup]
  have hstep := evaluatePropertyStep_filter_non_array h fuel name f slice
    (JSVal.obj id ((name, v) :: rest)) v rfl hm hu ha
  simp [evaluateProperty, concatMapExcept, hstep]

/-- C21 (code defect): for a `Property` segment with a filter, `evaluateProperty`
replaces the member value by `applyFilter(filter, value)`, and `applyFilter` returns
`undefined` for every value that is not an array.  The member value (`null`, a
boolean, a number, a string or an object) is lost and `undefined` is pushed to the
output instead.  For `user[name]` on `{user: {name: "John"}}` the result is
`[undefined]`, where the chain `user` without the filter gives the object itself. -/
theorem evaluateProperty_filter_loses_non_array_member :
    (∀ (h : Host) (fuel id : Nat) (name : String) (f : Filter) (slice : Option Slice)
      (rest : List (String × JSVal)),
      evaluateProperty h fuel name (some f) slice [JSVal.obj id ((name, JSVal.null) :: rest)]
        = Except.ok [JSVal.undefined]) ∧
    (∀ (h : Host) (fuel id : Nat) (name : String) (f : Filter) (slice : Option Slice)
      (rest : List (String × JSVal)) (b : Bool),
      evaluateProperty h fuel name (some f) slice [JSVal.obj id ((name, JSVal.bool b) :: rest)]
        = Except.ok [JSVal.undefined]) ∧
    (∀ (h : Host) (fuel id : Nat) (name : String) (f : Filter) (slice : Option Slice)
      (rest : List (String × JSVal)) (n : JSNum),
      evaluateProperty h fuel name (some f) slice [JSVal.obj id ((name, JSVal.num n) :: rest)]
        = Except.ok [JSVal.undefined]) ∧
    (∀ (h : Host) (fuel id : Nat) (name : String) (f : Filter) (slice : Option Slice)
      (rest : List (String × JSVal)) (s : String),
      evaluateProperty h fuel name (some f) slice [JSVal.obj id ((name, JSVal.str s) :: rest)]
        = Except.ok [JSVal.undefined]) ∧
    (∀ (h : Host) (fuel id : Nat) (name : String) (f : Filter) (slice : Option Slice)
      (rest : List (String × JSVal)) (id2 : Nat) (members : List (String × JSVal)),
      evaluateProperty h fuel name (some f) slice
          [JSVal.obj id ((name, JSVal.obj id2 members) :: rest)]
        = Except.ok [JSVal.undefined]) ∧
    parse "user[name]" = Except.ok userFilterChain ∧
    PropertyChainEvaluator.evaluate sampleHost 0 userFilterChain johnData
      = Except.ok [JSVal.undefined] ∧
    PropertyChainEvaluator.evaluate sampleHost 0
        (AST.propertyChain [Segment.property "user" none none]) johnData
      = Except.ok [JSVal.obj 1 [("name", JSVal.str "John")]] := by
  refine ⟨?_, ?_, ?_, ?_, ?_, rfl, rfl, rfl⟩
  · intro h fuel id name f slice rest
    exact evaluateProperty_filter_on_object_member h fuel id name f slice _ rest
      (by simp) rfl
  · intro h fuel id name f slice rest b
    exact evaluateProperty_filter_on_object_member h fuel id name f slice _ rest
      (by simp) rfl
  · intro h fuel id name f slice rest n
    exact evaluateProperty_filter_on_object_member h fuel id name f slice _ rest
      (by simp) rfl
  · intro h fuel id name f slice rest s
    exact evaluateProperty_filter_on_object_member h fuel id name f slice _ rest
      (by simp) rfl
  · intro h fuel id name f slice rest id2 members
    exact evaluateProperty_filter_on_object_member h fuel id name f slice _ rest
      (by simp) rfl

end Mondo
